import Mathlib

/-!
# acfunlive: the crawler of `fetch.go`

A shallow embedding of `src/fetch.go` (directory pagination, the live-room
cache, identity resolution, stream-URL resolution) and the properties of it
that the specification states.

Conventions of the embedding

* A Go `string` is its sequence of bytes (`GoString`).
* Go `uint` is 64 bits wide; a `uint` value is a `Nat` below `2 ^ 64`.
* Every HTTP round trip takes its answer from a script of replies, one script
  per endpoint, and records the request it sent.  A reply carries what the
  `fastjson` getters of the program read from the body.
* A call ends in one of three ways: it returns, a panic leaves it, or the
  script runs out while it is still asking (`Run.waiting`).
-/

set_option autoImplicit false

namespace AcFunLive

/-! ## Go strings -/

/-- A Go string: a sequence of bytes. -/
abbrev GoString := List UInt8

/-- The bytes of an ASCII literal of the program text. -/
def lit (s : String) : GoString := s.toList.map (fun c => c.toNat.toUInt8)

/-- Go `strings.HasPrefix(s, p)`. -/
def HasPrefix : GoString → GoString → Bool
  | _, [] => true
  | [], _ :: _ => false
  | c :: s, d :: p => c == d && HasPrefix s p

/-- Go `strings.Index(s, substr)`: the byte index of the first instance of
`substr` in `s`, or `-1` when there is none. -/
def Index : GoString → GoString → Int
  | [], substr => if substr = [] then 0 else -1
  | c :: s, substr =>
    if HasPrefix (c :: s) substr then 0
    else
      let r := Index s substr
      if r < 0 then -1 else r + 1

/-- The loop of Go `strings.Replace(s, old, new, -1)` for a non-empty `old`:
copy up to the next instance of `old`, write `new`, go on behind the instance.
`fuel` bounds the number of bytes still to read. -/
def replaceLoop (old new : GoString) : Nat → GoString → GoString
  | 0, s => s
  | fuel + 1, s =>
    match s with
    | [] => []
    | c :: t =>
      if HasPrefix (c :: t) old then new ++ replaceLoop old new fuel ((c :: t).drop old.length)
      else c :: replaceLoop old new fuel t

/-- Go `strings.ReplaceAll(s, old, new)` for a non-empty `old`, the only way the
program calls it (`old = "pull"`).  With an empty `old` Go inserts `new` at
every rune boundary; that case is outside the embedding and `s` is returned. -/
def ReplaceAll (s old new : GoString) : GoString :=
  if old = [] then s else replaceLoop old new s.length s

/-! ## `strconv.Itoa` and `utos` -/

/-- The decimal digits of `n`, most significant first, in front of `acc`
(the digit loop of Go `strconv.FormatInt` in base 10). -/
def formatBits : Nat → Nat → GoString → GoString
  | 0, _, acc => acc
  | fuel + 1, n, acc =>
    let acc1 := (48 + n % 10).toUInt8 :: acc
    if n / 10 = 0 then acc1 else formatBits fuel (n / 10) acc1

/-- Go `strconv.Itoa(i)`: decimal, with a leading `-` for a negative `i`. -/
def Itoa (i : Int) : GoString :=
  if i < 0 then (45 : UInt8) :: formatBits (i.natAbs + 1) i.natAbs []
  else formatBits (i.natAbs + 1) i.natAbs []

/-- Go conversion `int(u)` of a 64-bit `uint`: the same 64 bits read as a
signed integer. -/
def intOfUint (u : Nat) : Int :=
  if u % 2 ^ 64 < 2 ^ 63 then ((u % 2 ^ 64 : Nat) : Int) else ((u % 2 ^ 64 : Nat) : Int) - 2 ^ 64

/-- `utos` of `fetch.go`: `strconv.Itoa(int(u))`. -/
def utos (u : Nat) : GoString := Itoa (intOfUint u)

/-! ## The live-room cache -/

/-- The struct `liveRoom` of `fetch.go`. -/
structure liveRoom where
  /-- Field `id`, the name of the broadcaster (主播名字). -/
  id : GoString
  /-- Field `title`, the title of the room (直播间标题). -/
  title : GoString
deriving DecidableEq, Repr

/-- A `cmap.ConcurrentMap` from strings to `liveRoom`, as the list of its
entries; no key occurs twice in a map built with `New`, `Set` and `MSet`. -/
structure ConcurrentMap where
  /-- The entries. -/
  entries : List (GoString × liveRoom)
deriving DecidableEq, Repr

namespace ConcurrentMap

/-- Library call `cmap.New()`: the empty map. -/
def New : ConcurrentMap := ⟨[]⟩

/-- Method `Set` on a list of entries: overwrite the value under `key`, or add
the entry when the key is new. -/
def setEntry (key : GoString) (value : liveRoom) :
    List (GoString × liveRoom) → List (GoString × liveRoom)
  | [] => [(key, value)]
  | (k, v) :: rest =>
    if k = key then (k, value) :: rest else (k, v) :: setEntry key value rest

/-- Method `m.Set(key, value)`. -/
def Set (m : ConcurrentMap) (key : GoString) (value : liveRoom) : ConcurrentMap :=
  ⟨setEntry key value m.entries⟩

/-- Method `m.Get(key)`: the value and `ok`, here an `Option`. -/
def Get (m : ConcurrentMap) (key : GoString) : Option liveRoom :=
  match m.entries.find? (fun kv => kv.1 = key) with
  | some kv => some kv.2
  | none => none

/-- Method `m.Has(key)`. -/
def Has (m : ConcurrentMap) (key : GoString) : Bool :=
  m.entries.any (fun kv => kv.1 = key)

/-- Method `m.Items()`: all entries as a Go map.  Go leaves the iteration order
of that map open; the keys are distinct, so folding it into another map gives
the same map for every order. -/
def Items (m : ConcurrentMap) : List (GoString × liveRoom) := m.entries

/-- Method `m.MSet(data)`: `Set` every entry of `data`. -/
def MSet (m : ConcurrentMap) (data : List (GoString × liveRoom)) : ConcurrentMap :=
  data.foldl (fun acc kv => acc.Set kv.1 kv.2) m

end ConcurrentMap

/-- The fields of `streamer` that `fetch.go` reads. -/
structure streamer where
  /-- The numeric uid, a Go `uint`. -/
  UID : Nat
  /-- The broadcaster's name. -/
  ID : GoString
deriving DecidableEq, Repr

/-! ## The network as scripts of replies -/

/-- One element of `channelListData.liveList` as `fetchLiveRoom` reads it. -/
structure LiveEntry where
  /-- Getter `GetUint("authorId")`. -/
  authorId : Nat
  /-- Getter `GetStringBytes("user", "name")`. -/
  name : GoString
  /-- Getter `GetStringBytes("title")`. -/
  title : GoString
deriving DecidableEq, Repr

/-- A channel-list body as `fetchLiveRoom` reads it. -/
structure ChannelList where
  /-- Getter `GetInt("channelListData", "result")`. -/
  result : Int
  /-- Getter `GetArray("channelListData", "liveList")`. -/
  liveList : List LiveEntry
  /-- Getter `GetStringBytes("channelListData", "pcursor")`. -/
  pcursor : GoString
deriving DecidableEq, Repr

/-- A user-info body as `getID` reads it. -/
structure UserInfo where
  /-- Getter `GetInt("result")`. -/
  result : Int
  /-- Getter `GetStringBytes("profile", "name")`. -/
  name : GoString
deriving DecidableEq, Repr

/-- A cookie of `net/http`. -/
structure Cookie where
  /-- Field `Name`. -/
  Name : GoString
  /-- Field `Value`. -/
  Value : GoString
deriving DecidableEq, Repr

/-- A visitor-login body as `getStreamURL` reads it. -/
structure Login where
  /-- Getter `GetInt("result")`. -/
  result : Int
  /-- Getter `GetInt("userId")`. -/
  userId : Int
  /-- Getter `GetStringBytes("acfun.api.visitor_st")`. -/
  visitorSt : GoString
deriving DecidableEq, Repr

/-- One element of the representation array. -/
structure Representation where
  /-- Getter `GetInt("bitrate")`. -/
  bitrate : Int
  /-- Getter `GetStringBytes("url")`. -/
  url : GoString
deriving DecidableEq, Repr

/-- The document inside `data.videoPlayRes` as `getStreamURL` reads it. -/
structure Manifest where
  /-- Getter `GetStringBytes("streamName")`. -/
  streamName : GoString
  /-- Getter `GetArray("liveAdaptiveManifest", "0", "adaptationSet", "representation")`;
  empty when the path is absent. -/
  representation : List Representation
deriving DecidableEq, Repr

/-- A start-play body as `getStreamURL` reads it. -/
structure StartPlay where
  /-- Getter `GetInt("result")`. -/
  result : Int
  /-- The second parse, of the bytes of `data.videoPlayRes`: `none` when they
  are absent or not a JSON document (`ParseBytes` returns an error). -/
  videoPlayRes : Option Manifest
deriving DecidableEq, Repr

/-- The answer to a request whose body the program parses. -/
inductive Reply (α : Type) where
  /-- The transport failed (`http.Get`, `client.Do`, `ioutil.ReadAll`). -/
  | netErr
  /-- The body is not JSON: `ParseBytes` returns an error. -/
  | badJSON
  /-- The body is a JSON document. -/
  | ok (doc : α)
deriving DecidableEq, Repr

/-- Modelled from the spec: `checkErr`, a helper of the repository that is not
under `src/`.  The spec (4.6, 7) has every network error and every malformed
response restart the wrapped operation, which the deferred `recover` does after
a panic only: `checkErr(err)` panics when `err` is not nil.  Applied to a reply
it gives the parsed document, or `none` when one of the `checkErr` calls on the
way to it panics. -/
def checkErr {α : Type} : Reply α → Option α
  | .netErr => none
  | .badJSON => none
  | .ok doc => some doc

/-- The requests `fetch.go` sends. -/
inductive Request where
  /-- GET of the channel list with a cursor. -/
  | channelList (pcursor : GoString)
  /-- GET of the user info of a uid. -/
  | userInfo (uid : Nat)
  /-- GET of the live page of a uid. -/
  | livePage (uid : Nat)
  /-- POST of the visitor login with the device cookie. -/
  | visitorLogin (did : Cookie)
  /-- POST of start-play. -/
  | startPlay (userId : Int) (deviceID : GoString) (serviceToken : GoString) (authorId : Nat)
deriving DecidableEq, Repr

/-- The network: per endpoint the replies still to come, and the requests sent
so far. -/
structure Net where
  /-- Replies of the channel-list endpoint. -/
  channelList : List (Reply ChannelList)
  /-- Replies of the user-info endpoint. -/
  userInfo : List (Reply UserInfo)
  /-- Replies of the live page: the cookies it sets.  Its body is never parsed,
  so `badJSON` does not arise here; it counts as a failure. -/
  livePage : List (Reply (List Cookie))
  /-- Replies of the visitor login. -/
  visitorLogin : List (Reply Login)
  /-- Replies of start-play. -/
  startPlay : List (Reply StartPlay)
  /-- The requests sent, oldest first. -/
  sent : List Request
deriving DecidableEq, Repr

/-- How a call ends. -/
inductive Run (α : Type) where
  /-- The call returned `a`. -/
  | returned (a : α) (net : Net)
  /-- A panic left the call. -/
  | panicked (net : Net)
  /-- The replies ran out while the call was asking. -/
  | waiting (net : Net)
deriving DecidableEq, Repr

/-! ## The directory: `fetchLiveRoom`, `fetchAllRooms` -/

/-- The loop of `fetchLiveRoom` over `liveList`: one `Set` per element. -/
def roomsOf (liveList : List LiveEntry) : ConcurrentMap :=
  liveList.foldl (fun rooms live => rooms.Set (utos live.authorId) ⟨live.name, live.title⟩)
    ConcurrentMap.New

/-- Function `fetchLiveRoom(page)` on the channel-list replies still to come.  A
transport error or a body that is not JSON makes `checkErr` panic; the
deferred function recovers, sleeps and calls `fetchLiveRoom(page)` again.  A
non-zero result code returns the nil map and the empty cursor. -/
def fetchLiveRoomOn (page : GoString) :
    List (Reply ChannelList) → Net → Run (Option ConcurrentMap × GoString)
  | [], net => .waiting { net with channelList := [], sent := net.sent ++ [.channelList page] }
  | reply :: rest, net =>
    let net1 : Net := { net with channelList := rest, sent := net.sent ++ [.channelList page] }
    match checkErr reply with
    | none => fetchLiveRoomOn page rest net1
    | some v =>
      if v.result ≠ 0 then .returned (none, []) net1
      else .returned (some (roomsOf v.liveList), v.pcursor) net1

/-- Function `fetchLiveRoom(page)`. -/
def fetchLiveRoom (page : GoString) (net : Net) : Run (Option ConcurrentMap × GoString) :=
  fetchLiveRoomOn page net.channelList net

/-- The loop of `fetchAllRooms`; every round takes at least one reply, so
`fuel` above the number of replies is never used up.  `rooms.Items()` through
the nil pointer of a page with a non-zero result code is a nil dereference:
the panic leaves `fetchAllRooms`, which has no recover. -/
def fetchAllRoomsLoop : Nat → GoString → ConcurrentMap → Net → Run ConcurrentMap
  | 0, _, _, net => .waiting net
  | fuel + 1, page, allRooms, net =>
    if page = lit "no_more" then .returned allRooms net
    else
      match fetchLiveRoom page net with
      | .returned (rooms, nextPage) net1 =>
        match rooms with
        | none => .panicked net1
        | some r => fetchAllRoomsLoop fuel nextPage (allRooms.MSet r.Items) net1
      | .panicked net1 => .panicked net1
      | .waiting net1 => .waiting net1

/-- Function `fetchAllRooms()`: the value returned is the map that `liveRooms`
points to afterwards. -/
def fetchAllRooms (net : Net) : Run ConcurrentMap :=
  fetchAllRoomsLoop (net.channelList.length + 1) (lit "0") ConcurrentMap.New net

/-- Method `isLiveOn`, reading the map that the pointer `liveRooms` refers to
(before the first `fetchAllRooms` the pointer is nil and the method panics;
`liveRooms` here is a published map). -/
def streamer.isLiveOn (liveRooms : ConcurrentMap) (s : streamer) : Bool :=
  liveRooms.Has (utos s.UID)

/-- Method `getTitle`, reading the published map `liveRooms`. -/
def streamer.getTitle (liveRooms : ConcurrentMap) (s : streamer) : GoString :=
  match liveRooms.Get (utos s.UID) with
  | some room => room.title
  | none => []

/-! ## Identity: `getID` -/

/-- Function `getID(uid)` on the user-info replies still to come. -/
def getIDOn (uid : Nat) : List (Reply UserInfo) → Net → Run GoString
  | [], net => .waiting { net with userInfo := [], sent := net.sent ++ [.userInfo uid] }
  | reply :: rest, net =>
    let net1 : Net := { net with userInfo := rest, sent := net.sent ++ [.userInfo uid] }
    match checkErr reply with
    | none => getIDOn uid rest net1
    | some v => if v.result ≠ 0 then .returned [] net1 else .returned v.name net1

/-- Function `getID(uid)`. -/
def getID (uid : Nat) (net : Net) : Run GoString :=
  getIDOn uid net.userInfo net

/-! ## Stream URLs: `getStreamURL`, `printStreamURL` -/

/-- Go `sort.Slice` on the representation array, with the order given as a
relation on elements.  It is library code that `fetch.go` calls; the functions
below take it as a parameter. -/
abbrev SortSlice :=
  (Representation → Representation → Bool) → List Representation → List Representation

/-- The `less` of `getStreamURL`: the higher bitrate comes first. -/
def bitrateLess (x y : Representation) : Bool := decide (x.bitrate > y.bitrate)

/-- The loop over `resp.Cookies()`: the last cookie named `_did`, if any. -/
def findDid (cookies : List Cookie) : Option Cookie :=
  cookies.foldl (fun didCookie cookie => if cookie.Name = lit "_did" then some cookie else didCookie)
    none

/-- How one pass through the body of `getStreamURL` ends. -/
inductive Pass where
  /-- The body returned the pair `(hlsURL, flvURL)`. -/
  | ret (hlsURL flvURL : GoString)
  /-- The body panicked. -/
  | panic
  /-- The replies ran out. -/
  | wait
deriving DecidableEq, Repr

/-- The end of the body of `getStreamURL`, from the parsed manifest on: sort by
bitrate, take element 0 (a panic on an empty array), cut the FLV URL at the
stream name (a panic when `strings.Index` gives `-1`) and build the HLS URL. -/
def selectURLs (sortSlice : SortSlice) (m : Manifest) : Pass :=
  match sortSlice bitrateLess m.representation with
  | [] => .panic
  | r :: _ =>
    let flvURL := r.url
    let i := Index flvURL m.streamName
    if i < 0 then .panic
    else
      .ret (ReplaceAll (flvURL.take i.toNat) (lit "pull") (lit "hlspull") ++ m.streamName
        ++ lit ".m3u8") flvURL

/-- The body of `getStreamURL` behind the answer of the live page. -/
def getStreamURLPass (sortSlice : SortSlice) (s : streamer) (reply : Reply (List Cookie))
    (net : Net) : Pass × Net :=
  match checkErr reply with
  | none => (.panic, net)
  | some cookies =>
    match findDid cookies with
    | none => (.panic, net)
    | some didCookie =>
      let deviceID := didCookie.Value
      let net1 : Net := { net with sent := net.sent ++ [.visitorLogin didCookie] }
      match net1.visitorLogin with
      | [] => (.wait, net1)
      | login :: logins =>
        let net2 : Net := { net1 with visitorLogin := logins }
        match checkErr login with
        | none => (.panic, net2)
        | some v =>
          if v.result ≠ 0 then (.ret [] [], net2)
          else
            let net3 : Net :=
              { net2 with sent := net2.sent ++ [.startPlay v.userId deviceID v.visitorSt s.UID] }
            match net3.startPlay with
            | [] => (.wait, net3)
            | play :: plays =>
              let net4 : Net := { net3 with startPlay := plays }
              match checkErr play with
              | none => (.panic, net4)
              | some w =>
                if w.result ≠ 1 then (.ret [] [], net4)
                else
                  match w.videoPlayRes with
                  | none => (.panic, net4)
                  | some m => (selectURLs sortSlice m, net4)

/-- Method `getStreamURL` on the live-page replies still to come: after a
panic the deferred function recovers, sleeps and calls `getStreamURL` again. -/
def getStreamURLOn (sortSlice : SortSlice) (s : streamer) :
    List (Reply (List Cookie)) → Net → Run (GoString × GoString)
  | [], net => .waiting { net with livePage := [], sent := net.sent ++ [.livePage s.UID] }
  | reply :: rest, net =>
    match getStreamURLPass sortSlice s reply
        { net with livePage := rest, sent := net.sent ++ [.livePage s.UID] } with
    | (.ret hlsURL flvURL, net1) => .returned (hlsURL, flvURL) net1
    | (.panic, net1) => getStreamURLOn sortSlice s rest net1
    | (.wait, net1) => .waiting net1

/-- Method `getStreamURL`. -/
def streamer.getStreamURL (sortSlice : SortSlice) (s : streamer) (net : Net) :
    Run (GoString × GoString) :=
  getStreamURLOn sortSlice s net.livePage net

/-- Function `printStreamURL(uid)`, reading the published map `liveRooms`; the
log lines are left out. -/
def printStreamURL (sortSlice : SortSlice) (liveRooms : ConcurrentMap) (uid : Nat) (net : Net) :
    Run (GoString × GoString) :=
  match getID uid net with
  | .returned id net1 =>
    if id = [] then .returned ([], []) net1
    else
      let s : streamer := { UID := uid, ID := id }
      if s.isLiveOn liveRooms then s.getStreamURL sortSlice net1
      else .returned ([], []) net1
  | .panicked net1 => .panicked net1
  | .waiting net1 => .waiting net1

/-! ## `sort.Slice` as the Go standard library implemented it (Go 1.8 to 1.18)

`fetch.go` dates from 2020.  From Go 1.8, which introduced `sort.Slice`, to Go
1.18 the library ran `quickSort_func` of `sort/zfuncversion.go`: quicksort with
a median-of-three pivot, heapsort once the depth bound is used up, and for at
most 12 elements one pass of shell sort with gap 6 followed by insertion sort.
The slice is a list here, `less` and `swap` address it by index as in Go. -/

section GoSort

variable {α : Type}

/-- The `Less(i, j)` of the `lessSwap` record: `less` on elements `i` and `j`. -/
def lessAt (less : α → α → Bool) (data : List α) (i j : Nat) : Bool :=
  match data[i]?, data[j]? with
  | some x, some y => less x y
  | _, _ => false

/-- The `Swap(i, j)` of the `lessSwap` record. -/
def swapAt (data : List α) (i j : Nat) : List α :=
  match data[i]?, data[j]? with
  | some x, some y => (data.set i y).set j x
  | _, _ => data

/-- Inner loop of `insertionSort_func`:
`for j := i; j > a && data.Less(j, j-1); j-- { data.Swap(j, j-1) }`. -/
def insertionInner (less : α → α → Bool) (a : Nat) : Nat → List α → List α
  | 0, data => data
  | j + 1, data =>
    if a < j + 1 ∧ lessAt less data (j + 1) j = true then
      insertionInner less a j (swapAt data (j + 1) j)
    else data

/-- Outer loop of `insertionSort_func`: `for i := a + 1; i < b; i++`. -/
def insertionOuter (less : α → α → Bool) (a b : Nat) : Nat → Nat → List α → List α
  | 0, _, data => data
  | fuel + 1, i, data =>
    if i < b then insertionOuter less a b fuel (i + 1) (insertionInner less a i data) else data

/-- Go `insertionSort_func(data, a, b)`. -/
def insertionSort_func (less : α → α → Bool) (data : List α) (a b : Nat) : List α :=
  insertionOuter less a b (b - a) (a + 1) data

/-- The loop of `siftDown_func(data, lo, hi, first)`, `root` starting at `lo`. -/
def siftDownLoop (less : α → α → Bool) (hi first : Nat) : Nat → Nat → List α → List α
  | 0, _, data => data
  | fuel + 1, root, data =>
    let child := 2 * root + 1
    if child ≥ hi then data
    else
      let child1 :=
        if child + 1 < hi ∧ lessAt less data (first + child) (first + child + 1) = true
        then child + 1 else child
      if lessAt less data (first + root) (first + child1) = false then data
      else siftDownLoop less hi first fuel child1 (swapAt data (first + root) (first + child1))

/-- Go `siftDown_func(data, lo, hi, first)`. -/
def siftDown_func (less : α → α → Bool) (data : List α) (lo hi first : Nat) : List α :=
  siftDownLoop less hi first hi lo data

/-- First loop of `heapSort_func`: `for i := (hi - 1) / 2; i >= 0; i--`. -/
def heapBuild (less : α → α → Bool) (hi first : Nat) : Nat → List α → List α
  | 0, data => siftDown_func less data 0 hi first
  | i + 1, data => heapBuild less hi first i (siftDown_func less data (i + 1) hi first)

/-- Second loop of `heapSort_func`: `for i := hi - 1; i >= 0; i--`, the argument
counting `i + 1`. -/
def heapPop (less : α → α → Bool) (first : Nat) : Nat → List α → List α
  | 0, data => data
  | i + 1, data =>
    heapPop less first i (siftDown_func less (swapAt data first (first + i)) 0 i first)

/-- Go `heapSort_func(data, a, b)`. -/
def heapSort_func (less : α → α → Bool) (data : List α) (a b : Nat) : List α :=
  let first := a
  let hi := b - a
  heapPop less first hi (heapBuild less hi first ((hi - 1) / 2) data)

/-- Go `medianOfThree_func(data, m1, m0, m2)`. -/
def medianOfThree_func (less : α → α → Bool) (data : List α) (m1 m0 m2 : Nat) : List α :=
  let data1 := if lessAt less data m1 m0 = true then swapAt data m1 m0 else data
  if lessAt less data1 m2 m1 = true then
    let data2 := swapAt data1 m2 m1
    if lessAt less data2 m1 m0 = true then swapAt data2 m1 m0 else data2
  else data1

/-- Loop of `doPivot_func`: `for ; a < c && data.Less(a, pivot); a++ {}`; the
value is the final `a`. -/
def pivotSkipLess (less : α → α → Bool) (data : List α) (pivot c : Nat) : Nat → Nat → Nat
  | 0, a => a
  | fuel + 1, a =>
    if a < c ∧ lessAt less data a pivot = true then pivotSkipLess less data pivot c fuel (a + 1)
    else a

/-- Loop of `doPivot_func`: `for ; b < c && !data.Less(pivot, b); b++ {}`. -/
def pivotSkipLe (less : α → α → Bool) (data : List α) (pivot c : Nat) : Nat → Nat → Nat
  | 0, b => b
  | fuel + 1, b =>
    if b < c ∧ lessAt less data pivot b = false then pivotSkipLe less data pivot c fuel (b + 1)
    else b

/-- Loop of `doPivot_func`: `for ; b < c && data.Less(pivot, c-1); c-- {}`. -/
def pivotSkipGt (less : α → α → Bool) (data : List α) (pivot b : Nat) : Nat → Nat
  | 0 => 0
  | c + 1 =>
    if b < c + 1 ∧ lessAt less data pivot c = true then pivotSkipGt less data pivot b c
    else c + 1

/-- The partition loop of `doPivot_func`; the value is `(data, b, c)`. -/
def pivotPartition (less : α → α → Bool) (pivot : Nat) :
    Nat → List α → Nat → Nat → List α × Nat × Nat
  | 0, data, b, c => (data, b, c)
  | fuel + 1, data, b, c =>
    let b1 := pivotSkipLe less data pivot c (c - b) b
    let c1 := pivotSkipGt less data pivot b1 c
    if b1 ≥ c1 then (data, b1, c1)
    else pivotPartition less pivot fuel (swapAt data b1 (c1 - 1)) (b1 + 1) (c1 - 1)

/-- Loop of the duplicate protection:
`for ; a < b && !data.Less(b-1, pivot); b-- {}`. -/
def protectSkipEq (less : α → α → Bool) (data : List α) (pivot a : Nat) : Nat → Nat
  | 0 => 0
  | b + 1 =>
    if a < b + 1 ∧ lessAt less data b pivot = false then protectSkipEq less data pivot a b
    else b + 1

/-- The loop of the duplicate protection of `doPivot_func`; the value is
`(data, b)`. -/
def protectLoop (less : α → α → Bool) (pivot : Nat) : Nat → List α → Nat → Nat → List α × Nat
  | 0, data, _, b => (data, b)
  | fuel + 1, data, a, b =>
    let b1 := protectSkipEq less data pivot a b
    let a1 := pivotSkipLess less data pivot b1 (b1 - a) a
    if a1 ≥ b1 then (data, b1)
    else protectLoop less pivot fuel (swapAt data a1 (b1 - 1)) (a1 + 1) (b1 - 1)

/-- The choice of the pivot in `doPivot_func`: for more than 40 elements
Tukey's ninther, then the median of the first, the middle and the last element
goes to place `lo`. -/
def pivotChoose (less : α → α → Bool) (data : List α) (lo hi : Nat) : List α :=
  let m := (lo + hi) / 2
  let data1 :=
    if hi - lo > 40 then
      let s := (hi - lo) / 8
      let d1 := medianOfThree_func less data lo (lo + s) (lo + 2 * s)
      let d2 := medianOfThree_func less d1 m (m - s) (m + s)
      medianOfThree_func less d2 (hi - 1) (hi - 1 - s) (hi - 1 - 2 * s)
    else data
  medianOfThree_func less data1 lo m (hi - 1)

/-- The test for duplicates of the pivot in `doPivot_func`, behind the
partition loop: the value is `(data, b, c, protect)`. -/
def pivotDups (less : α → α → Bool) (data : List α) (lo hi b c : Nat) :
    List α × Nat × Nat × Bool :=
  let m := (lo + hi) / 2
  let pivot := lo
  let protect0 := decide (hi - c < 5)
  if protect0 = false ∧ hi - c < (hi - lo) / 4 then
    let (d1, c1, dups1) :=
      if lessAt less data pivot (hi - 1) = false then (swapAt data c (hi - 1), c + 1, 1)
      else (data, c, 0)
    let (b1, dups2) :=
      if lessAt less d1 (b - 1) pivot = false then (b - 1, dups1 + 1) else (b, dups1)
    let (d2, b2, dups3) :=
      if lessAt less d1 m pivot = false then (swapAt d1 m (b1 - 1), b1 - 1, dups2 + 1)
      else (d1, b1, dups2)
    (d2, b2, c1, decide (dups3 > 1))
  else (data, b, c, protect0)

/-- Go `doPivot_func(data, lo, hi)`; the value is `(data, midlo, midhi)`. -/
def doPivot_func (less : α → α → Bool) (data : List α) (lo hi : Nat) : List α × Nat × Nat :=
  let data2 := pivotChoose less data lo hi
  let pivot := lo
  let a := pivotSkipLess less data2 pivot (hi - 1) (hi - 1 - (lo + 1)) (lo + 1)
  match pivotPartition less pivot (hi - 1 - a) data2 a (hi - 1) with
  | (data3, b, c) =>
    match pivotDups less data3 lo hi b c with
    | (data4, b1, c1, protect) =>
      match (if protect = true then protectLoop less pivot (b1 - a) data4 a b1
        else (data4, b1)) with
      | (data5, b2) => (swapAt data5 pivot (b2 - 1), b2 - 1, c1)

/-- The shell-sort pass of `quickSort_func`:
`for i := a + 6; i < b; i++ { if data.Less(i, i-6) { data.Swap(i, i-6) } }`. -/
def shellPass (less : α → α → Bool) (b : Nat) : Nat → Nat → List α → List α
  | 0, _, data => data
  | fuel + 1, i, data =>
    if i < b then
      shellPass less b fuel (i + 1)
        (if lessAt less data i (i - 6) = true then swapAt data i (i - 6) else data)
    else data

/-- Go `quickSort_func(data, a, b, maxDepth)`, by recursion on `maxDepth`. -/
def quickSort_func (less : α → α → Bool) : Nat → List α → Nat → Nat → List α
  | maxDepth, data, a, b =>
    if b - a > 12 then
      match maxDepth with
      | 0 => heapSort_func less data a b
      | depth + 1 =>
        match doPivot_func less data a b with
        | (data1, mlo, mhi) =>
          if mlo - a < b - mhi then
            quickSort_func less depth (quickSort_func less depth data1 a mlo) mhi b
          else
            quickSort_func less depth (quickSort_func less depth data1 mhi b) a mlo
    else if b - a > 1 then
      insertionSort_func less (shellPass less b (b - (a + 6)) (a + 6) data) a b
    else data

/-- Loop of Go `maxDepth(n)`: `for i := n; i > 0; i >>= 1 { depth++ }`. -/
def maxDepthLoop : Nat → Nat → Nat → Nat
  | 0, _, depth => depth
  | fuel + 1, i, depth => if i > 0 then maxDepthLoop fuel (i / 2) (depth + 1) else depth

/-- Go `maxDepth(n)`: twice the number of binary digits of `n`. -/
def maxDepth (n : Nat) : Nat := maxDepthLoop n n 0 * 2

/-- Go `sort.Slice(data, less)` of Go 1.8 to 1.18. -/
def sortSliceGo118 (less : α → α → Bool) (data : List α) : List α :=
  quickSort_func less (maxDepth data.length) data 0 data.length

end GoSort

/-! ## Notions used to state the properties -/

/-- One decimal digit more: the step of reading a number from its digits. -/
def digitVal (acc : Nat) (d : UInt8) : Nat := acc * 10 + (d.toNat - 48)

/-- The integer that a decimal string with an optional leading `-` denotes. -/
def atoi : GoString → Int
  | [] => 0
  | d :: t =>
    if d = 45 then -((t.foldl digitVal 0 : Nat) : Int)
    else (((d :: t).foldl digitVal 0 : Nat) : Int)

/-- The value of the last pair of `data` under `key`. -/
def lastUnder (key : GoString) : List (GoString × liveRoom) → Option liveRoom
  | [] => none
  | kv :: rest =>
    match lastUnder key rest with
    | some v => some v
    | none => if kv.1 = key then some kv.2 else none

/-- The cache entry that a listed room becomes. -/
def entryOf (live : LiveEntry) : GoString × liveRoom :=
  (utos live.authorId, ⟨live.name, live.title⟩)

/-- The map `fetchAllRooms` builds from the `liveList`s of the pages it folds,
in the order of the pages. -/
def storeAll (allRooms : ConcurrentMap) (lists : List (List LiveEntry)) : ConcurrentMap :=
  lists.foldl (fun all liveList => all.MSet (roomsOf liveList).Items) allRooms

/-- What `fetchAllRooms` asks for when the pages of `script` come back one after
the other, each after the failures listed in front of it: every cursor once
more than it failed. -/
def requestsOf : GoString → List (List (Reply ChannelList) × ChannelList) → List Request
  | _, [] => []
  | page, (fails, p) :: rest =>
    List.replicate (fails.length + 1) (Request.channelList page) ++ requestsOf p.pcursor rest

/-- The replies of a script: before each page its failures. -/
def repliesOf (script : List (List (Reply ChannelList) × ChannelList)) :
    List (Reply ChannelList) :=
  script.flatMap (fun fp => fp.1 ++ [Reply.ok fp.2])

/-- A script that `fetchAllRooms` reads to its end from cursor `page`: every
listed failure is one, every page has result code 0, and `no_more` is the
cursor of the last page only. -/
def scriptOK : GoString → List (List (Reply ChannelList) × ChannelList) → Bool
  | page, [] => decide (page = lit "no_more")
  | page, (fails, p) :: rest =>
    decide (page ≠ lit "no_more") && fails.all (fun r => (checkErr r).isNone)
      && decide (p.result = 0) && scriptOK p.pcursor rest

/-- No key occurs twice in the entries of the map. -/
def ConcurrentMap.KeysNodup (m : ConcurrentMap) : Prop := (m.entries.map Prod.fst).Nodup

/-- The entry listed last for `uid`. -/
def lastListed (uid : Nat) : List LiveEntry → Option LiveEntry
  | [] => none
  | live :: rest =>
    match lastListed uid rest with
    | some found => some found
    | none => if live.authorId = uid then some live else none

/-! ## Concrete inputs -/

/-- A network on which only the channel list answers. -/
def channelNet (replies : List (Reply ChannelList)) : Net :=
  { channelList := replies, userInfo := [], livePage := [], visitorLogin := [], startPlay := [],
    sent := [] }

/-- A first page: two rooms, next cursor `1`. -/
def pageOne : ChannelList :=
  { result := 0
    liveList := [⟨1001, lit "alice", lit "morning"⟩, ⟨1002, lit "bob", lit "games"⟩]
    pcursor := lit "1" }

/-- A last page: one room of the first page again and a new one. -/
def pageTwo : ChannelList :=
  { result := 0
    liveList := [⟨1002, lit "bob", lit "more games"⟩, ⟨1003, lit "carol", lit "music"⟩]
    pcursor := lit "no_more" }

/-- A page with a non-zero result code. -/
def pageRefused : ChannelList := { result := 1, liveList := [], pcursor := [] }

/-- The first page of a listing, arriving after one transport error. -/
def flakyInit : List (List (Reply ChannelList) × ChannelList) := [([Reply.netErr], pageOne)]

/-- The failures in front of the last page: a body that is not JSON, then a
transport error. -/
def flakyFails : List (Reply ChannelList) := [Reply.badJSON, Reply.netErr]

/-- A network that has not answered anything yet and will not. -/
def idleNet : Net := channelNet []

/-- The requirement of `sort.Slice` on `less`, a transitive ordering: of two
elements at most one is less than the other, and "not less than" is
transitive. -/
def StrictWeak {α : Type} (less : α → α → Bool) : Prop :=
  (∀ x y, less x y = true → less y x = false) ∧
    ∀ x y z, less y x = false → less z y = false → less z x = false

/-- What the documentation of `sort.Slice` promises: the slice holds the same
elements afterwards, and under a `less` that is a transitive ordering no
element is less than one in front of it.  It promises no stability ("equal
elements may be reversed from their original order"). -/
structure SortsSlices (sortSlice : SortSlice) : Prop where
  /-- The result is a rearrangement of the slice. -/
  perm : ∀ less data, StrictWeak less → (sortSlice less data).Perm data
  /-- The result is sorted. -/
  sorted : ∀ less data, StrictWeak less →
    (sortSlice less data).Pairwise (fun x y => less y x = false)

/-- A sort that keeps what the documentation of `sort.Slice` promises:
insertion sort on lists. -/
def insertionSlice : SortSlice :=
  fun less data => data.insertionSort (fun x y => less y x = false)

/-- The network after one pass of `getStreamURL` that got all three answers. -/
def afterPass (s : streamer) (net : Net) (didCookie : Cookie) (login : Login) : Net :=
  { net with
    livePage := net.livePage.tail
    visitorLogin := net.visitorLogin.tail
    startPlay := net.startPlay.tail
    sent := net.sent ++
      [Request.livePage s.UID, Request.visitorLogin didCookie,
        Request.startPlay login.userId didCookie.Value login.visitorSt s.UID] }

/-- The representations that no representation of the list exceeds in bitrate,
in the order of the manifest. -/
def maximal (reps : List Representation) : List Representation :=
  reps.filter (fun r => reps.all (fun q => decide (q.bitrate ≤ r.bitrate)))

/-- The first representation, in the order of the manifest, among those of
maximum bitrate. -/
def firstMaximal (reps : List Representation) : Option Representation :=
  (maximal reps).head?

/-- A network that answers one or more rounds of `getStreamURL`: the live page
sets the device cookie, the visitor login succeeds, and start-play answers the
rounds with `plays`. -/
def streamNet (plays : List (Reply StartPlay)) : Net :=
  { channelList := []
    userInfo := []
    livePage := plays.map (fun _ => Reply.ok [⟨lit "lang", lit "zh"⟩, ⟨lit "_did", lit "web_1"⟩])
    visitorLogin := plays.map (fun _ => Reply.ok ⟨0, 7, lit "token"⟩)
    startPlay := plays
    sent := [] }

/-- The manifest of the example of the specification: bitrates 100, 500, 300
with the urls `a`, `b`, `c`; the stream name is empty. -/
def threeManifest : Manifest :=
  { streamName := []
    representation := [⟨100, lit "a"⟩, ⟨500, lit "b"⟩, ⟨300, lit "c"⟩] }

/-- A manifest of 13 representations, of which the second and the third share
the maximum bitrate. -/
def tiedManifest : Manifest :=
  { streamName := lit "s"
    representation :=
      [⟨0, lit "s/x"⟩, ⟨9, lit "s/a"⟩, ⟨9, lit "s/b"⟩, ⟨0, lit "s/p"⟩, ⟨0, lit "s/q"⟩,
        ⟨0, lit "s/r"⟩, ⟨0, lit "s/t"⟩, ⟨0, lit "s/u"⟩, ⟨0, lit "s/v"⟩, ⟨0, lit "s/w"⟩,
        ⟨0, lit "s/y"⟩, ⟨0, lit "s/z"⟩, ⟨0, lit "s/n"⟩] }

/-- The manifest of the example of the specification for the HLS URL. -/
def edgeManifest : Manifest :=
  { streamName := lit "streamName123"
    representation := [⟨2000, lit "https://edgepull.example.com/streamName123?auth=1"⟩] }

/-- A manifest without representations. -/
def emptyManifest : Manifest := { streamName := lit "streamName123", representation := [] }

/-- The streamer of the examples. -/
def bob : streamer := { UID := 1002, ID := lit "bob" }

/-- A network on which the user info answers with `profile` and one round of
`getStreamURL` would get the manifest `edgeManifest`. -/
def profileNet (profile : List (Reply UserInfo)) : Net :=
  { streamNet [Reply.ok ⟨1, some edgeManifest⟩] with userInfo := profile }

/-- The map published from `pageOne` and `pageTwo`. -/
def publishedRooms : ConcurrentMap :=
  storeAll ConcurrentMap.New [pageOne.liveList, pageTwo.liveList]

/-! ## Notions for the correctness of the library sort -/

section SortNotions

variable {α : Type}

/-- The elements of `data` at the places `a ≤ i < b` are in order: no element
is less than an element in front of it. -/
def SortedOn (less : α → α → Bool) (data : List α) (a b : Nat) : Prop :=
  ∀ i j x y, a ≤ i → i < j → j < b → data[i]? = some x → data[j]? = some y → less y x = false

/-- All elements of `data` at the places `a ≤ i < b` satisfy `P`. -/
def AllOn (P : α → Prop) (data : List α) (a b : Nat) : Prop :=
  ∀ i x, a ≤ i → i < b → data[i]? = some x → P x

/-- The list `data1` comes from `data` by rearranging the places `a ≤ i < b`. -/
def Keeps (a b : Nat) (data data1 : List α) : Prop :=
  data1.length = data.length ∧ data1.Perm data ∧
    (∀ i, i < a ∨ b ≤ i → data1[i]? = data[i]?) ∧
    ∀ P : α → Prop, AllOn P data a b → AllOn P data1 a b

end SortNotions

section HeapNotions

variable {α : Type}

/-- In the heap of `hi` elements that starts at place `first`, node `k` is not
less than its children. -/
def HeapAt (less : α → α → Bool) (data : List α) (first hi k : Nat) : Prop :=
  ∀ c x y, (c = 2 * k + 1 ∨ c = 2 * k + 2) → c < hi → data[first + k]? = some x →
    data[first + c]? = some y → less x y = false

end HeapNotions

section PivotNotions

variable {α : Type}

/-- The state of `doPivot_func` behind its partition loop, with `p` the pivot:
the pivot is at place `lo`, then come elements less than it (up to `a`),
elements that it is not less than (up to `b`), elements equal to it in the
order (up to `c`), and elements that are not less than it (up to `hi`). -/
def PivotRegions (less : α → α → Bool) (p : α) (data : List α) (lo a b c hi : Nat) : Prop :=
  data[lo]? = some p ∧
    AllOn (fun x => less x p = true) data (lo + 1) a ∧
    AllOn (fun x => less p x = false) data a b ∧
    AllOn (fun x => less p x = false ∧ less x p = false) data b c ∧
    AllOn (fun x => less x p = false) data c hi

/-- The result of `doPivot_func`: for some pivot `p`, the places `lo ≤ i < mlo`
hold elements that `p` is not less than, the places `mlo ≤ i < mhi` elements
equal to `p` in the order, the places `mhi ≤ i < hi` elements not less than
`p`. -/
def Partitioned (less : α → α → Bool) (data : List α) (lo hi mlo mhi : Nat) : Prop :=
  lo ≤ mlo ∧ mlo < mhi ∧ mhi ≤ hi ∧
    ∃ p, AllOn (fun x => less p x = false) data lo mlo ∧
      AllOn (fun x => less p x = false ∧ less x p = false) data mlo mhi ∧
      AllOn (fun x => less x p = false) data mhi hi

end PivotNotions

/-! # Properties -/

/-! ## `utos` is injective -/

theorem digit_toNat (k : Nat) (h : k < 10) : ((48 + k).toUInt8).toNat = 48 + k := by
  interval_cases k <;> rfl

theorem digit_ne_minus (k : Nat) (h : k < 10) : (48 + k).toUInt8 ≠ 45 := by
  interval_cases k <;> decide

theorem formatBits_foldl (fuel : Nat) : ∀ (n : Nat) (acc : GoString), n < fuel →
    (formatBits fuel n acc).foldl digitVal 0 = acc.foldl digitVal n := by
  induction fuel with
  | zero => intro n acc h; omega
  | succ fuel ih =>
    intro n acc h
    have hd : ((48 + n % 10).toUInt8).toNat = 48 + n % 10 :=
      digit_toNat _ (Nat.mod_lt _ (by decide))
    simp only [formatBits]
    split
    · simp only [List.foldl_cons, digitVal, hd]
      congr 1
      omega
    · rw [ih (n / 10) _ (by omega)]
      simp only [List.foldl_cons, digitVal, hd]
      congr 1
      omega

theorem formatBits_head (fuel : Nat) : ∀ (n : Nat) (acc : GoString),
    ∃ d t, formatBits (fuel + 1) n acc = d :: t ∧ d ≠ 45 := by
  induction fuel with
  | zero =>
    intro n acc
    exact ⟨(48 + n % 10).toUInt8, acc, by simp [formatBits],
      digit_ne_minus _ (Nat.mod_lt _ (by decide))⟩
  | succ fuel ih =>
    intro n acc
    simp only [formatBits]
    split
    · exact ⟨(48 + n % 10).toUInt8, acc, rfl, digit_ne_minus _ (Nat.mod_lt _ (by decide))⟩
    · exact ih _ _

/-- Reading back what `strconv.Itoa` wrote gives the integer. -/
theorem atoi_Itoa (i : Int) : atoi (Itoa i) = i := by
  unfold Itoa
  split
  · simp only [atoi, if_true]
    rw [formatBits_foldl _ _ _ (Nat.lt_succ_self _)]
    simp only [List.foldl_nil]
    omega
  · obtain ⟨d, t, hdt, hd⟩ := formatBits_head i.natAbs i.natAbs []
    have := formatBits_foldl (i.natAbs + 1) i.natAbs [] (Nat.lt_succ_self _)
    rw [hdt] at this ⊢
    simp only [atoi, if_neg hd, this, List.foldl_nil]
    omega

theorem intOfUint_inj (a b : Nat) (ha : a < 2 ^ 64) (hb : b < 2 ^ 64)
    (h : intOfUint a = intOfUint b) : a = b := by
  unfold intOfUint at h
  rw [Nat.mod_eq_of_lt ha, Nat.mod_eq_of_lt hb] at h
  split at h <;> split at h <;> omega

theorem utos_inj (a b : Nat) (ha : a < 2 ^ 64) (hb : b < 2 ^ 64)
    (h : utos a = utos b) : a = b := by
  apply intOfUint_inj a b ha hb
  have := congrArg atoi h
  simpa [utos, atoi_Itoa] using this

/-! ## The cache as a finite map -/

namespace ConcurrentMap

theorem find_setEntry (key k : GoString) (v : liveRoom) (l : List (GoString × liveRoom)) :
    (setEntry key v l).find? (fun kv => kv.1 = k) =
      if k = key then some (key, v) else l.find? (fun kv => kv.1 = k) := by
  induction l with
  | nil =>
    by_cases h : k = key
    · simp [setEntry, h]
    · have h1 : ¬ key = k := fun e => h e.symm
      simp [setEntry, h, h1]
  | cons kv rest ih =>
    obtain ⟨k0, v0⟩ := kv
    simp only [setEntry]
    by_cases h0 : k0 = key
    · subst h0
      by_cases h : k = k0
      · subst h
        simp
      · have h1 : ¬ k0 = k := fun e => h e.symm
        simp [h, h1]
    · simp only [if_neg h0, List.find?_cons]
      by_cases h1 : k0 = k
      · subst h1
        simp [h0]
      · simp [h1, ih]

theorem Get_Set (m : ConcurrentMap) (key k : GoString) (v : liveRoom) :
    (m.Set key v).Get k = if k = key then some v else m.Get k := by
  unfold Get Set
  rw [find_setEntry]
  by_cases h : k = key <;> simp [h]

theorem Has_eq_isSome (m : ConcurrentMap) (k : GoString) : m.Has k = (m.Get k).isSome := by
  obtain ⟨l⟩ := m
  unfold Has Get
  induction l with
  | nil => simp
  | cons kv rest ih =>
    by_cases h : kv.1 = k
    · simp [h]
    · simp only [List.any_cons, h, decide_False, Bool.false_or, List.find?_cons]
      simpa using ih

theorem Get_MSet (data : List (GoString × liveRoom)) : ∀ (m : ConcurrentMap) (k : GoString),
    (m.MSet data).Get k = (lastUnder k data).orElse (fun _ => m.Get k) := by
  induction data with
  | nil => intro m k; simp [MSet, lastUnder]
  | cons kv rest ih =>
    intro m k
    have h := ih (m.Set kv.1 kv.2) k
    simp only [MSet, List.foldl_cons] at h ⊢
    rw [h, Get_Set]
    simp only [lastUnder]
    cases hl : lastUnder k rest with
    | some v => simp
    | none =>
      by_cases hk : kv.1 = k
      · simp [hk]
      · have hk1 : ¬ k = kv.1 := fun e => hk e.symm
        simp [hk, hk1]

theorem keys_setEntry (key : GoString) (v : liveRoom) (l : List (GoString × liveRoom)) :
    (setEntry key v l).map Prod.fst =
      if key ∈ l.map Prod.fst then l.map Prod.fst else l.map Prod.fst ++ [key] := by
  induction l with
  | nil => simp [setEntry]
  | cons kv rest ih =>
    obtain ⟨k0, v0⟩ := kv
    simp only [setEntry]
    by_cases h0 : k0 = key
    · subst h0
      simp
    · have h1 : ¬ key = k0 := fun e => h0 e.symm
      simp only [if_neg h0, List.map_cons, ih, List.mem_cons, h1, false_or]
      split <;> simp

theorem KeysNodup_New : New.KeysNodup := by
  simp [KeysNodup, New]

theorem KeysNodup_Set (m : ConcurrentMap) (key : GoString) (v : liveRoom) (h : m.KeysNodup) :
    (m.Set key v).KeysNodup := by
  unfold KeysNodup Set at *
  simp only [keys_setEntry]
  split
  · exact h
  · rename_i hk
    rw [List.nodup_append]
    refine ⟨h, List.nodup_singleton _, ?_⟩
    intro a ha hb
    simp only [List.mem_singleton] at hb
    subst hb
    exact hk ha

theorem KeysNodup_MSet (data : List (GoString × liveRoom)) :
    ∀ m : ConcurrentMap, m.KeysNodup → (m.MSet data).KeysNodup := by
  induction data with
  | nil => intro m h; simpa [MSet] using h
  | cons kv rest ih =>
    intro m h
    have := ih (m.Set kv.1 kv.2) (KeysNodup_Set m _ _ h)
    simpa [MSet] using this

theorem lastUnder_none_of_not_mem (k : GoString) (l : List (GoString × liveRoom))
    (h : k ∉ l.map Prod.fst) : lastUnder k l = none := by
  induction l with
  | nil => rfl
  | cons kv rest ih =>
    simp only [List.map_cons, List.mem_cons, not_or] at h
    have h1 : ¬ kv.1 = k := fun e => h.1 e.symm
    simp [lastUnder, ih h.2, h1]

theorem lastUnder_eq_Get (m : ConcurrentMap) (k : GoString) (h : m.KeysNodup) :
    lastUnder k m.entries = m.Get k := by
  obtain ⟨l⟩ := m
  unfold KeysNodup at h
  unfold Get
  simp only at h ⊢
  induction l with
  | nil => rfl
  | cons kv rest ih =>
    simp only [List.map_cons, List.nodup_cons] at h
    by_cases hk : kv.1 = k
    · subst hk
      simp [lastUnder, lastUnder_none_of_not_mem _ _ h.1]
    · simp only [lastUnder, ih h.2, hk, if_false, List.find?_cons, decide_False]
      cases List.find? (fun kv => decide (kv.1 = k)) rest <;> rfl

theorem lastUnder_append (k : GoString) (l1 l2 : List (GoString × liveRoom)) :
    lastUnder k (l1 ++ l2) = (lastUnder k l2).orElse (fun _ => lastUnder k l1) := by
  induction l1 with
  | nil =>
    simp only [List.nil_append]
    cases lastUnder k l2 <;> rfl
  | cons kv rest ih =>
    have e : lastUnder k (kv :: rest ++ l2) =
        match lastUnder k (rest ++ l2) with
        | some v => some v
        | none => if kv.1 = k then some kv.2 else none := rfl
    have e2 : lastUnder k (kv :: rest) =
        match lastUnder k rest with
        | some v => some v
        | none => if kv.1 = k then some kv.2 else none := rfl
    rw [e, e2, ih]
    cases lastUnder k l2 <;> simp

theorem lastUnder_isSome_iff (k : GoString) (l : List (GoString × liveRoom)) :
    (lastUnder k l).isSome = true ↔ k ∈ l.map Prod.fst := by
  constructor
  · intro h
    by_contra hn
    rw [lastUnder_none_of_not_mem k l hn] at h
    simp at h
  · intro h
    induction l with
    | nil => simp at h
    | cons kv rest ih =>
      simp only [lastUnder]
      cases hl : lastUnder k rest with
      | some v => rfl
      | none =>
        simp only [List.map_cons, List.mem_cons] at h
        rcases h with h | h
        · simp [h]
        · have := ih h
          rw [hl] at this
          simp at this

theorem lastUnder_some_mem (k : GoString) (v : liveRoom) (l : List (GoString × liveRoom))
    (h : lastUnder k l = some v) : (k, v) ∈ l := by
  induction l with
  | nil => simp [lastUnder] at h
  | cons kv rest ih =>
    simp only [lastUnder] at h
    cases hl : lastUnder k rest with
    | some w =>
      rw [hl] at h
      simp only [Option.some.injEq] at h
      subst h
      exact List.mem_cons_of_mem _ (ih hl)
    | none =>
      rw [hl] at h
      simp only at h
      split at h
      · rename_i hk
        simp only [Option.some.injEq] at h
        subst h
        subst hk
        exact List.mem_cons_self _ _
      · simp at h

end ConcurrentMap

open ConcurrentMap in
theorem roomsOf_eq_MSet (liveList : List LiveEntry) :
    roomsOf liveList = ConcurrentMap.New.MSet (liveList.map entryOf) := by
  unfold roomsOf ConcurrentMap.MSet
  rw [List.foldl_map]
  rfl

theorem KeysNodup_roomsOf (liveList : List LiveEntry) : (roomsOf liveList).KeysNodup := by
  rw [roomsOf_eq_MSet]
  exact ConcurrentMap.KeysNodup_MSet _ _ ConcurrentMap.KeysNodup_New

theorem Get_roomsOf (liveList : List LiveEntry) (k : GoString) :
    (roomsOf liveList).Get k = lastUnder k (liveList.map entryOf) := by
  rw [roomsOf_eq_MSet, ConcurrentMap.Get_MSet]
  cases lastUnder k (liveList.map entryOf) <;> simp [ConcurrentMap.Get, ConcurrentMap.New]

theorem KeysNodup_storeAll (lists : List (List LiveEntry)) :
    ∀ all : ConcurrentMap, all.KeysNodup → (storeAll all lists).KeysNodup := by
  induction lists with
  | nil => intro all h; exact h
  | cons l rest ih =>
    intro all h
    exact ih _ (ConcurrentMap.KeysNodup_MSet _ _ h)

theorem Get_storeAll (lists : List (List LiveEntry)) : ∀ (all : ConcurrentMap) (k : GoString),
    (storeAll all lists).Get k =
      (lastUnder k (lists.flatten.map entryOf)).orElse (fun _ => all.Get k) := by
  induction lists with
  | nil => intro all k; simp [storeAll, lastUnder]
  | cons l rest ih =>
    intro all k
    have h := ih (all.MSet (roomsOf l).Items) k
    simp only [storeAll, List.foldl_cons] at h ⊢
    rw [h, ConcurrentMap.Get_MSet, ConcurrentMap.Items,
      ConcurrentMap.lastUnder_eq_Get _ _ (KeysNodup_roomsOf l), Get_roomsOf]
    simp only [List.flatten_cons, List.map_append, ConcurrentMap.lastUnder_append]
    cases lastUnder k (List.map entryOf rest.flatten) <;> simp

/-! ## Runs of `fetchLiveRoom` and `fetchAllRooms` -/

/-- After failures only, `fetchLiveRoom` has asked once per failure and is
still asking. -/
theorem fetchLiveRoomOn_fails (page : GoString) (fails : List (Reply ChannelList))
    (hf : ∀ r ∈ fails, checkErr r = none) : ∀ (rest : List (Reply ChannelList)) (net : Net),
    fetchLiveRoomOn page (fails ++ rest) net =
      fetchLiveRoomOn page rest
        { net with
          channelList := rest
          sent := net.sent ++ List.replicate fails.length (Request.channelList page) } := by
  induction fails with
  | nil =>
    intro rest net
    cases rest <;> simp [fetchLiveRoomOn]
  | cons r fails ih =>
    intro rest net
    have hr : checkErr r = none := hf r (List.mem_cons_self _ _)
    have ih1 := ih (fun x hx => hf x (List.mem_cons_of_mem _ hx)) rest
    have e : (r :: fails) ++ rest = r :: (fails ++ rest) := rfl
    rw [e, fetchLiveRoomOn]
    simp only [hr]
    rw [ih1]
    simp [List.replicate_succ, List.append_assoc]

/-- The call `fetchLiveRoom(page)` on a page that arrives after some failures. -/
theorem fetchLiveRoom_after_fails (page : GoString) (fails : List (Reply ChannelList))
    (hf : ∀ r ∈ fails, checkErr r = none) (v : ChannelList) (rest : List (Reply ChannelList))
    (net : Net) (hnet : net.channelList = fails ++ Reply.ok v :: rest) :
    fetchLiveRoom page net =
      Run.returned
        (if v.result ≠ 0 then (none, []) else (some (roomsOf v.liveList), v.pcursor))
        { net with
          channelList := rest
          sent := net.sent ++ List.replicate (fails.length + 1) (Request.channelList page) } := by
  unfold fetchLiveRoom
  rw [hnet, fetchLiveRoomOn_fails page fails hf]
  simp only [fetchLiveRoomOn, checkErr]
  have e : List.replicate (fails.length + 1) (Request.channelList page) =
      List.replicate fails.length (Request.channelList page) ++ [Request.channelList page] := by
    rw [List.replicate_succ']
  split <;> simp [e, List.append_assoc]

theorem repliesOf_cons (fp : List (Reply ChannelList) × ChannelList)
    (script : List (List (Reply ChannelList) × ChannelList)) :
    repliesOf (fp :: script) = fp.1 ++ Reply.ok fp.2 :: repliesOf script := by
  simp [repliesOf]

theorem length_le_repliesOf (script : List (List (Reply ChannelList) × ChannelList)) :
    script.length ≤ (repliesOf script).length := by
  induction script with
  | nil => simp
  | cons fp rest ih =>
    rw [repliesOf_cons]
    simp only [List.length_cons, List.length_append]
    omega

/-- The run of the loop of `fetchAllRooms` over a script it reads to its end. -/
theorem fetchAllRoomsLoop_script (script : List (List (Reply ChannelList) × ChannelList)) :
    ∀ (fuel : Nat) (page : GoString) (allRooms : ConcurrentMap) (net : Net)
      (more : List (Reply ChannelList)),
      script.length < fuel → scriptOK page script = true →
      net.channelList = repliesOf script ++ more →
      fetchAllRoomsLoop fuel page allRooms net =
        Run.returned (storeAll allRooms (script.map (fun fp => fp.2.liveList)))
          { net with channelList := more, sent := net.sent ++ requestsOf page script } := by
  induction script with
  | nil =>
    intro fuel page allRooms net more hfuel hok hnet
    obtain ⟨fuel, rfl⟩ : ∃ f, fuel = f + 1 := ⟨fuel - 1, by simp at hfuel; omega⟩
    simp only [scriptOK, decide_eq_true_eq] at hok
    simp only [repliesOf, List.flatMap_nil, List.nil_append] at hnet
    simp [fetchAllRoomsLoop, hok, storeAll, requestsOf, ← hnet]
  | cons fp rest ih =>
    intro fuel page allRooms net more hfuel hok hnet
    obtain ⟨fuel, rfl⟩ : ∃ f, fuel = f + 1 := ⟨fuel - 1, by simp at hfuel; omega⟩
    obtain ⟨fails, p⟩ := fp
    simp only [scriptOK, Bool.and_eq_true, decide_eq_true_eq, List.all_eq_true,
      Option.isNone_iff_eq_none] at hok
    obtain ⟨⟨⟨hpage, hfails⟩, hres⟩, hrest⟩ := hok
    rw [repliesOf_cons, List.append_assoc, List.cons_append] at hnet
    simp only [fetchAllRoomsLoop, if_neg hpage]
    rw [fetchLiveRoom_after_fails page fails hfails p _ net hnet]
    simp only [hres, ne_eq, not_true_eq_false, if_false]
    rw [ih fuel p.pcursor _ _ more (by simp at hfuel; omega) hrest rfl]
    simp [storeAll, requestsOf, List.append_assoc]

theorem scriptOK_append_last (init : List (List (Reply ChannelList) × ChannelList))
    (fails : List (Reply ChannelList)) (last : ChannelList) :
    ∀ page : GoString, page ≠ lit "no_more" →
      (∀ fp ∈ init ++ [(fails, last)], ∀ r ∈ fp.1, checkErr r = none) →
      (∀ fp ∈ init ++ [(fails, last)], fp.2.result = 0) →
      (∀ fp ∈ init, fp.2.pcursor ≠ lit "no_more") → last.pcursor = lit "no_more" →
      scriptOK page (init ++ [(fails, last)]) = true := by
  induction init with
  | nil =>
    intro page hpage hf hres _ hlast
    have h1 := hf (fails, last) (by simp)
    have h2 := hres (fails, last) (by simp)
    simp only [List.nil_append, scriptOK, Bool.and_eq_true, decide_eq_true_eq, List.all_eq_true,
      Option.isNone_iff_eq_none]
    exact ⟨⟨⟨hpage, h1⟩, h2⟩, hlast⟩
  | cons fp init ih =>
    intro page hpage hf hres hinit hlast
    have h1 := hf fp (by simp)
    have h2 := hres fp (by simp)
    have h3 := hinit fp (by simp)
    have h4 := ih fp.2.pcursor h3 (fun x hx => hf x (List.mem_cons_of_mem _ hx))
      (fun x hx => hres x (List.mem_cons_of_mem _ hx))
      (fun x hx => hinit x (List.mem_cons_of_mem _ hx)) hlast
    obtain ⟨f, p⟩ := fp
    simp only [List.cons_append, scriptOK, Bool.and_eq_true, decide_eq_true_eq, List.all_eq_true,
      Option.isNone_iff_eq_none]
    exact ⟨⟨⟨hpage, h1⟩, h2⟩, h4⟩

theorem requestsOf_no_fails (init : List ChannelList) (last : ChannelList) :
    ∀ page : GoString,
      requestsOf page ((init ++ [last]).map (fun p => (([] : List (Reply ChannelList)), p))) =
        (page :: init.map (fun p => p.pcursor)).map Request.channelList := by
  induction init with
  | nil => intro page; simp [requestsOf]
  | cons p init ih =>
    intro page
    have e : (p :: init ++ [last]).map (fun p => (([] : List (Reply ChannelList)), p)) =
        ([], p) :: (init ++ [last]).map (fun p => (([] : List (Reply ChannelList)), p)) := rfl
    rw [e, requestsOf, ih p.pcursor]
    simp

theorem repliesOf_no_fails (pages : List ChannelList) :
    repliesOf (pages.map (fun p => (([] : List (Reply ChannelList)), p))) =
      pages.map Reply.ok := by
  induction pages with
  | nil => simp [repliesOf]
  | cons p pages ih =>
    rw [List.map_cons, repliesOf_cons, ih]
    simp

theorem fetchAllRooms_script (script : List (List (Reply ChannelList) × ChannelList))
    (net : Net) (more : List (Reply ChannelList))
    (hok : scriptOK (lit "0") script = true)
    (hnet : net.channelList = repliesOf script ++ more) :
    fetchAllRooms net =
      Run.returned (storeAll ConcurrentMap.New (script.map (fun fp => fp.2.liveList)))
        { net with channelList := more, sent := net.sent ++ requestsOf (lit "0") script } := by
  unfold fetchAllRooms
  apply fetchAllRoomsLoop_script script _ _ _ net more _ hok hnet
  have := length_le_repliesOf script
  rw [hnet, List.length_append]
  omega

theorem Has_storeAll (lists : List (List LiveEntry)) (key : GoString) :
    (storeAll ConcurrentMap.New lists).Has key = true ↔
      ∃ live ∈ lists.flatten, utos live.authorId = key := by
  rw [ConcurrentMap.Has_eq_isSome, Get_storeAll]
  have e : ConcurrentMap.New.Get key = none := rfl
  rw [e]
  have e2 : ∀ o : Option liveRoom, (o.orElse fun _ => none) = o := by intro o; cases o <;> rfl
  rw [e2, ConcurrentMap.lastUnder_isSome_iff]
  simp only [List.map_map, List.mem_map, Function.comp, entryOf]

theorem Get_storeAll_listed (lists : List (List LiveEntry)) (key : GoString) (room : liveRoom)
    (h : (storeAll ConcurrentMap.New lists).Get key = some room) :
    ∃ live ∈ lists.flatten, utos live.authorId = key ∧ room = ⟨live.name, live.title⟩ := by
  rw [Get_storeAll] at h
  have e : ConcurrentMap.New.Get key = none := rfl
  rw [e] at h
  have e2 : ∀ o : Option liveRoom, (o.orElse fun _ => none) = o := by intro o; cases o <;> rfl
  rw [e2] at h
  have := ConcurrentMap.lastUnder_some_mem _ _ _ h
  simp only [List.mem_map, entryOf, Prod.mk.injEq] at this
  obtain ⟨live, hl, hk, hr⟩ := this
  exact ⟨live, hl, hk, hr.symm⟩

/-- C3: when the channel list answers with `N >= 1` pages of result code 0, of
which only the last carries the cursor `no_more`, `fetchAllRooms` returns after
asking exactly `N` times, first for cursor `0` and then for the cursor of the
page before, and leaves the replies behind them unread.  The map it publishes
has no key twice, holds a key exactly when it is `utos` of an `authorId` listed
on one of the pages, and every value in it is the name and title of a listing
of that id. -/
theorem fetchAllRooms_reads_all_pages (init : List ChannelList) (last : ChannelList)
    (more : List (Reply ChannelList)) (net : Net)
    (hres : ∀ p ∈ init ++ [last], p.result = 0)
    (hinit : ∀ p ∈ init, p.pcursor ≠ lit "no_more")
    (hlast : last.pcursor = lit "no_more")
    (hnet : net.channelList = (init ++ [last]).map Reply.ok ++ more) :
    ∃ snapshot : ConcurrentMap,
      fetchAllRooms net =
        Run.returned snapshot
          { net with
            channelList := more
            sent := net.sent ++
              (lit "0" :: init.map (fun p => p.pcursor)).map Request.channelList } ∧
      ((lit "0" :: init.map (fun p => p.pcursor)).map Request.channelList).length
        = (init ++ [last]).length ∧
      snapshot.KeysNodup ∧
      (∀ key : GoString, snapshot.Has key = true ↔
        ∃ live ∈ (init ++ [last]).flatMap (fun p => p.liveList), utos live.authorId = key) ∧
      (∀ (key : GoString) (room : liveRoom), snapshot.Get key = some room →
        ∃ live ∈ (init ++ [last]).flatMap (fun p => p.liveList),
          utos live.authorId = key ∧ room = ⟨live.name, live.title⟩) := by
  have hscript : scriptOK (lit "0")
      ((init ++ [last]).map (fun p => (([] : List (Reply ChannelList)), p))) = true := by
    rw [List.map_append]
    apply scriptOK_append_last (init.map (fun p => (([] : List (Reply ChannelList)), p))) [] last
    · decide
    · intro fp hfp r hr
      simp only [List.mem_append, List.mem_map, List.mem_singleton] at hfp
      rcases hfp with ⟨p, _, rfl⟩ | rfl <;> simp at hr
    · intro fp hfp
      simp only [List.mem_append, List.mem_map, List.mem_singleton] at hfp
      rcases hfp with ⟨p, hp, rfl⟩ | rfl
      · exact hres p (List.mem_append_left _ hp)
      · exact hres last (by simp)
    · intro fp hfp
      simp only [List.mem_map] at hfp
      obtain ⟨p, hp, rfl⟩ := hfp
      exact hinit p hp
    · exact hlast
  have hrun := fetchAllRooms_script _ net more hscript
    (by rw [repliesOf_no_fails]; exact hnet)
  rw [requestsOf_no_fails, List.map_map] at hrun
  have hflat : (init ++ [last]).flatMap (fun p => p.liveList) =
      (List.map ((fun fp : List (Reply ChannelList) × ChannelList => fp.2.liveList) ∘
        fun p => (([] : List (Reply ChannelList)), p)) (init ++ [last])).flatten := by
    rw [List.flatMap_def]
    rfl
  refine ⟨_, hrun, by simp, KeysNodup_storeAll _ _ ConcurrentMap.KeysNodup_New, ?_, ?_⟩
  · intro key
    rw [Has_storeAll, hflat]
  · intro key room h
    rw [hflat]
    exact Get_storeAll_listed _ key room h

set_option maxRecDepth 4000 in
/-- Witness of C3: two pages, the second one closing the listing. -/
theorem fetchAllRooms_reads_all_pages_witness :
    (∀ p ∈ [pageOne] ++ [pageTwo], p.result = 0) ∧
    (∀ p ∈ [pageOne], p.pcursor ≠ lit "no_more") ∧
    pageTwo.pcursor = lit "no_more" ∧
    ∃ snapshot : ConcurrentMap,
      fetchAllRooms (channelNet [Reply.ok pageOne, Reply.ok pageTwo, Reply.netErr]) =
        Run.returned snapshot
          { channelNet [Reply.ok pageOne, Reply.ok pageTwo, Reply.netErr] with
            channelList := [Reply.netErr]
            sent := (channelNet [Reply.ok pageOne, Reply.ok pageTwo, Reply.netErr]).sent ++
              (lit "0" :: [pageOne].map (fun p => p.pcursor)).map Request.channelList } ∧
      ((lit "0" :: [pageOne].map (fun p => p.pcursor)).map Request.channelList).length
        = ([pageOne] ++ [pageTwo]).length ∧
      snapshot.KeysNodup ∧
      (∀ key : GoString, snapshot.Has key = true ↔
        ∃ live ∈ ([pageOne] ++ [pageTwo]).flatMap (fun p => p.liveList),
          utos live.authorId = key) ∧
      (∀ (key : GoString) (room : liveRoom), snapshot.Get key = some room →
        ∃ live ∈ ([pageOne] ++ [pageTwo]).flatMap (fun p => p.liveList),
          utos live.authorId = key ∧ room = ⟨live.name, live.title⟩) :=
  ⟨by decide, by decide, by decide,
    fetchAllRooms_reads_all_pages [pageOne] pageTwo [Reply.netErr]
      (channelNet [Reply.ok pageOne, Reply.ok pageTwo, Reply.netErr])
      (by decide) (by decide) (by decide) rfl⟩

theorem requestsOf_pages_only (rest : List (List (Reply ChannelList) × ChannelList)) :
    ∀ (fp : List (Reply ChannelList) × ChannelList) (page : GoString),
      requestsOf page ((fp :: rest).map (fun fp => (([] : List (Reply ChannelList)), fp.2))) =
        (page :: (fp :: rest).dropLast.map (fun fp => fp.2.pcursor)).map Request.channelList := by
  induction rest with
  | nil => intro fp page; simp [requestsOf]
  | cons fq rest ih =>
    intro fp page
    have := ih fq fp.2.pcursor
    simp only [List.map_cons, requestsOf, List.length_nil, Nat.zero_add, List.replicate_one,
      List.singleton_append, List.dropLast_cons₂] at this ⊢
    rw [this]

theorem scriptOK_pages_only (script : List (List (Reply ChannelList) × ChannelList)) :
    ∀ page : GoString, scriptOK page script = true →
      scriptOK page (script.map (fun fp => (([] : List (Reply ChannelList)), fp.2))) = true := by
  induction script with
  | nil => intro page h; exact h
  | cons fp rest ih =>
    intro page h
    obtain ⟨f, p⟩ := fp
    simp only [scriptOK, Bool.and_eq_true, decide_eq_true_eq, List.map_cons, List.all_nil,
      and_true] at h ⊢
    exact ⟨⟨h.1.1.1, h.1.2⟩, ih _ h.2⟩

/-- C7: when every page of a listing that ends with `no_more` arrives after
finitely many failed fetches (a transport error or a body that is not JSON),
`fetchLiveRoom` asks for the same cursor once more after each failure and then
returns the page, and `fetchAllRooms` publishes the map of the run without
failures over the same pages: it asks for the cursors of the pages in their
order, each one once more than it failed, and for nothing else. -/
theorem fetchAllRooms_retries_each_page
    (init : List (List (Reply ChannelList) × ChannelList)) (fails : List (Reply ChannelList))
    (last : ChannelList) (more : List (Reply ChannelList)) (net : Net)
    (hfails : ∀ fp ∈ init ++ [(fails, last)], ∀ r ∈ fp.1, r = Reply.netErr ∨ r = Reply.badJSON)
    (hres : ∀ fp ∈ init ++ [(fails, last)], fp.2.result = 0)
    (hinit : ∀ fp ∈ init, fp.2.pcursor ≠ lit "no_more")
    (hlast : last.pcursor = lit "no_more") :
    (∀ (page : GoString) (fp : List (Reply ChannelList) × ChannelList)
        (rest : List (Reply ChannelList)) (net0 : Net),
        fp ∈ init ++ [(fails, last)] → net0.channelList = fp.1 ++ Reply.ok fp.2 :: rest →
        fetchLiveRoom page net0 =
          Run.returned (some (roomsOf fp.2.liveList), fp.2.pcursor)
            { net0 with
              channelList := rest
              sent := net0.sent ++
                List.replicate (fp.1.length + 1) (Request.channelList page) }) ∧
    ∃ snapshot : ConcurrentMap,
      fetchAllRooms { net with channelList := repliesOf (init ++ [(fails, last)]) ++ more } =
        Run.returned snapshot
          { net with
            channelList := more
            sent := net.sent ++ requestsOf (lit "0") (init ++ [(fails, last)]) } ∧
      fetchAllRooms
          { net with
            channelList := (init ++ [(fails, last)]).map (fun fp => Reply.ok fp.2) ++ more } =
        Run.returned snapshot
          { net with
            channelList := more
            sent := net.sent ++
              (lit "0" :: init.map (fun fp => fp.2.pcursor)).map Request.channelList } := by
  have hf : ∀ fp ∈ init ++ [(fails, last)], ∀ r ∈ fp.1, checkErr r = none := by
    intro fp hfp r hr
    rcases hfails fp hfp r hr with h | h <;> rw [h] <;> rfl
  have hok := scriptOK_append_last init fails last (lit "0") (by decide) hf hres hinit hlast
  refine ⟨?_, ⟨storeAll ConcurrentMap.New
    ((init ++ [(fails, last)]).map (fun fp => fp.2.liveList)), ?_, ?_⟩⟩
  · intro page fp rest net0 hfp hnet0
    rw [fetchLiveRoom_after_fails page fp.1 (hf fp hfp) fp.2 rest net0 hnet0]
    simp [hres fp hfp]
  · exact fetchAllRooms_script _ _ more hok rfl
  · have h2 := fetchAllRooms_script _
      { net with channelList := (init ++ [(fails, last)]).map (fun fp => Reply.ok fp.2) ++ more }
      more (scriptOK_pages_only _ _ hok)
      (by
        have e : (init ++ [(fails, last)]).map (fun fp => Reply.ok fp.2) =
            repliesOf ((init ++ [(fails, last)]).map
              (fun fp => (([] : List (Reply ChannelList)), fp.2))) := by
          have := repliesOf_no_fails ((init ++ [(fails, last)]).map (fun fp => fp.2))
          rw [List.map_map, List.map_map] at this
          exact this.symm
        rw [← e])
    obtain ⟨fp, rest, hcons⟩ : ∃ fp rest, init ++ [(fails, last)] = fp :: rest := by
      cases init with
      | nil => exact ⟨_, _, rfl⟩
      | cons a t => exact ⟨_, _, rfl⟩
    have hreq := requestsOf_pages_only rest fp (lit "0")
    rw [← hcons, List.dropLast_concat] at hreq
    rw [hreq, List.map_map] at h2
    exact h2

set_option maxRecDepth 4000 in
/-- Witness of C7: the first page fails once, the last page twice. -/
theorem fetchAllRooms_retries_each_page_witness :
    (∀ fp ∈ flakyInit ++ [(flakyFails, pageTwo)],
      ∀ r ∈ fp.1, r = Reply.netErr ∨ r = Reply.badJSON) ∧
    (∀ fp ∈ flakyInit ++ [(flakyFails, pageTwo)], fp.2.result = 0) ∧
    (∀ fp ∈ flakyInit, fp.2.pcursor ≠ lit "no_more") ∧
    pageTwo.pcursor = lit "no_more" ∧
    ∃ snapshot : ConcurrentMap,
      fetchAllRooms
          { idleNet with
            channelList := repliesOf (flakyInit ++ [(flakyFails, pageTwo)]) ++ [] } =
        Run.returned snapshot
          { idleNet with
            channelList := []
            sent := idleNet.sent ++
              requestsOf (lit "0") (flakyInit ++ [(flakyFails, pageTwo)]) } ∧
      fetchAllRooms
          { idleNet with
            channelList :=
              (flakyInit ++ [(flakyFails, pageTwo)]).map (fun fp => Reply.ok fp.2) ++ [] } =
        Run.returned snapshot
          { idleNet with
            channelList := []
            sent := idleNet.sent ++
              (lit "0" :: flakyInit.map (fun fp => fp.2.pcursor)).map Request.channelList } :=
  ⟨by decide, by decide, by decide, by decide,
    (fetchAllRooms_retries_each_page flakyInit flakyFails pageTwo [] idleNet
      (by decide) (by decide) (by decide) (by decide)).2⟩

/-- The requests of the run with failures in `fetchAllRooms_retries_each_page_witness`:
cursor `0` twice, cursor `1` three times. -/
theorem requestsOf_example :
    requestsOf (lit "0") (flakyInit ++ [(flakyFails, pageTwo)]) =
      [Request.channelList (lit "0"), Request.channelList (lit "0"),
        Request.channelList (lit "1"), Request.channelList (lit "1"),
        Request.channelList (lit "1")] := by
  decide

set_option maxRecDepth 4000 in
/-- C6, the code at the failing input: on a page with a non-zero result code
`fetchLiveRoom` returns the nil map and the empty cursor, and `fetchAllRooms`
ends in a panic (the nil dereference of `rooms.Items()`), whatever pages would
follow. -/
theorem fetchAllRooms_refused_page_panics :
    fetchLiveRoom (lit "0") (channelNet [Reply.ok pageRefused, Reply.ok pageTwo]) =
      Run.returned (none, [])
        { channelNet [Reply.ok pageTwo] with sent := [Request.channelList (lit "0")] } ∧
    fetchAllRooms (channelNet [Reply.ok pageRefused, Reply.ok pageTwo]) =
      Run.panicked
        { channelNet [Reply.ok pageTwo] with sent := [Request.channelList (lit "0")] } := by
  decide

/-- Every page with a non-zero result code ends `fetchAllRooms` in a panic. -/
theorem fetchAllRoomsLoop_refused (fuel : Nat) (page : GoString) (allRooms : ConcurrentMap)
    (net : Net) (v : ChannelList) (rest : List (Reply ChannelList))
    (hpage : page ≠ lit "no_more") (hv : v.result ≠ 0)
    (hnet : net.channelList = Reply.ok v :: rest) :
    fetchAllRoomsLoop (fuel + 1) page allRooms net =
      Run.panicked
        { net with channelList := rest, sent := net.sent ++ [Request.channelList page] } := by
  have h := fetchLiveRoom_after_fails page [] (by simp) v rest net (by simpa using hnet)
  simp only [fetchAllRoomsLoop, if_neg hpage, h, hv, ne_eq, not_false_eq_true, if_true]
  simp

/-! ## The cache is keyed by the numeric uid -/

theorem lastUnder_utos (uid : Nat) (huid : uid < 2 ^ 64) (stored : List LiveEntry)
    (hstored : ∀ live ∈ stored, live.authorId < 2 ^ 64) :
    lastUnder (utos uid) (stored.map entryOf) =
      (lastListed uid stored).map (fun live => ⟨live.name, live.title⟩) := by
  induction stored with
  | nil => rfl
  | cons live rest ih =>
    have ih1 := ih (fun x hx => hstored x (List.mem_cons_of_mem _ hx))
    have hl := hstored live (List.mem_cons_self _ _)
    simp only [List.map_cons, lastUnder, lastListed, ih1]
    cases lastListed uid rest with
    | some found => rfl
    | none =>
      simp only [Option.map_none', entryOf]
      by_cases h : live.authorId = uid
      · simp [h]
      · have h1 : ¬ utos live.authorId = utos uid := fun e => h (utos_inj _ _ hl huid e)
        simp [h, h1]

theorem lastListed_isSome_iff (uid : Nat) (stored : List LiveEntry) :
    (lastListed uid stored).isSome = true ↔ ∃ live ∈ stored, live.authorId = uid := by
  induction stored with
  | nil => simp [lastListed]
  | cons live rest ih =>
    simp only [lastListed, List.mem_cons, exists_eq_or_imp]
    cases h : lastListed uid rest with
    | some found =>
      rw [h] at ih
      simp only [Option.isSome_some, true_iff] at ih ⊢
      exact Or.inr ih
    | none =>
      rw [h] at ih
      simp only [Option.isSome_none, Bool.false_eq_true, false_iff] at ih
      by_cases hl : live.authorId = uid
      · simp [hl]
      · simp only [hl, if_false, Option.isSome_none, Bool.false_eq_true, false_or, false_iff]
        exact ih

theorem fetchLiveRoomOn_returned (page : GoString) (replies : List (Reply ChannelList)) :
    ∀ (net net1 : Net) (rooms : ConcurrentMap) (nextPage : GoString),
      fetchLiveRoomOn page replies net = Run.returned (some rooms, nextPage) net1 →
      ∃ v, Reply.ok v ∈ replies ∧ rooms = roomsOf v.liveList ∧
        ∃ front, replies = front ++ net1.channelList := by
  induction replies with
  | nil => intro net net1 rooms nextPage h; simp [fetchLiveRoomOn] at h
  | cons r rest ih =>
    intro net net1 rooms nextPage h
    rw [fetchLiveRoomOn] at h
    cases r with
    | netErr =>
      simp only [checkErr] at h
      obtain ⟨v, hv, hr, front, hf⟩ := ih _ _ _ _ h
      exact ⟨v, List.mem_cons_of_mem _ hv, hr, Reply.netErr :: front, by rw [hf]; rfl⟩
    | badJSON =>
      simp only [checkErr] at h
      obtain ⟨v, hv, hr, front, hf⟩ := ih _ _ _ _ h
      exact ⟨v, List.mem_cons_of_mem _ hv, hr, Reply.badJSON :: front, by rw [hf]; rfl⟩
    | ok v =>
      simp only [checkErr] at h
      split at h
      · simp at h
      · simp only [Run.returned.injEq, Prod.mk.injEq, Option.some.injEq] at h
        obtain ⟨⟨hr, _⟩, hn⟩ := h
        refine ⟨v, List.mem_cons_self _ _, hr.symm, [Reply.ok v], ?_⟩
        rw [← hn]
        rfl

/-- Whatever `fetchAllRooms` publishes is the fold of the `liveList`s of pages
that the channel list sent. -/
theorem fetchAllRoomsLoop_returned (fuel : Nat) :
    ∀ (page : GoString) (allRooms : ConcurrentMap) (net net1 : Net) (snapshot : ConcurrentMap),
      fetchAllRoomsLoop fuel page allRooms net = Run.returned snapshot net1 →
      ∃ lists : List (List LiveEntry), snapshot = storeAll allRooms lists ∧
        ∀ l ∈ lists, ∃ v, Reply.ok v ∈ net.channelList ∧ l = v.liveList := by
  induction fuel with
  | zero => intro page allRooms net net1 snapshot h; simp [fetchAllRoomsLoop] at h
  | succ fuel ih =>
    intro page allRooms net net1 snapshot h
    rw [fetchAllRoomsLoop] at h
    split at h
    · simp only [Run.returned.injEq] at h
      exact ⟨[], h.1.symm, by simp⟩
    · split at h
      · rename_i rooms nextPage net2 hlive
        split at h
        · simp at h
        · rename_i r
          obtain ⟨v, hv, hr, front, hf⟩ := fetchLiveRoomOn_returned page _ _ _ _ _ hlive
          obtain ⟨lists, hs, hl⟩ := ih _ _ _ _ _ h
          refine ⟨v.liveList :: lists, ?_, ?_⟩
          · rw [hs, hr]
            rfl
          · intro l hmem
            simp only [List.mem_cons] at hmem
            rcases hmem with rfl | hmem
            · exact ⟨v, hv, rfl⟩
            · obtain ⟨w, hw, hlw⟩ := hl l hmem
              exact ⟨w, by rw [hf]; exact List.mem_append_right _ hw, hlw⟩
      · simp at h
      · simp at h

/-- C9: `utos` is injective on 64-bit unsigned uids, so the published map acts
as a map from numeric uids.  Whatever map `fetchAllRooms` returns is the fold
of the `liveList`s of pages that were sent, and for every streamer with a
64-bit uid: `isLiveOn` holds exactly when one of the folded rooms has the uid
as `authorId`, and `getTitle` is the title of the room listed last for the uid,
or empty when no room is listed for it. -/
theorem liveRooms_keyed_by_uid (net net1 : Net) (liveRooms : ConcurrentMap)
    (hrun : fetchAllRooms net = Run.returned liveRooms net1) :
    (∀ a b : Nat, a < 2 ^ 64 → b < 2 ^ 64 → utos a = utos b → a = b) ∧
    ∃ lists : List (List LiveEntry),
      liveRooms = storeAll ConcurrentMap.New lists ∧
      (∀ l ∈ lists, ∃ v, Reply.ok v ∈ net.channelList ∧ l = v.liveList) ∧
      ∀ s : streamer, s.UID < 2 ^ 64 → (∀ live ∈ lists.flatten, live.authorId < 2 ^ 64) →
        (s.isLiveOn liveRooms = true ↔ ∃ live ∈ lists.flatten, live.authorId = s.UID) ∧
        (∀ live, lastListed s.UID lists.flatten = some live →
          s.getTitle liveRooms = live.title) ∧
        (lastListed s.UID lists.flatten = none → s.getTitle liveRooms = []) ∧
        ((¬ ∃ live ∈ lists.flatten, live.authorId = s.UID) → s.getTitle liveRooms = []) := by
  refine ⟨utos_inj, ?_⟩
  obtain ⟨lists, hs, hl⟩ := fetchAllRoomsLoop_returned _ _ _ _ _ _ hrun
  refine ⟨lists, hs, hl, ?_⟩
  intro s hs64 hstored
  have hget : liveRooms.Get (utos s.UID) =
      (lastListed s.UID lists.flatten).map (fun live => ⟨live.name, live.title⟩) := by
    rw [hs, Get_storeAll, lastUnder_utos s.UID hs64 _ hstored]
    cases lastListed s.UID lists.flatten <;> rfl
  have hnone : lastListed s.UID lists.flatten = none → s.getTitle liveRooms = [] := by
    intro h
    simp [streamer.getTitle, hget, h]
  refine ⟨?_, ?_, hnone, ?_⟩
  · rw [← lastListed_isSome_iff]
    simp only [streamer.isLiveOn, ConcurrentMap.Has_eq_isSome, hget, Option.isSome_map']
  · intro live h
    simp [streamer.getTitle, hget, h]
  · intro h
    apply hnone
    rw [← lastListed_isSome_iff] at h
    cases hl : lastListed s.UID lists.flatten with
    | none => rfl
    | some found => rw [hl] at h; simp at h

set_option maxRecDepth 4000 in
/-- Witness of C9: the map published from `pageOne` and `pageTwo`; `bob` is
listed on both pages and has the title of the second. -/
theorem liveRooms_keyed_by_uid_witness :
    fetchAllRooms (channelNet [Reply.ok pageOne, Reply.ok pageTwo]) =
      Run.returned (storeAll ConcurrentMap.New [pageOne.liveList, pageTwo.liveList])
        { idleNet with sent := [Request.channelList (lit "0"), Request.channelList (lit "1")] } ∧
    (streamer.mk 1002 (lit "bob")).getTitle
        (storeAll ConcurrentMap.New [pageOne.liveList, pageTwo.liveList]) = lit "more games" ∧
    (streamer.mk 1004 (lit "dave")).isLiveOn
        (storeAll ConcurrentMap.New [pageOne.liveList, pageTwo.liveList]) = false ∧
    ((∀ a b : Nat, a < 2 ^ 64 → b < 2 ^ 64 → utos a = utos b → a = b) ∧
    ∃ lists : List (List LiveEntry),
      storeAll ConcurrentMap.New [pageOne.liveList, pageTwo.liveList] =
        storeAll ConcurrentMap.New lists ∧
      (∀ l ∈ lists, ∃ v,
        Reply.ok v ∈ (channelNet [Reply.ok pageOne, Reply.ok pageTwo]).channelList ∧
          l = v.liveList) ∧
      ∀ s : streamer, s.UID < 2 ^ 64 → (∀ live ∈ lists.flatten, live.authorId < 2 ^ 64) →
        (s.isLiveOn (storeAll ConcurrentMap.New [pageOne.liveList, pageTwo.liveList]) = true ↔
          ∃ live ∈ lists.flatten, live.authorId = s.UID) ∧
        (∀ live, lastListed s.UID lists.flatten = some live →
          s.getTitle (storeAll ConcurrentMap.New [pageOne.liveList, pageTwo.liveList]) =
            live.title) ∧
        (lastListed s.UID lists.flatten = none →
          s.getTitle (storeAll ConcurrentMap.New [pageOne.liveList, pageTwo.liveList]) = []) ∧
        ((¬ ∃ live ∈ lists.flatten, live.authorId = s.UID) →
          s.getTitle (storeAll ConcurrentMap.New [pageOne.liveList, pageTwo.liveList]) = [])) :=
  ⟨by decide, by decide, by decide,
    liveRooms_keyed_by_uid (channelNet [Reply.ok pageOne, Reply.ok pageTwo])
      { idleNet with sent := [Request.channelList (lit "0"), Request.channelList (lit "1")] }
      (storeAll ConcurrentMap.New [pageOne.liveList, pageTwo.liveList]) (by decide)⟩

/-! ## Strings -/

theorem HasPrefix_iff (s p : GoString) : HasPrefix s p = true ↔ p <+: s := by
  induction p generalizing s with
  | nil => cases s <;> simp [HasPrefix]
  | cons d p ih =>
    cases s with
    | nil => simp [HasPrefix]
    | cons c s =>
      simp only [HasPrefix, Bool.and_eq_true, beq_iff_eq, ih, List.cons_prefix_cons]
      constructor
      · rintro ⟨h1, h2⟩; exact ⟨h1.symm, h2⟩
      · rintro ⟨h1, h2⟩; exact ⟨h1.symm, h2⟩

theorem Index_ge (s substr : GoString) : -1 ≤ Index s substr := by
  induction s with
  | nil => simp only [Index]; split <;> omega
  | cons c s ih =>
    simp only [Index]
    split
    · omega
    · split <;> omega

/-- The result of `strings.Index`, when it is not `-1`, is the place of the
first instance: the string splits there, and no instance starts earlier. -/
theorem Index_first (s substr : GoString) : ∀ i : Nat, Index s substr = (i : Int) →
    s = s.take i ++ substr ++ s.drop (i + substr.length) ∧
      ∀ k, k < i → ¬ substr <+: s.drop k := by
  induction s with
  | nil =>
    intro i h
    simp only [Index] at h
    split at h
    · rename_i h0
      have : i = 0 := by omega
      subst this
      simp [h0]
    · omega
  | cons c s ih =>
    intro i h
    simp only [Index] at h
    split at h
    · rename_i hp
      have : i = 0 := by omega
      subst this
      rw [HasPrefix_iff] at hp
      obtain ⟨t, ht⟩ := hp
      refine ⟨?_, by intro k hk; omega⟩
      rw [← ht]
      simp
    · rename_i hp
      split at h
      · omega
      · rename_i hr
        have hge := Index_ge s substr
        obtain ⟨j, hj⟩ : ∃ j : Nat, Index s substr = (j : Int) :=
          ⟨(Index s substr).toNat, by omega⟩
        have hi : i = j + 1 := by omega
        subst hi
        obtain ⟨h1, h2⟩ := ih j hj
        refine ⟨?_, ?_⟩
        · have e : j + 1 + substr.length = (j + substr.length) + 1 := by omega
          rw [e, List.take_succ_cons, List.drop_succ_cons, List.cons_append, List.cons_append,
            ← h1]
        · intro k hk
          cases k with
          | zero =>
            rw [List.drop_zero, ← HasPrefix_iff]
            exact hp
          | succ k =>
            rw [List.drop_succ_cons]
            exact h2 k (by omega)

/-- An instance of `substr` in `s` makes `strings.Index` find one. -/
theorem Index_nonneg_of_infix (s substr : GoString) (h : substr <:+: s) :
    0 ≤ Index s substr := by
  induction s with
  | nil =>
    have : substr = [] := List.eq_nil_of_infix_nil h
    simp [Index, this]
  | cons c s ih =>
    simp only [Index]
    split
    · omega
    · rename_i hp
      rw [List.infix_cons_iff] at h
      rcases h with h | h
      · exact absurd ((HasPrefix_iff _ _).2 h) hp
      · have := ih h
        split <;> omega

/-! ## The library sort rearranges and sorts -/

section GoSortProofs

variable {α : Type}

theorem lessAt_eq (less : α → α → Bool) (data : List α) (i j : Nat) (x y : α)
    (hi : data[i]? = some x) (hj : data[j]? = some y) : lessAt less data i j = less x y := by
  simp [lessAt, hi, hj]

theorem swapAt_eq (data : List α) (i j : Nat) (x y : α)
    (hi : data[i]? = some x) (hj : data[j]? = some y) :
    swapAt data i j = (data.set i y).set j x := by
  simp [swapAt, hi, hj]

theorem swapAt_of_none (data : List α) (i j : Nat) (h : data[i]? = none ∨ data[j]? = none) :
    swapAt data i j = data := by
  unfold swapAt
  rcases h with h | h
  · rw [h]
  · rw [h]
    cases data[i]? <;> rfl

theorem swapAt_length (data : List α) (i j : Nat) : (swapAt data i j).length = data.length := by
  unfold swapAt
  split <;> simp

theorem perm_cons_set (a y : α) : ∀ (t : List α) (j : Nat), t[j]? = some y →
    (y :: t.set j a).Perm (a :: t) := by
  intro t
  induction t with
  | nil => intro j h; simp at h
  | cons b t ih =>
    intro j h
    cases j with
    | zero =>
      simp only [List.getElem?_cons_zero, Option.some.injEq] at h
      subst h
      exact List.Perm.swap _ _ _
    | succ j =>
      simp only [List.getElem?_cons_succ] at h
      rw [List.set_cons_succ]
      exact ((List.Perm.swap b y _).trans ((ih j h).cons b)).trans (List.Perm.swap a b t)

theorem perm_set_set : ∀ (data : List α) (i j : Nat) (x y : α),
    data[i]? = some x → data[j]? = some y → ((data.set i y).set j x).Perm data := by
  intro data
  induction data with
  | nil => intro i j x y h; simp at h
  | cons a t ih =>
    intro i j x y hi hj
    cases i with
    | zero =>
      simp only [List.getElem?_cons_zero, Option.some.injEq] at hi
      subst hi
      cases j with
      | zero =>
        simp only [List.getElem?_cons_zero, Option.some.injEq] at hj
        subst hj
        simp
      | succ j =>
        simp only [List.getElem?_cons_succ] at hj
        simp only [List.set_cons_zero, List.set_cons_succ]
        exact perm_cons_set a y t j hj
    | succ i =>
      simp only [List.getElem?_cons_succ] at hi
      cases j with
      | zero =>
        simp only [List.getElem?_cons_zero, Option.some.injEq] at hj
        subst hj
        simp only [List.set_cons_zero, List.set_cons_succ]
        exact perm_cons_set _ x t i hi
      | succ j =>
        simp only [List.getElem?_cons_succ] at hj
        simp only [List.set_cons_succ]
        exact (ih i j x y hi hj).cons a

theorem swapAt_perm (data : List α) (i j : Nat) : (swapAt data i j).Perm data := by
  unfold swapAt
  split
  · rename_i x y hi hj
    exact perm_set_set data i j x y hi hj
  · exact List.Perm.refl _

/-- Reading a place after a swap. -/
theorem getElem?_swapAt (data : List α) (i j k : Nat) (hi : i < data.length)
    (hj : j < data.length) :
    (swapAt data i j)[k]? = if k = j then data[i]? else if k = i then data[j]? else data[k]? := by
  have hx : data[i]? = some data[i] := List.getElem?_eq_getElem hi
  have hy : data[j]? = some data[j] := List.getElem?_eq_getElem hj
  rw [swapAt_eq data i j _ _ hx hy]
  by_cases hkj : k = j
  · subst hkj
    rw [if_pos rfl, List.getElem?_set_self (by simpa using hj), hx]
  · rw [if_neg hkj, List.getElem?_set_ne (fun e => hkj e.symm)]
    by_cases hki : k = i
    · subst hki
      rw [if_pos rfl, List.getElem?_set_self hi, hy]
    · rw [if_neg hki, List.getElem?_set_ne (fun e => hki e.symm)]

theorem Keeps.refl (a b : Nat) (data : List α) : Keeps a b data data :=
  ⟨rfl, List.Perm.refl _, fun _ _ => rfl, fun _ h => h⟩

theorem Keeps.trans {a b : Nat} {d1 d2 d3 : List α} (h1 : Keeps a b d1 d2)
    (h2 : Keeps a b d2 d3) : Keeps a b d1 d3 :=
  ⟨h2.1.trans h1.1, h2.2.1.trans h1.2.1,
    fun i hi => (h2.2.2.1 i hi).trans (h1.2.2.1 i hi), fun P h => h2.2.2.2 P (h1.2.2.2 P h)⟩

theorem Keeps.mono {a b a1 b1 : Nat} {d1 d2 : List α} (h : Keeps a b d1 d2) (ha : a1 ≤ a)
    (hb : b ≤ b1) : Keeps a1 b1 d1 d2 := by
  refine ⟨h.1, h.2.1, fun i hi => h.2.2.1 i (by omega), ?_⟩
  intro P hP i x hai hib hx
  by_cases hin : a ≤ i ∧ i < b
  · exact h.2.2.2 P (fun k y hk1 hk2 hy => hP k y (by omega) (by omega) hy) i x hin.1 hin.2 hx
  · rw [h.2.2.1 i (by omega)] at hx
    exact hP i x hai hib hx

/-- A swap of two places of the range rearranges the range. -/
theorem swapAt_keeps (a b : Nat) (data : List α) (i j : Nat) (hi : a ≤ i ∧ i < b)
    (hj : a ≤ j ∧ j < b) : Keeps a b data (swapAt data i j) := by
  by_cases hlen : i < data.length ∧ j < data.length
  · obtain ⟨hil, hjl⟩ := hlen
    refine ⟨swapAt_length _ _ _, swapAt_perm _ _ _, ?_, ?_⟩
    · intro k hk
      rw [getElem?_swapAt data i j k hil hjl, if_neg (by omega), if_neg (by omega)]
    · intro P hP k x hak hkb hx
      rw [getElem?_swapAt data i j k hil hjl] at hx
      split at hx
      · exact hP i x hi.1 hi.2 hx
      · split at hx
        · exact hP j x hj.1 hj.2 hx
        · exact hP k x hak hkb hx
  · have : swapAt data i j = data := by
      apply swapAt_of_none
      rcases Nat.lt_or_ge i data.length with h1 | h1
      · right
        exact List.getElem?_eq_none (by omega)
      · left
        exact List.getElem?_eq_none h1
    rw [this]
    exact Keeps.refl _ _ _

end GoSortProofs

section GoSortOrder

variable {α : Type}

theorem StrictWeak.irrefl {less : α → α → Bool} (hw : StrictWeak less) (x : α) :
    less x x = false := by
  cases h : less x x
  · rfl
  · have := hw.1 x x h
    rw [h] at this
    exact this

theorem StrictWeak.total {less : α → α → Bool} (hw : StrictWeak less) (x y : α) :
    less x y = false ∨ less y x = false := by
  cases h : less x y
  · exact Or.inl rfl
  · exact Or.inr (hw.1 x y h)

theorem SortedOn.narrow {less : α → α → Bool} {data : List α} {a b a1 b1 : Nat}
    (h : SortedOn less data a b) (ha : a ≤ a1) (hb : b1 ≤ b) : SortedOn less data a1 b1 :=
  fun i j x y h1 h2 h3 hx hy => h i j x y (by omega) h2 (by omega) hx hy

/-- The inner loop of the insertion sort moves the element at place `j` to
its place among the sorted elements around it. -/
theorem insertionInner_spec {less : α → α → Bool} (hw : StrictWeak less) (a i : Nat) :
    ∀ (j : Nat) (data : List α), a ≤ j → j ≤ i → i < data.length →
      (∀ p q x y, a ≤ p → p < q → q ≤ i → p ≠ j → q ≠ j → data[p]? = some x →
        data[q]? = some y → less y x = false) →
      (∀ q x y, j < q → q ≤ i → data[j]? = some x → data[q]? = some y → less y x = false) →
      Keeps a (i + 1) data (insertionInner less a j data) ∧
        SortedOn less (insertionInner less a j data) a (i + 1) := by
  intro j
  induction j with
  | zero =>
    intro data ha _ hlen h1 h2
    have ha0 : a = 0 := by omega
    subst ha0
    have e : insertionInner less 0 0 data = data := rfl
    rw [e]
    refine ⟨Keeps.refl _ _ _, ?_⟩
    intro p q x y hp hpq hq hx hy
    by_cases hp0 : p = 0
    · subst hp0
      exact h2 q x y hpq (by omega) hx hy
    · exact h1 p q x y hp hpq (by omega) hp0 (by omega) hx hy
  | succ j ih =>
    intro data ha hji hlen h1 h2
    have hj1 : j + 1 < data.length := by omega
    have hj0 : j < data.length := by omega
    have hxj : data[j + 1]? = some data[j + 1] := List.getElem?_eq_getElem hj1
    have hxj0 : data[j]? = some data[j] := List.getElem?_eq_getElem hj0
    simp only [insertionInner]
    split
    · rename_i hcond
      obtain ⟨haj, hless⟩ := hcond
      rw [lessAt_eq less data (j + 1) j _ _ hxj hxj0] at hless
      have hk := swapAt_keeps a (i + 1) data (j + 1) j ⟨by omega, by omega⟩ ⟨by omega, by omega⟩
      have hget := fun k => getElem?_swapAt data (j + 1) j k hj1 hj0
      have hrec := ih (swapAt data (j + 1) j) (by omega) (by omega)
        (by rw [swapAt_length]; exact hlen) ?_ ?_
      · exact ⟨hk.trans hrec.1, hrec.2⟩
      · intro p q x y hp hpq hq hpj hqj hx hy
        rw [hget] at hx hy
        rw [if_neg hpj] at hx
        rw [if_neg hqj] at hy
        by_cases hp1 : p = j + 1
        · rw [if_pos hp1] at hx
          rw [if_neg (by omega)] at hy
          exact h1 j q x y (by omega) (by omega) hq (by omega) (by omega) hx hy
        · rw [if_neg hp1] at hx
          by_cases hq1 : q = j + 1
          · rw [if_pos hq1] at hy
            exact h1 p j x y hp (by omega) (by omega) hp1 (by omega) hx hy
          · rw [if_neg hq1] at hy
            exact h1 p q x y hp hpq hq hp1 hq1 hx hy
      · intro q x y hjq hq hx hy
        rw [hget] at hx hy
        rw [if_pos rfl] at hx
        rw [if_neg (by omega)] at hy
        by_cases hq1 : q = j + 1
        · rw [if_pos hq1] at hy
          rw [hxj] at hx
          rw [hxj0] at hy
          simp only [Option.some.injEq] at hx hy
          subst hx hy
          exact hw.1 _ _ hless
        · rw [if_neg hq1] at hy
          exact h2 q x y (by omega) hq hx hy
    · rename_i hcond
      refine ⟨Keeps.refl _ _ _, ?_⟩
      intro p q x y hp hpq hq hx hy
      by_cases hpj : p = j + 1
      · subst hpj
        exact h2 q x y hpq (by omega) hx hy
      · by_cases hqj : q = j + 1
        · subst hqj
          have haj : a < j + 1 := by omega
          have hnl : less data[j + 1] data[j] = false := by
            cases h : less data[j + 1] data[j]
            · rfl
            · exact absurd ⟨haj, by rw [lessAt_eq less data (j + 1) j _ _ hxj hxj0]; exact h⟩
                hcond
          rw [hxj] at hy
          simp only [Option.some.injEq] at hy
          subst hy
          by_cases hpj0 : p = j
          · subst hpj0
            rw [hxj0] at hx
            simp only [Option.some.injEq] at hx
            subst hx
            exact hnl
          · have h3 := h1 p j x data[j] hp (by omega) (by omega) hpj (by omega) hx hxj0
            exact hw.2 x data[j] data[j + 1] h3 hnl
        · exact h1 p q x y hp hpq (by omega) hpj hqj hx hy

theorem insertionOuter_spec {less : α → α → Bool} (hw : StrictWeak less) (a b : Nat) :
    ∀ (fuel i : Nat) (data : List α), a < i → b ≤ data.length → b - i ≤ fuel →
      SortedOn less data a i →
      Keeps a b data (insertionOuter less a b fuel i data) ∧
        SortedOn less (insertionOuter less a b fuel i data) a b := by
  intro fuel
  induction fuel with
  | zero =>
    intro i data _ _ hfuel hs
    exact ⟨Keeps.refl _ _ _, hs.narrow (le_refl _) (by omega)⟩
  | succ fuel ih =>
    intro i data hai hlen hfuel hs
    simp only [insertionOuter]
    split
    · rename_i hib
      have hin := insertionInner_spec hw a i i data (by omega) (le_refl _) (by omega)
        (fun p q x y hp hpq hq hpi hqi hx hy => hs p q x y hp hpq (by omega) hx hy)
        (fun q x y hiq hq _ _ => by omega)
      have hrec := ih (i + 1) (insertionInner less a i data) (by omega)
        (by rw [hin.1.1]; exact hlen) (by omega) hin.2
      exact ⟨(hin.1.mono (le_refl _) (by omega)).trans hrec.1, hrec.2⟩
    · exact ⟨Keeps.refl _ _ _, hs.narrow (le_refl _) (by omega)⟩

/-- Go `insertionSort_func(data, a, b)` sorts the places `a ≤ i < b` and leaves
the others alone. -/
theorem insertionSort_func_spec {less : α → α → Bool} (hw : StrictWeak less) (data : List α)
    (a b : Nat) (hlen : b ≤ data.length) :
    Keeps a b data (insertionSort_func less data a b) ∧
      SortedOn less (insertionSort_func less data a b) a b :=
  insertionOuter_spec hw a b (b - a) (a + 1) data (by omega) hlen (by omega)
    (fun i j x y h1 h2 h3 _ _ => by omega)

theorem shellPass_keeps (less : α → α → Bool) (a b : Nat) :
    ∀ (fuel i : Nat) (data : List α), a + 6 ≤ i →
      Keeps a b data (shellPass less b fuel i data) := by
  intro fuel
  induction fuel with
  | zero => intro i data _; exact Keeps.refl _ _ _
  | succ fuel ih =>
    intro i data hi
    simp only [shellPass]
    split
    · rename_i hib
      refine Keeps.trans ?_ (ih (i + 1) _ (by omega))
      split
      · exact swapAt_keeps a b data i (i - 6) ⟨by omega, hib⟩ ⟨by omega, by omega⟩
      · exact Keeps.refl _ _ _
    · exact Keeps.refl _ _ _

end GoSortOrder

section GoHeapSort

variable {α : Type}

/-- Go `siftDown_func`: with the heap in order everywhere but at `root`, and
the parent of `root` not less than the children of `root`, the loop puts the
heap in order everywhere. -/
theorem siftDownLoop_spec {less : α → α → Bool} (hw : StrictWeak less) (hi first lo : Nat) :
    ∀ (fuel root : Nat) (data : List α), lo ≤ root → hi - root ≤ fuel →
      first + hi ≤ data.length →
      (∀ k, lo ≤ k → k < hi → k ≠ root → HeapAt less data first hi k) →
      (∀ q c x y, lo ≤ q → (root = 2 * q + 1 ∨ root = 2 * q + 2) →
        (c = 2 * root + 1 ∨ c = 2 * root + 2) → c < hi → data[first + q]? = some x →
        data[first + c]? = some y → less x y = false) →
      Keeps (first + lo) (first + hi) data (siftDownLoop less hi first fuel root data) ∧
        ∀ k, lo ≤ k → k < hi → HeapAt less (siftDownLoop less hi first fuel root data) first hi k := by
  intro fuel
  induction fuel with
  | zero =>
    intro root data hlo hfuel hlen h1 h2
    have e : siftDownLoop less hi first 0 root data = data := rfl
    rw [e]
    refine ⟨Keeps.refl _ _ _, ?_⟩
    intro k hk1 hk2
    exact h1 k hk1 hk2 (by omega)
  | succ fuel ih =>
    intro root data hlo hfuel hlen h1 h2
    rw [siftDownLoop]
    by_cases hch : 2 * root + 1 ≥ hi
    · simp only [hch, if_true]
      refine ⟨Keeps.refl _ _ _, ?_⟩
      intro k hk1 hk2
      by_cases hkr : k = root
      · subst hkr
        intro c x y hc hchi _ _
        omega
      · exact h1 k hk1 hk2 hkr
    · simp only [hch, if_false]
      have hroot : first + root < data.length := by omega
      -- the larger child
      obtain ⟨child1, hc1def, hc1, hc1hi, hother⟩ :
          ∃ child1,
            (if 2 * root + 1 + 1 < hi ∧
                lessAt less data (first + (2 * root + 1)) (first + (2 * root + 1) + 1) = true
              then 2 * root + 1 + 1 else 2 * root + 1) = child1 ∧
            (child1 = 2 * root + 1 ∨ child1 = 2 * root + 2) ∧ child1 < hi ∧
            ∀ c x y, (c = 2 * root + 1 ∨ c = 2 * root + 2) → c < hi →
              data[first + child1]? = some x → data[first + c]? = some y →
              less x y = false := by
        have hA : first + (2 * root + 1) < data.length := by omega
        have hxA : data[first + (2 * root + 1)]? = some data[first + (2 * root + 1)] :=
          List.getElem?_eq_getElem hA
        by_cases hcond : 2 * root + 1 + 1 < hi ∧
            lessAt less data (first + (2 * root + 1)) (first + (2 * root + 1) + 1) = true
        · refine ⟨2 * root + 2, by rw [if_pos hcond], Or.inr rfl, by omega, ?_⟩
          obtain ⟨hc2, hl⟩ := hcond
          have hB : first + (2 * root + 1) + 1 < data.length := by omega
          have hxB : data[first + (2 * root + 1) + 1]? = some data[first + (2 * root + 1) + 1] :=
            List.getElem?_eq_getElem hB
          rw [lessAt_eq less data _ _ _ _ hxA hxB] at hl
          intro c x y hc hchi hx hy
          have e2 : first + (2 * root + 2) = first + (2 * root + 1) + 1 := by omega
          rw [e2, hxB] at hx
          simp only [Option.some.injEq] at hx
          subst hx
          rcases hc with hc | hc
          · subst hc
            rw [hxA] at hy
            simp only [Option.some.injEq] at hy
            subst hy
            exact hw.1 _ _ hl
          · subst hc
            rw [e2, hxB] at hy
            simp only [Option.some.injEq] at hy
            subst hy
            exact hw.irrefl _
        · refine ⟨2 * root + 1, by rw [if_neg hcond], Or.inl rfl, by omega, ?_⟩
          intro c x y hc hchi hx hy
          rw [hxA] at hx
          simp only [Option.some.injEq] at hx
          subst hx
          rcases hc with hc | hc
          · subst hc
            rw [hxA] at hy
            simp only [Option.some.injEq] at hy
            subst hy
            exact hw.irrefl _
          · subst hc
            have hB : first + (2 * root + 1) + 1 < data.length := by omega
            have hxB : data[first + (2 * root + 1) + 1]? =
                some data[first + (2 * root + 1) + 1] := List.getElem?_eq_getElem hB
            have e2 : first + (2 * root + 2) = first + (2 * root + 1) + 1 := by omega
            rw [e2, hxB] at hy
            simp only [Option.some.injEq] at hy
            subst hy
            cases hl : less data[first + (2 * root + 1)] data[first + (2 * root + 1) + 1]
            · rfl
            · exact absurd ⟨by omega, by rw [lessAt_eq less data _ _ _ _ hxA hxB]; exact hl⟩ hcond
      simp only [hc1def]
      have hC : first + child1 < data.length := by omega
      have hxR : data[first + root]? = some data[first + root] := List.getElem?_eq_getElem hroot
      have hxC : data[first + child1]? = some data[first + child1] :=
        List.getElem?_eq_getElem hC
      rw [lessAt_eq less data _ _ _ _ hxR hxC]
      cases hl : less data[first + root] data[first + child1]
      · simp only [if_true]
        refine ⟨Keeps.refl _ _ _, ?_⟩
        intro k hk1 hk2
        by_cases hkr : k = root
        · subst hkr
          intro c x y hc hchi hx hy
          rw [hxR] at hx
          simp only [Option.some.injEq] at hx
          subst hx
          have h3 := hother c _ y hc hchi hxC hy
          exact hw.2 y _ _ h3 hl
        · exact h1 k hk1 hk2 hkr
      · simp only [Bool.true_eq_false, if_false]
        have hk := swapAt_keeps (first + lo) (first + hi) data (first + root) (first + child1)
          ⟨by omega, by omega⟩ ⟨by omega, by omega⟩
        have hget := fun k => getElem?_swapAt data (first + root) (first + child1) k hroot hC
        have hrec := ih child1 (swapAt data (first + root) (first + child1)) (by omega)
          (by omega) (by rw [swapAt_length]; exact hlen) ?_ ?_
        · exact ⟨hk.trans hrec.1, hrec.2⟩
        · intro k hk1 hk2 hkc
          intro c x y hc hchi hx hy
          rw [hget] at hx hy
          rw [if_neg (by omega)] at hx
          by_cases hkr : k = root
          · subst hkr
            rw [if_pos rfl, hxC] at hx
            simp only [Option.some.injEq] at hx
            subst hx
            by_cases hcc : c = child1
            · subst hcc
              rw [if_pos rfl, hxR] at hy
              simp only [Option.some.injEq] at hy
              subst hy
              exact hw.1 _ _ hl
            · rw [if_neg (by omega), if_neg (by omega)] at hy
              exact hother c _ y hc hchi hxC hy
          · rw [if_neg (by omega)] at hx
            have hcc : c ≠ child1 := by omega
            rw [if_neg (by omega)] at hy
            by_cases hcr : c = root
            · subst hcr
              rw [if_pos rfl, hxC] at hy
              simp only [Option.some.injEq] at hy
              subst hy
              exact h2 k child1 x _ hk1 (by omega) hc1 hc1hi hx hxC
            · rw [if_neg (by omega)] at hy
              exact h1 k hk1 hk2 hkr c x y hc hchi hx hy
        · intro q c x y hq hqc hc hchi hx hy
          have hqr : q = root := by omega
          subst hqr
          rw [hget] at hx hy
          rw [if_neg (by omega), if_pos rfl, hxC] at hx
          simp only [Option.some.injEq] at hx
          subst hx
          rw [if_neg (by omega), if_neg (by omega)] at hy
          exact h1 child1 (by omega) hc1hi (by omega) c _ y hc hchi hxC hy

end GoHeapSort

section GoHeapSort2

variable {α : Type}

theorem siftDown_func_spec {less : α → α → Bool} (hw : StrictWeak less) (data : List α)
    (lo hi first : Nat) (hlen : first + hi ≤ data.length)
    (h1 : ∀ k, lo < k → k < hi → HeapAt less data first hi k) :
    Keeps (first + lo) (first + hi) data (siftDown_func less data lo hi first) ∧
      ∀ k, lo ≤ k → k < hi → HeapAt less (siftDown_func less data lo hi first) first hi k := by
  unfold siftDown_func
  apply siftDownLoop_spec hw hi first lo hi lo data (le_refl _) (by omega) hlen
  · intro k hk1 hk2 hk3
    exact h1 k (by omega) hk2
  · intro q c x y hq hqc
    omega

theorem heapBuild_spec {less : α → α → Bool} (hw : StrictWeak less) (hi first : Nat) :
    ∀ (i : Nat) (data : List α), first + hi ≤ data.length →
      (∀ k, i < k → k < hi → HeapAt less data first hi k) →
      Keeps first (first + hi) data (heapBuild less hi first i data) ∧
        ∀ k, k < hi → HeapAt less (heapBuild less hi first i data) first hi k := by
  intro i
  induction i with
  | zero =>
    intro data hlen h1
    have h := siftDown_func_spec hw data 0 hi first hlen h1
    exact ⟨h.1, fun k hk => h.2 k (Nat.zero_le _) hk⟩
  | succ i ih =>
    intro data hlen h1
    have h := siftDown_func_spec hw data (i + 1) hi first hlen h1
    have hrec := ih (siftDown_func less data (i + 1) hi first) (by rw [h.1.1]; exact hlen)
      (fun k hk1 hk2 => h.2 k (by omega) hk2)
    exact ⟨(h.1.mono (by omega) (le_refl _)).trans hrec.1, hrec.2⟩

/-- The root of a heap is not less than any element of the heap. -/
theorem heap_root_max {less : α → α → Bool} (hw : StrictWeak less) (data : List α)
    (first n : Nat) (hlen : first + n ≤ data.length)
    (hheap : ∀ k, k < n → HeapAt less data first n k) :
    ∀ p x y, p < n → data[first]? = some x → data[first + p]? = some y → less x y = false := by
  intro p
  induction p using Nat.strong_induction_on with
  | _ p ih =>
    intro x y hp hx hy
    cases p with
    | zero =>
      rw [Nat.add_zero, hx] at hy
      simp only [Option.some.injEq] at hy
      subst hy
      exact hw.irrefl _
    | succ p =>
      have hq : first + p / 2 < data.length := by omega
      have hxq : data[first + p / 2]? = some data[first + p / 2] := List.getElem?_eq_getElem hq
      have h1 := ih (p / 2) (by omega) x _ (by omega) hx hxq
      have h2 := hheap (p / 2) (by omega) (p + 1) _ y (by omega) hp hxq hy
      exact hw.2 y _ x h2 h1

theorem heapPop_spec {less : α → α → Bool} (hw : StrictWeak less) (first hi : Nat) :
    ∀ (n : Nat) (data : List α), n ≤ hi → first + hi ≤ data.length →
      (∀ k, k < n → HeapAt less data first n k) →
      SortedOn less data (first + n) (first + hi) →
      (∀ p q x y, p < n → n ≤ q → q < hi → data[first + p]? = some x →
        data[first + q]? = some y → less y x = false) →
      Keeps first (first + hi) data (heapPop less first n data) ∧
        SortedOn less (heapPop less first n data) first (first + hi) := by
  intro n
  induction n with
  | zero =>
    intro data _ _ _ hs _
    exact ⟨Keeps.refl _ _ _, hs⟩
  | succ i ih =>
    intro data hn hlen hheap hs hb
    rw [heapPop]
    have hF : first < data.length := by omega
    have hI : first + i < data.length := by omega
    have hxF : data[first]? = some data[first] := List.getElem?_eq_getElem hF
    have hxI : data[first + i]? = some data[first + i] := List.getElem?_eq_getElem hI
    have hmax := heap_root_max hw data first (i + 1) (by omega) hheap
    have hk1 := swapAt_keeps first (first + hi) data first (first + i) ⟨le_refl _, by omega⟩
      ⟨by omega, by omega⟩
    have hget := fun k => getElem?_swapAt data first (first + i) k hF hI
    have hlen1 : first + i ≤ (swapAt data first (first + i)).length := by
      rw [swapAt_length]; omega
    have hsift := siftDown_func_spec hw (swapAt data first (first + i)) 0 i first hlen1 ?_
    · have hk2 : Keeps first (first + hi) (swapAt data first (first + i))
          (siftDown_func less (swapAt data first (first + i)) 0 i first) :=
        hsift.1.mono (by omega) (by omega)
      have hrec := ih (siftDown_func less (swapAt data first (first + i)) 0 i first) (by omega)
        (by rw [hsift.1.1, swapAt_length]; exact hlen)
        (fun k hk => hsift.2 k (Nat.zero_le _) hk) ?_ ?_
      · exact ⟨(hk1.trans hk2).trans hrec.1, hrec.2⟩
      · -- the suffix is sorted
        intro p q x y hp hpq hq hx hy
        rw [hsift.1.2.2.1 p (by omega), hget] at hx
        rw [hsift.1.2.2.1 q (by omega), hget] at hy
        rw [if_neg (by omega), if_neg (by omega)] at hy
        by_cases hpi : p = first + i
        · rw [if_pos hpi, hxF] at hx
          simp only [Option.some.injEq] at hx
          subst hx
          have e : q = first + (q - first) := by omega
          rw [e] at hy
          exact hb 0 (q - first) _ y (by omega) (by omega) (by omega) hxF hy
        · rw [if_neg hpi, if_neg (by omega)] at hx
          exact hs p q x y (by omega) hpq hq hx hy
      · -- the heap stays below the suffix
        intro p q x y hp hq1 hq2 hx hy
        have hy1 : (swapAt data first (first + i))[first + q]? = some y := by
          rw [← hsift.1.2.2.1 (first + q) (by omega)]
          exact hy
        have hall : AllOn (fun z => less y z = false) (swapAt data first (first + i))
            (first + 0) (first + i) := by
          intro k z hk1' hk2' hz
          rw [hget] at hz hy1
          rw [if_neg (by omega)] at hz
          by_cases hk0 : k = first
          · rw [if_pos hk0, hxI] at hz
            simp only [Option.some.injEq] at hz
            subst hz
            by_cases hqi : q = i
            · subst hqi
              rw [if_pos rfl, hxF] at hy1
              simp only [Option.some.injEq] at hy1
              subst hy1
              exact hmax q _ _ (by omega) hxF hxI
            · rw [if_neg (by omega), if_neg (by omega)] at hy1
              exact hb i q _ y (by omega) (by omega) hq2 hxI hy1
          · rw [if_neg hk0] at hz
            have e : k = first + (k - first) := by omega
            by_cases hqi : q = i
            · subst hqi
              rw [if_pos rfl, hxF] at hy1
              simp only [Option.some.injEq] at hy1
              subst hy1
              rw [e] at hz
              exact hmax (k - first) _ z (by omega) hxF hz
            · rw [if_neg (by omega), if_neg (by omega)] at hy1
              rw [e] at hz
              exact hb (k - first) q z y (by omega) (by omega) hq2 hz hy1
        exact hsift.1.2.2.2 _ hall (first + p) x (by omega) (by omega) hx
    · intro k hk1' hk2' c x y hc hchi hx hy
      rw [hget] at hx hy
      rw [if_neg (by omega), if_neg (by omega)] at hx
      rw [if_neg (by omega), if_neg (by omega)] at hy
      exact hheap k (by omega) c x y hc (by omega) hx hy

/-- Go `heapSort_func(data, a, b)` sorts the places `a ≤ i < b` and leaves the
others alone. -/
theorem heapSort_func_spec {less : α → α → Bool} (hw : StrictWeak less) (data : List α)
    (a b : Nat) (hab : a ≤ b) (hlen : b ≤ data.length) :
    Keeps a b data (heapSort_func less data a b) ∧
      SortedOn less (heapSort_func less data a b) a b := by
  unfold heapSort_func
  simp only
  have hb1 := heapBuild_spec hw (b - a) a ((b - a - 1) / 2) data (by omega)
    (fun k hk1 hk2 c x y hc hchi _ _ => by omega)
  have hp := heapPop_spec hw a (b - a) (b - a) (heapBuild less (b - a) a ((b - a - 1) / 2) data)
    (le_refl _) (by rw [hb1.1.1]; omega) hb1.2
    (fun i j x y h1 h2 h3 _ _ => by omega)
    (fun p q x y h1 h2 h3 _ _ => by omega)
  have e : a + (b - a) = b := by omega
  rw [e] at hb1 hp
  exact ⟨hb1.1.trans hp.1, hp.2⟩

end GoHeapSort2

section GoPivot

variable {α : Type}

theorem medianOfThree_func_keeps (less : α → α → Bool) (data : List α) (lo hi m1 m0 m2 : Nat)
    (h1 : lo ≤ m1 ∧ m1 < hi) (h0 : lo ≤ m0 ∧ m0 < hi) (h2 : lo ≤ m2 ∧ m2 < hi) :
    Keeps lo hi data (medianOfThree_func less data m1 m0 m2) := by
  unfold medianOfThree_func
  simp only
  have k1 : ∀ d : List α,
      Keeps lo hi d (if lessAt less d m1 m0 = true then swapAt d m1 m0 else d) := by
    intro d
    by_cases h : lessAt less d m1 m0 = true
    · rw [if_pos h]
      exact swapAt_keeps lo hi d m1 m0 h1 h0
    · rw [if_neg h]
      exact Keeps.refl _ _ _
  generalize hd1 : (if lessAt less data m1 m0 = true then swapAt data m1 m0 else data) = d1
  have hk1 : Keeps lo hi data d1 := hd1 ▸ k1 data
  by_cases hc : lessAt less d1 m2 m1 = true
  · rw [if_pos hc]
    exact hk1.trans ((swapAt_keeps lo hi d1 m2 m1 h2 h1).trans (k1 _))
  · rw [if_neg hc]
    exact hk1

/-- Go `medianOfThree_func(data, m1, m0, m2)` leaves the median of the three
elements at place `m1`: the element at `m0` is not above it, the element at
`m2` not below it. -/
theorem medianOfThree_func_order {less : α → α → Bool} (hw : StrictWeak less) (data : List α)
    (m1 m0 m2 : Nat) (h1 : m1 < data.length) (h0 : m0 < data.length) (h2 : m2 < data.length)
    (h10 : m1 ≠ m0) (h12 : m1 ≠ m2) (h02 : m0 ≠ m2) :
    ∀ x y z, (medianOfThree_func less data m1 m0 m2)[m0]? = some x →
      (medianOfThree_func less data m1 m0 m2)[m1]? = some y →
      (medianOfThree_func less data m1 m0 m2)[m2]? = some z →
      less y x = false ∧ less z y = false := by
  have hx1 : data[m1]? = some data[m1] := List.getElem?_eq_getElem h1
  have hx0 : data[m0]? = some data[m0] := List.getElem?_eq_getElem h0
  have hx2 : data[m2]? = some data[m2] := List.getElem?_eq_getElem h2
  -- the first comparison
  obtain ⟨d1, hd1, hlen1, a1, a0, hg1, hg0, hg2, hord1⟩ :
      ∃ d1, (if lessAt less data m1 m0 = true then swapAt data m1 m0 else data) = d1 ∧
        d1.length = data.length ∧ ∃ a1 a0, d1[m1]? = some a1 ∧ d1[m0]? = some a0 ∧
        d1[m2]? = some data[m2] ∧ less a1 a0 = false := by
    rw [lessAt_eq less data m1 m0 _ _ hx1 hx0]
    cases hl : less data[m1] data[m0]
    · exact ⟨data, by simp, rfl, _, _, hx1, hx0, hx2, hl⟩
    · refine ⟨swapAt data m1 m0, by simp, swapAt_length _ _ _, data[m0], data[m1], ?_, ?_, ?_,
        hw.1 _ _ hl⟩
      · rw [getElem?_swapAt data m1 m0 m1 h1 h0, if_neg h10, if_pos rfl, hx0]
      · rw [getElem?_swapAt data m1 m0 m0 h1 h0, if_pos rfl, hx1]
      · rw [getElem?_swapAt data m1 m0 m2 h1 h0, if_neg (fun e => h02 e.symm),
          if_neg (fun e => h12 e.symm), hx2]
  unfold medianOfThree_func
  simp only [hd1]
  have h1' : m1 < d1.length := by omega
  have h0' : m0 < d1.length := by omega
  have h2' : m2 < d1.length := by omega
  rw [lessAt_eq less d1 m2 m1 _ _ hg2 hg1]
  cases hl2 : less data[m2] a1
  · simp only [Bool.false_eq_true, if_false]
    intro x y z hx hy hz
    rw [hg0] at hx
    rw [hg1] at hy
    rw [hg2] at hz
    simp only [Option.some.injEq] at hx hy hz
    subst hx hy hz
    exact ⟨hord1, hl2⟩
  · simp only [if_true]
    have hs1 : (swapAt d1 m2 m1)[m1]? = some data[m2] := by
      rw [getElem?_swapAt d1 m2 m1 m1 h2' h1', if_pos rfl, hg2]
    have hs0 : (swapAt d1 m2 m1)[m0]? = some a0 := by
      rw [getElem?_swapAt d1 m2 m1 m0 h2' h1', if_neg (fun e => h10 e.symm), if_neg h02, hg0]
    have hs2 : (swapAt d1 m2 m1)[m2]? = some a1 := by
      rw [getElem?_swapAt d1 m2 m1 m2 h2' h1', if_neg (fun e => h12 e.symm), if_pos rfl, hg1]
    have h1'' : m1 < (swapAt d1 m2 m1).length := by rw [swapAt_length]; omega
    have h0'' : m0 < (swapAt d1 m2 m1).length := by rw [swapAt_length]; omega
    rw [lessAt_eq less (swapAt d1 m2 m1) m1 m0 _ _ hs1 hs0]
    cases hl3 : less data[m2] a0
    · simp only [Bool.false_eq_true, if_false]
      intro x y z hx hy hz
      rw [hs0] at hx
      rw [hs1] at hy
      rw [hs2] at hz
      simp only [Option.some.injEq] at hx hy hz
      subst hx hy hz
      exact ⟨hl3, hw.1 _ _ hl2⟩
    · simp only [if_true]
      intro x y z hx hy hz
      rw [getElem?_swapAt _ m1 m0 m0 h1'' h0'', if_pos rfl, hs1] at hx
      rw [getElem?_swapAt _ m1 m0 m1 h1'' h0'', if_neg h10, if_pos rfl, hs0] at hy
      rw [getElem?_swapAt _ m1 m0 m2 h1'' h0'', if_neg (fun e => h02 e.symm),
        if_neg (fun e => h12 e.symm), hs2] at hz
      simp only [Option.some.injEq] at hx hy hz
      subst hx hy hz
      exact ⟨hw.1 _ _ hl3, hord1⟩

end GoPivot

section GoPivotLoops

variable {α : Type}

theorem pivotSkipLess_spec (less : α → α → Bool) (data : List α) (pivot c : Nat) (p : α)
    (hp : data[pivot]? = some p) :
    ∀ (fuel a : Nat), c - a ≤ fuel →
      a ≤ pivotSkipLess less data pivot c fuel a ∧
      (a ≤ c → pivotSkipLess less data pivot c fuel a ≤ c) ∧
      (∀ i x, a ≤ i → i < pivotSkipLess less data pivot c fuel a → data[i]? = some x →
        less x p = true) ∧
      (pivotSkipLess less data pivot c fuel a < c →
        ∀ x, data[pivotSkipLess less data pivot c fuel a]? = some x → less x p = false) := by
  intro fuel
  induction fuel with
  | zero =>
    intro a hf
    simp only [pivotSkipLess]
    exact ⟨le_refl _, fun h => h, fun i x h1 h2 => by omega, fun h => by omega⟩
  | succ fuel ih =>
    intro a hf
    simp only [pivotSkipLess]
    by_cases hc : a < c ∧ lessAt less data a pivot = true
    · rw [if_pos hc]
      obtain ⟨h1, h2, h3, h4⟩ := ih (a + 1) (by omega)
      refine ⟨by omega, fun _ => h2 (by omega), ?_, h4⟩
      intro i x hai hi hx
      by_cases hia : i = a
      · subst hia
        have := hc.2
        rw [lessAt_eq less data i pivot _ _ hx hp] at this
        exact this
      · exact h3 i x (by omega) hi hx
    · rw [if_neg hc]
      refine ⟨le_refl _, fun h => h, fun i x h1 h2 => by omega, ?_⟩
      intro hac x hx
      cases hl : less x p
      · rfl
      · exact absurd ⟨hac, by rw [lessAt_eq less data a pivot _ _ hx hp]; exact hl⟩ hc

theorem pivotSkipLe_spec (less : α → α → Bool) (data : List α) (pivot c : Nat) (p : α)
    (hp : data[pivot]? = some p) :
    ∀ (fuel b : Nat), c - b ≤ fuel →
      b ≤ pivotSkipLe less data pivot c fuel b ∧
      (b ≤ c → pivotSkipLe less data pivot c fuel b ≤ c) ∧
      (∀ i x, b ≤ i → i < pivotSkipLe less data pivot c fuel b → data[i]? = some x →
        less p x = false) ∧
      (pivotSkipLe less data pivot c fuel b < c →
        ∀ x, data[pivotSkipLe less data pivot c fuel b]? = some x → less p x = true) := by
  intro fuel
  induction fuel with
  | zero =>
    intro b hf
    simp only [pivotSkipLe]
    exact ⟨le_refl _, fun h => h, fun i x h1 h2 => by omega, fun h => by omega⟩
  | succ fuel ih =>
    intro b hf
    simp only [pivotSkipLe]
    by_cases hc : b < c ∧ lessAt less data pivot b = false
    · rw [if_pos hc]
      obtain ⟨h1, h2, h3, h4⟩ := ih (b + 1) (by omega)
      refine ⟨by omega, fun _ => h2 (by omega), ?_, h4⟩
      intro i x hbi hi hx
      by_cases hib : i = b
      · subst hib
        have := hc.2
        rw [lessAt_eq less data pivot i _ _ hp hx] at this
        exact this
      · exact h3 i x (by omega) hi hx
    · rw [if_neg hc]
      refine ⟨le_refl _, fun h => h, fun i x h1 h2 => by omega, ?_⟩
      intro hbc x hx
      cases hl : less p x
      · exact absurd ⟨hbc, by rw [lessAt_eq less data pivot b _ _ hp hx]; exact hl⟩ hc
      · rfl

theorem pivotSkipGt_spec (less : α → α → Bool) (data : List α) (pivot b : Nat) (p : α)
    (hp : data[pivot]? = some p) :
    ∀ c : Nat,
      pivotSkipGt less data pivot b c ≤ c ∧
      (b ≤ c → b ≤ pivotSkipGt less data pivot b c) ∧
      (∀ i x, pivotSkipGt less data pivot b c ≤ i → i < c → data[i]? = some x →
        less p x = true) ∧
      (b < pivotSkipGt less data pivot b c →
        ∀ x, data[pivotSkipGt less data pivot b c - 1]? = some x → less p x = false) := by
  intro c
  induction c with
  | zero =>
    simp only [pivotSkipGt]
    exact ⟨le_refl _, fun h => h, fun i x h1 h2 => by omega, fun h => by omega⟩
  | succ c ih =>
    simp only [pivotSkipGt]
    by_cases hc : b < c + 1 ∧ lessAt less data pivot c = true
    · rw [if_pos hc]
      obtain ⟨h1, h2, h3, h4⟩ := ih
      refine ⟨by omega, fun _ => h2 (by omega), ?_, h4⟩
      intro i x hi hic hx
      by_cases hicc : i = c
      · subst hicc
        have := hc.2
        rw [lessAt_eq less data pivot i _ _ hp hx] at this
        exact this
      · exact h3 i x hi (by omega) hx
    · rw [if_neg hc]
      refine ⟨le_refl _, fun h => h, fun i x h1 h2 => by omega, ?_⟩
      intro hbc x hx
      simp only [Nat.add_sub_cancel] at hx
      cases hl : less p x
      · rfl
      · exact absurd ⟨hbc, by rw [lessAt_eq less data pivot c _ _ hp hx]; exact hl⟩ hc

theorem protectSkipEq_spec (less : α → α → Bool) (data : List α) (pivot a : Nat) (p : α)
    (hp : data[pivot]? = some p) :
    ∀ b : Nat,
      protectSkipEq less data pivot a b ≤ b ∧
      (a ≤ b → a ≤ protectSkipEq less data pivot a b) ∧
      (∀ i x, protectSkipEq less data pivot a b ≤ i → i < b → data[i]? = some x →
        less x p = false) ∧
      (a < protectSkipEq less data pivot a b →
        ∀ x, data[protectSkipEq less data pivot a b - 1]? = some x → less x p = true) := by
  intro b
  induction b with
  | zero =>
    simp only [protectSkipEq]
    exact ⟨le_refl _, fun h => h, fun i x h1 h2 => by omega, fun h => by omega⟩
  | succ b ih =>
    simp only [protectSkipEq]
    by_cases hc : a < b + 1 ∧ lessAt less data b pivot = false
    · rw [if_pos hc]
      obtain ⟨h1, h2, h3, h4⟩ := ih
      refine ⟨by omega, fun _ => h2 (by omega), ?_, h4⟩
      intro i x hi hib hx
      by_cases hibb : i = b
      · subst hibb
        have := hc.2
        rw [lessAt_eq less data i pivot _ _ hx hp] at this
        exact this
      · exact h3 i x hi (by omega) hx
    · rw [if_neg hc]
      refine ⟨le_refl _, fun h => h, fun i x h1 h2 => by omega, ?_⟩
      intro hab x hx
      simp only [Nat.add_sub_cancel] at hx
      cases hl : less x p
      · exact absurd ⟨hab, by rw [lessAt_eq less data b pivot _ _ hx hp]; exact hl⟩ hc
      · rfl

end GoPivotLoops

section GoPivotPartition

variable {α : Type}

/-- The partition loop of `doPivot_func`: the places in front of the final `b`
hold elements that the pivot is not less than, the places from the final `c`
on elements that the pivot is less than, and the two meet. -/
theorem pivotPartition_spec (less : α → α → Bool) (pivot : Nat) (p : α) :
    ∀ (fuel : Nat) (data : List α) (b c : Nat), c - b ≤ fuel → b ≤ c → pivot < b →
      c ≤ data.length → data[pivot]? = some p →
      Keeps b c data (pivotPartition less pivot fuel data b c).1 ∧
      b ≤ (pivotPartition less pivot fuel data b c).2.1 ∧
      (pivotPartition less pivot fuel data b c).2.1 =
        (pivotPartition less pivot fuel data b c).2.2 ∧
      (pivotPartition less pivot fuel data b c).2.2 ≤ c ∧
      (∀ i x, b ≤ i → i < (pivotPartition less pivot fuel data b c).2.1 →
        (pivotPartition less pivot fuel data b c).1[i]? = some x → less p x = false) ∧
      (∀ i x, (pivotPartition less pivot fuel data b c).2.2 ≤ i → i < c →
        (pivotPartition less pivot fuel data b c).1[i]? = some x → less p x = true) := by
  intro fuel
  induction fuel with
  | zero =>
    intro data b c hf hbc _ _ _
    simp only [pivotPartition]
    have : b = c := by omega
    subst this
    exact ⟨Keeps.refl _ _ _, le_refl _, rfl, le_refl _, fun i x h1 h2 => by omega,
      fun i x h1 h2 => by omega⟩
  | succ fuel ih =>
    intro data b c hf hbc hpb hlen hp
    obtain ⟨hb1, hb2, hb3, hb4⟩ := pivotSkipLe_spec less data pivot c p hp (c - b) b (le_refl _)
    generalize hb1def : pivotSkipLe less data pivot c (c - b) b = b1 at hb1 hb2 hb3 hb4
    obtain ⟨hc1, hc2, hc3, hc4⟩ := pivotSkipGt_spec less data pivot b1 p hp c
    generalize hc1def : pivotSkipGt less data pivot b1 c = c1 at hc1 hc2 hc3 hc4
    have hb1c : b1 ≤ c := hb2 hbc
    have hb1c1 : b1 ≤ c1 := hc2 hb1c
    rw [pivotPartition]
    simp only [hb1def, hc1def]
    by_cases hge : b1 ≥ c1
    · rw [if_pos hge]
      have : b1 = c1 := by omega
      subst this
      exact ⟨Keeps.refl _ _ _, hb1, rfl, hb1c, hb3, hc3⟩
    · rw [if_neg hge]
      have hlt : b1 < c1 := by omega
      have hB : b1 < data.length := by omega
      have hC : c1 - 1 < data.length := by omega
      have hxB : data[b1]? = some data[b1] := List.getElem?_eq_getElem hB
      have hxC : data[c1 - 1]? = some data[c1 - 1] := List.getElem?_eq_getElem hC
      have hBgt : less p data[b1] = true := hb4 (by omega) _ hxB
      have hCle : less p data[c1 - 1] = false := hc4 hlt _ hxC
      have hne : b1 ≠ c1 - 1 := by
        intro e
        have e2 : data[b1]? = data[c1 - 1]? := by rw [← e]
        rw [hxB, hxC] at e2
        simp only [Option.some.injEq] at e2
        rw [e2, hCle] at hBgt
        exact Bool.false_ne_true hBgt
      have hk := swapAt_keeps b c data b1 (c1 - 1) ⟨hb1, by omega⟩ ⟨by omega, by omega⟩
      have hget := fun k => getElem?_swapAt data b1 (c1 - 1) k hB hC
      have hp' : (swapAt data b1 (c1 - 1))[pivot]? = some p := by
        rw [hget, if_neg (by omega), if_neg (by omega)]
        exact hp
      obtain ⟨r1, r2, r3, r4, r5, r6⟩ := ih (swapAt data b1 (c1 - 1)) (b1 + 1) (c1 - 1)
        (by omega) (by omega) (by omega) (by rw [swapAt_length]; omega) hp'
      generalize pivotPartition less pivot fuel (swapAt data b1 (c1 - 1)) (b1 + 1) (c1 - 1) = r
        at r1 r2 r3 r4 r5 r6
      refine ⟨hk.trans (r1.mono (by omega) (by omega)), by omega, r3, by omega, ?_, ?_⟩
      · intro i x hbi hi hx
        by_cases h1 : i < b1 + 1
        · rw [r1.2.2.1 i (Or.inl h1), hget] at hx
          rw [if_neg (by omega)] at hx
          by_cases h2 : i = b1
          · rw [if_pos h2, hxC] at hx
            simp only [Option.some.injEq] at hx
            subst hx
            exact hCle
          · rw [if_neg h2] at hx
            exact hb3 i x hbi (by omega) hx
        · exact r5 i x (by omega) hi hx
      · intro i x hi hic hx
        by_cases h1 : c1 - 1 ≤ i
        · rw [r1.2.2.1 i (Or.inr h1), hget] at hx
          by_cases h2 : i = c1 - 1
          · rw [if_pos h2, hxB] at hx
            simp only [Option.some.injEq] at hx
            subst hx
            exact hBgt
          · rw [if_neg h2, if_neg (by omega)] at hx
            exact hc3 i x (by omega) hic hx
        · exact r6 i x hi (by omega) hx

/-- The loop of the duplicate protection: the places in front of the final `b`
hold elements less than the pivot, the places from it on elements that are
not. -/
theorem protectLoop_spec (less : α → α → Bool) (pivot : Nat) (p : α) :
    ∀ (fuel : Nat) (data : List α) (a b : Nat), b - a ≤ fuel → a ≤ b → pivot < a →
      b ≤ data.length → data[pivot]? = some p →
      Keeps a b data (protectLoop less pivot fuel data a b).1 ∧
      a ≤ (protectLoop less pivot fuel data a b).2 ∧
      (protectLoop less pivot fuel data a b).2 ≤ b ∧
      (∀ i x, a ≤ i → i < (protectLoop less pivot fuel data a b).2 →
        (protectLoop less pivot fuel data a b).1[i]? = some x → less x p = true) ∧
      (∀ i x, (protectLoop less pivot fuel data a b).2 ≤ i → i < b →
        (protectLoop less pivot fuel data a b).1[i]? = some x → less x p = false) := by
  intro fuel
  induction fuel with
  | zero =>
    intro data a b hf hab _ _ _
    simp only [protectLoop]
    have : a = b := by omega
    subst this
    exact ⟨Keeps.refl _ _ _, le_refl _, le_refl _, fun i x h1 h2 => by omega,
      fun i x h1 h2 => by omega⟩
  | succ fuel ih =>
    intro data a b hf hab hpa hlen hp
    obtain ⟨hb1, hb2, hb3, hb4⟩ := protectSkipEq_spec less data pivot a p hp b
    generalize hb1def : protectSkipEq less data pivot a b = b1 at hb1 hb2 hb3 hb4
    obtain ⟨ha1, ha2, ha3, ha4⟩ :=
      pivotSkipLess_spec less data pivot b1 p hp (b1 - a) a (le_refl _)
    generalize ha1def : pivotSkipLess less data pivot b1 (b1 - a) a = a1 at ha1 ha2 ha3 ha4
    have hab1 : a ≤ b1 := hb2 hab
    have ha1b1 : a1 ≤ b1 := ha2 hab1
    rw [protectLoop]
    simp only [hb1def, ha1def]
    by_cases hge : a1 ≥ b1
    · rw [if_pos hge]
      have : a1 = b1 := by omega
      subst this
      exact ⟨Keeps.refl _ _ _, ha1, hb1, ha3, hb3⟩
    · rw [if_neg hge]
      have hlt : a1 < b1 := by omega
      have hA : a1 < data.length := by omega
      have hB : b1 - 1 < data.length := by omega
      have hxA : data[a1]? = some data[a1] := List.getElem?_eq_getElem hA
      have hxB : data[b1 - 1]? = some data[b1 - 1] := List.getElem?_eq_getElem hB
      have hAge : less data[a1] p = false := ha4 hlt _ hxA
      have hBlt : less data[b1 - 1] p = true := hb4 (by omega) _ hxB
      have hne : a1 ≠ b1 - 1 := by
        intro e
        have e2 : data[a1]? = data[b1 - 1]? := by rw [← e]
        rw [hxA, hxB] at e2
        simp only [Option.some.injEq] at e2
        rw [e2, hBlt] at hAge
        exact Bool.false_ne_true hAge.symm
      have hk := swapAt_keeps a b data a1 (b1 - 1) ⟨ha1, by omega⟩ ⟨by omega, by omega⟩
      have hget := fun k => getElem?_swapAt data a1 (b1 - 1) k hA hB
      have hp' : (swapAt data a1 (b1 - 1))[pivot]? = some p := by
        rw [hget, if_neg (by omega), if_neg (by omega)]
        exact hp
      obtain ⟨r1, r2, r3, r4, r5⟩ := ih (swapAt data a1 (b1 - 1)) (a1 + 1) (b1 - 1)
        (by omega) (by omega) (by omega) (by rw [swapAt_length]; omega) hp'
      generalize protectLoop less pivot fuel (swapAt data a1 (b1 - 1)) (a1 + 1) (b1 - 1) = r
        at r1 r2 r3 r4 r5
      refine ⟨hk.trans (r1.mono (by omega) (by omega)), by omega, by omega, ?_, ?_⟩
      · intro i x hai hi hx
        by_cases h1 : i < a1 + 1
        · rw [r1.2.2.1 i (Or.inl h1), hget] at hx
          rw [if_neg (by omega)] at hx
          by_cases h2 : i = a1
          · rw [if_pos h2, hxB] at hx
            simp only [Option.some.injEq] at hx
            subst hx
            exact hBlt
          · rw [if_neg h2] at hx
            exact ha3 i x hai (by omega) hx
        · exact r4 i x (by omega) hi hx
      · intro i x hi hib hx
        by_cases h1 : b1 - 1 ≤ i
        · rw [r1.2.2.1 i (Or.inr h1), hget] at hx
          by_cases h2 : i = b1 - 1
          · rw [if_pos h2, hxA] at hx
            simp only [Option.some.injEq] at hx
            subst hx
            exact hAge
          · rw [if_neg h2, if_neg (by omega)] at hx
            exact hb3 i x (by omega) hib hx
        · exact r5 i x hi (by omega) hx

end GoPivotPartition

section GoPivotDups

variable {α : Type}

/-- The choice of the pivot rearranges the range and leaves at place `lo` an
element between the middle and the last one. -/
theorem pivotChoose_spec {less : α → α → Bool} (hw : StrictWeak less) (data : List α)
    (lo hi : Nat) (hn : hi - lo > 12) (hlen : hi ≤ data.length) :
    Keeps lo hi data (pivotChoose less data lo hi) ∧
      ∀ p z, (pivotChoose less data lo hi)[lo]? = some p →
        (pivotChoose less data lo hi)[hi - 1]? = some z → less z p = false := by
  unfold pivotChoose
  simp only
  have k1 : Keeps lo hi data
      (if hi - lo > 40 then
        medianOfThree_func less
          (medianOfThree_func less
            (medianOfThree_func less data lo (lo + (hi - lo) / 8) (lo + 2 * ((hi - lo) / 8)))
            ((lo + hi) / 2) ((lo + hi) / 2 - (hi - lo) / 8) ((lo + hi) / 2 + (hi - lo) / 8))
          (hi - 1) (hi - 1 - (hi - lo) / 8) (hi - 1 - 2 * ((hi - lo) / 8))
      else data) := by
    by_cases h40 : hi - lo > 40
    · rw [if_pos h40]
      refine ((medianOfThree_func_keeps less data lo hi _ _ _ ⟨by omega, by omega⟩
        ⟨by omega, by omega⟩ ⟨by omega, by omega⟩).trans
        (medianOfThree_func_keeps less _ lo hi _ _ _ ⟨by omega, by omega⟩
        ⟨by omega, by omega⟩ ⟨by omega, by omega⟩)).trans
        (medianOfThree_func_keeps less _ lo hi _ _ _ ⟨by omega, by omega⟩
        ⟨by omega, by omega⟩ ⟨by omega, by omega⟩)
    · rw [if_neg h40]
      exact Keeps.refl _ _ _
  generalize (if hi - lo > 40 then
        medianOfThree_func less
          (medianOfThree_func less
            (medianOfThree_func less data lo (lo + (hi - lo) / 8) (lo + 2 * ((hi - lo) / 8)))
            ((lo + hi) / 2) ((lo + hi) / 2 - (hi - lo) / 8) ((lo + hi) / 2 + (hi - lo) / 8))
          (hi - 1) (hi - 1 - (hi - lo) / 8) (hi - 1 - 2 * ((hi - lo) / 8))
      else data) = d1 at k1
  have hl1 : d1.length = data.length := k1.1
  have k2 := medianOfThree_func_keeps less d1 lo hi lo ((lo + hi) / 2) (hi - 1)
    ⟨by omega, by omega⟩ ⟨by omega, by omega⟩ ⟨by omega, by omega⟩
  refine ⟨k1.trans k2, ?_⟩
  intro p z hp hz
  have hM : (lo + hi) / 2 < (medianOfThree_func less d1 lo ((lo + hi) / 2) (hi - 1)).length := by
    rw [k2.1]; omega
  exact (medianOfThree_func_order hw d1 lo ((lo + hi) / 2) (hi - 1) (by omega) (by omega)
    (by omega) (by omega) (by omega) (by omega) _ p z (List.getElem?_eq_getElem hM) hp hz).2

theorem PivotRegions.step1 {less : α → α → Bool} {p : α} {data : List α} {lo a b c hi : Nat}
    (h : PivotRegions less p data lo a b c hi) (hlo : lo < c) (hab : a ≤ b) (hbc : b ≤ c)
    (hc : c ≤ hi - 1)
    (hhi : hi ≤ data.length) (hcond : lessAt less data lo (hi - 1) = false) :
    PivotRegions less p (swapAt data c (hi - 1)) lo a b (c + 1) hi := by
  obtain ⟨hp, h1, h2, h3, h4⟩ := h
  have hC : c < data.length := by omega
  have hH : hi - 1 < data.length := by omega
  have hxC : data[c]? = some data[c] := List.getElem?_eq_getElem hC
  have hxH : data[hi - 1]? = some data[hi - 1] := List.getElem?_eq_getElem hH
  have hget := fun k => getElem?_swapAt data c (hi - 1) k hC hH
  rw [lessAt_eq less data lo (hi - 1) _ _ hp hxH] at hcond
  have hHge : less data[hi - 1] p = false := h4 (hi - 1) _ (by omega) (by omega) hxH
  have hCge : less data[c] p = false := h4 c _ (le_refl _) (by omega) hxC
  refine ⟨?_, ?_, ?_, ?_, ?_⟩
  · rw [hget, if_neg (by omega), if_neg (by omega)]
    exact hp
  · intro i x hi1 hi2 hx
    by_cases hic : i < c
    · rw [hget, if_neg (by omega), if_neg (by omega)] at hx
      exact h1 i x hi1 hi2 hx
    · omega
  · intro i x hi1 hi2 hx
    rw [hget, if_neg (by omega), if_neg (by omega)] at hx
    exact h2 i x hi1 hi2 hx
  · intro i x hi1 hi2 hx
    rw [hget] at hx
    by_cases hih : i = hi - 1
    · rw [if_pos hih, hxC] at hx
      have : c = hi - 1 := by omega
      simp only [Option.some.injEq] at hx
      subst hx
      have e : data[c]? = data[hi - 1]? := by rw [this]
      rw [hxC, hxH] at e
      simp only [Option.some.injEq] at e
      rw [e]
      exact ⟨hcond, hHge⟩
    · rw [if_neg hih] at hx
      by_cases hicc : i = c
      · rw [if_pos hicc, hxH] at hx
        simp only [Option.some.injEq] at hx
        subst hx
        exact ⟨hcond, hHge⟩
      · rw [if_neg hicc] at hx
        exact h3 i x hi1 (by omega) hx
  · intro i x hi1 hi2 hx
    rw [hget] at hx
    by_cases hih : i = hi - 1
    · rw [if_pos hih, hxC] at hx
      simp only [Option.some.injEq] at hx
      subst hx
      exact hCge
    · rw [if_neg hih, if_neg (by omega)] at hx
      exact h4 i x (by omega) hi2 hx

end GoPivotDups

section GoPivotDups2

variable {α : Type}

theorem PivotRegions.step2 {less : α → α → Bool} {p : α} {data : List α} {lo a b c hi : Nat}
    (h : PivotRegions less p data lo a b c hi) (hb : lo + 2 ≤ b) (hlen : b ≤ data.length)
    (hcond : lessAt less data (b - 1) lo = false) :
    a ≤ b - 1 ∧ PivotRegions less p data lo a (b - 1) c hi := by
  obtain ⟨hp, h1, h2, h3, h4⟩ := h
  have hB : b - 1 < data.length := by omega
  have hxB : data[b - 1]? = some data[b - 1] := List.getElem?_eq_getElem hB
  rw [lessAt_eq less data (b - 1) lo _ _ hxB hp] at hcond
  have hab : a ≤ b - 1 := by
    by_contra hlt
    have : less data[b - 1] p = true := h1 (b - 1) _ (by omega) (by omega) hxB
    rw [hcond] at this
    exact Bool.false_ne_true this
  refine ⟨hab, hp, h1, fun i x hi1 hi2 hx => h2 i x hi1 (by omega) hx, ?_, h4⟩
  intro i x hi1 hi2 hx
  by_cases hib : i = b - 1
  · subst hib
    rw [hxB] at hx
    simp only [Option.some.injEq] at hx
    subst hx
    exact ⟨h2 (b - 1) _ hab (by omega) hxB, hcond⟩
  · exact h3 i x (by omega) hi2 hx

theorem PivotRegions.step3 {less : α → α → Bool} {p : α} {data : List α} {lo a b c hi : Nat}
    (h : PivotRegions less p data lo a b c hi) (m : Nat) (hm : lo + 1 ≤ m ∧ m < b)
    (hbc : b ≤ c) (hlen : b ≤ data.length) (hcond : lessAt less data m lo = false) :
    a ≤ b - 1 ∧ PivotRegions less p (swapAt data m (b - 1)) lo a (b - 1) c hi := by
  obtain ⟨hp, h1, h2, h3, h4⟩ := h
  have hB : b - 1 < data.length := by omega
  have hM : m < data.length := by omega
  have hxB : data[b - 1]? = some data[b - 1] := List.getElem?_eq_getElem hB
  have hxM : data[m]? = some data[m] := List.getElem?_eq_getElem hM
  have hget := fun k => getElem?_swapAt data m (b - 1) k hM hB
  rw [lessAt_eq less data m lo _ _ hxM hp] at hcond
  have ham : a ≤ m := by
    by_contra hlt
    have : less data[m] p = true := h1 m _ hm.1 (by omega) hxM
    rw [hcond] at this
    exact Bool.false_ne_true this
  refine ⟨by omega, ?_, ?_, ?_, ?_, ?_⟩
  · rw [hget, if_neg (by omega), if_neg (by omega)]
    exact hp
  · intro i x hi1 hi2 hx
    rw [hget, if_neg (by omega), if_neg (by omega)] at hx
    exact h1 i x hi1 hi2 hx
  · intro i x hi1 hi2 hx
    rw [hget, if_neg (by omega)] at hx
    by_cases him : i = m
    · rw [if_pos him, hxB] at hx
      simp only [Option.some.injEq] at hx
      subst hx
      exact h2 (b - 1) _ (by omega) (by omega) hxB
    · rw [if_neg him] at hx
      exact h2 i x hi1 (by omega) hx
  · intro i x hi1 hi2 hx
    rw [hget] at hx
    by_cases hib : i = b - 1
    · rw [if_pos hib, hxM] at hx
      simp only [Option.some.injEq] at hx
      subst hx
      exact ⟨h2 m _ ham hm.2 hxM, hcond⟩
    · rw [if_neg hib, if_neg (by omega)] at hx
      exact h3 i x (by omega) hi2 hx
  · intro i x hi1 hi2 hx
    rw [hget, if_neg (by omega), if_neg (by omega)] at hx
    exact h4 i x hi1 hi2 hx

theorem Keeps_of_eq {a b : Nat} {d1 d2 : List α} (h : d2 = d1) : Keeps a b d1 d2 := by
  subst h
  exact Keeps.refl _ _ _

/-- The test for duplicates of the pivot keeps the regions of `doPivot_func`. -/
theorem pivotDups_spec {less : α → α → Bool} (p : α) (data : List α)
    (lo a b c hi : Nat) (h : PivotRegions less p data lo a b c hi) (hn : hi - lo > 12)
    (hlen : hi ≤ data.length) (hla : lo + 1 ≤ a) (hab : a ≤ b) (hbc : b = c)
    (hc : c ≤ hi - 1) :
    Keeps (lo + 1) hi data (pivotDups less data lo hi b c).1 ∧
      a ≤ (pivotDups less data lo hi b c).2.1 ∧
      (pivotDups less data lo hi b c).2.1 ≤ (pivotDups less data lo hi b c).2.2.1 ∧
      (pivotDups less data lo hi b c).2.2.1 ≤ hi ∧
      PivotRegions less p (pivotDups less data lo hi b c).1 lo a
        (pivotDups less data lo hi b c).2.1 (pivotDups less data lo hi b c).2.2.1 hi := by
  subst hbc
  unfold pivotDups
  simp only
  by_cases hout : decide (hi - b < 5) = false ∧ hi - b < (hi - lo) / 4
  · rw [if_pos hout]
    obtain ⟨ho1, ho2⟩ := hout
    simp only [decide_eq_false_iff_not] at ho1
    -- the first test
    obtain ⟨d1, c1, n1, he1, hk1, hc1a, hc1b, hr1⟩ :
        ∃ d1 c1 n1,
          (if lessAt less data lo (hi - 1) = false then (swapAt data b (hi - 1), b + 1, 1)
            else (data, b, 0)) = (d1, c1, n1) ∧
          Keeps (lo + 1) hi data d1 ∧ b ≤ c1 ∧ c1 ≤ hi ∧
          PivotRegions less p d1 lo a b c1 hi := by
      by_cases h1 : lessAt less data lo (hi - 1) = false
      · exact ⟨_, _, _, by rw [if_pos h1],
          swapAt_keeps _ _ _ _ _ ⟨by omega, by omega⟩ ⟨by omega, by omega⟩, by omega, by omega,
          h.step1 (by omega) hab (le_refl _) hc hlen h1⟩
      · exact ⟨_, _, _, by rw [if_neg h1], Keeps.refl _ _ _, le_refl _, by omega, h⟩
    rw [he1]
    simp only
    have hl1 : d1.length = data.length := hk1.1
    -- the second test
    obtain ⟨b1, n2, he2, hb1a, hb1b, hb1c, hr2⟩ :
        ∃ b1 n2,
          (if lessAt less d1 (b - 1) lo = false then (b - 1, n1 + 1) else (b, n1)) = (b1, n2) ∧
          a ≤ b1 ∧ b1 ≤ b ∧ b ≤ b1 + 1 ∧ PivotRegions less p d1 lo a b1 c1 hi := by
      by_cases h2 : lessAt less d1 (b - 1) lo = false
      · have hs := hr1.step2 (by omega) (by omega) h2
        exact ⟨_, _, by rw [if_pos h2], hs.1, by omega, by omega, hs.2⟩
      · exact ⟨_, _, by rw [if_neg h2], hab, le_refl _, by omega, hr1⟩
    rw [he2]
    simp only
    -- the third test
    by_cases h3 : lessAt less d1 ((lo + hi) / 2) lo = false
    · rw [if_pos h3]
      simp only
      have hs := hr2.step3 ((lo + hi) / 2) ⟨by omega, by omega⟩ (by omega) (by omega) h3
      refine ⟨hk1.trans (swapAt_keeps _ _ _ _ _ ⟨by omega, by omega⟩ ⟨by omega, by omega⟩),
        hs.1, by omega, hc1b, hs.2⟩
    · rw [if_neg h3]
      simp only
      exact ⟨hk1, hb1a, by omega, hc1b, hr2⟩
  · rw [if_neg hout]
    simp only
    exact ⟨Keeps.refl _ _ _, hab, le_refl _, by omega, h⟩

end GoPivotDups2
section GoPivotFinish

variable {α : Type}

/-- The last step of `doPivot_func`: the pivot is swapped into the middle. -/
theorem PivotRegions.finish {less : α → α → Bool} (hw : StrictWeak less) {p : α}
    {data : List α} {lo a b c hi : Nat} (h : PivotRegions less p data lo a b c hi)
    (hla : lo + 1 ≤ a) (hab : a ≤ b) (hbc : b ≤ c) (hc : c ≤ hi) (hlen : hi ≤ data.length) :
    Keeps lo hi data (swapAt data lo (b - 1)) ∧
      Partitioned less (swapAt data lo (b - 1)) lo hi (b - 1) c := by
  obtain ⟨hp, h1, h2, h3, h4⟩ := h
  have hL : lo < data.length := by omega
  have hB : b - 1 < data.length := by omega
  have hxB : data[b - 1]? = some data[b - 1] := List.getElem?_eq_getElem hB
  have hget := fun k => getElem?_swapAt data lo (b - 1) k hL hB
  have hle : ∀ i x, lo + 1 ≤ i → i < b → data[i]? = some x → less p x = false := by
    intro i x hi1 hi2 hx
    by_cases hia : i < a
    · exact hw.1 _ _ (h1 i x hi1 hia hx)
    · exact h2 i x (by omega) hi2 hx
  refine ⟨swapAt_keeps lo hi data lo (b - 1) ⟨le_refl _, by omega⟩ ⟨by omega, by omega⟩,
    by omega, by omega, hc, p, ?_, ?_, ?_⟩
  · intro i x hi1 hi2 hx
    rw [hget, if_neg (by omega)] at hx
    by_cases hil : i = lo
    · rw [if_pos hil, hxB] at hx
      simp only [Option.some.injEq] at hx
      subst hx
      exact hle (b - 1) _ (by omega) (by omega) hxB
    · rw [if_neg hil] at hx
      exact hle i x (by omega) (by omega) hx
  · intro i x hi1 hi2 hx
    rw [hget] at hx
    by_cases hib : i = b - 1
    · rw [if_pos hib, hp] at hx
      simp only [Option.some.injEq] at hx
      subst hx
      exact ⟨hw.irrefl _, hw.irrefl _⟩
    · rw [if_neg hib, if_neg (by omega)] at hx
      exact h3 i x (by omega) hi2 hx
  · intro i x hi1 hi2 hx
    rw [hget, if_neg (by omega), if_neg (by omega)] at hx
    exact h4 i x hi1 hi2 hx

/-- Go `doPivot_func(data, lo, hi)` rearranges the range and splits it in three
parts around a pivot. -/
theorem doPivot_func_spec {less : α → α → Bool} (hw : StrictWeak less) (data : List α)
    (lo hi : Nat) (hn : hi - lo > 12) (hlen : hi ≤ data.length) :
    Keeps lo hi data (doPivot_func less data lo hi).1 ∧
      Partitioned less (doPivot_func less data lo hi).1 lo hi (doPivot_func less data lo hi).2.1
        (doPivot_func less data lo hi).2.2 := by
  obtain ⟨hk2, hmed⟩ := pivotChoose_spec hw data lo hi hn hlen
  unfold doPivot_func
  simp only
  generalize pivotChoose less data lo hi = data2 at hk2 hmed
  have hl2 : data2.length = data.length := hk2.1
  have hL : lo < data2.length := by omega
  have hp : data2[lo]? = some data2[lo] := List.getElem?_eq_getElem hL
  generalize data2[lo] = p at hp
  obtain ⟨ha1, ha2, ha3, _⟩ :=
    pivotSkipLess_spec less data2 lo (hi - 1) p hp (hi - 1 - (lo + 1)) (lo + 1) (le_refl _)
  generalize pivotSkipLess less data2 lo (hi - 1) (hi - 1 - (lo + 1)) (lo + 1) = a
    at ha1 ha2 ha3
  have ha2' : a ≤ hi - 1 := ha2 (by omega)
  obtain ⟨hk3, hb1, hb2, hb3, hb4, hb5⟩ :=
    pivotPartition_spec less lo p (hi - 1 - a) data2 a (hi - 1) (le_refl _) ha2' (by omega)
      (by omega) hp
  generalize pivotPartition less lo (hi - 1 - a) data2 a (hi - 1) = r3
    at hk3 hb1 hb2 hb3 hb4 hb5
  obtain ⟨data3, b, c⟩ := r3
  simp only at hk3 hb1 hb2 hb3 hb4 hb5 ⊢
  have hl3 : data3.length = data2.length := hk3.1
  have hreg3 : PivotRegions less p data3 lo a b c hi := by
    refine ⟨?_, ?_, hb4, ?_, ?_⟩
    · rw [hk3.2.2.1 lo (Or.inl (by omega))]
      exact hp
    · intro i x hi1 hi2 hx
      rw [hk3.2.2.1 i (Or.inl hi2)] at hx
      exact ha3 i x hi1 hi2 hx
    · intro i x hi1 hi2 hx
      omega
    · intro i x hi1 hi2 hx
      by_cases hih : i < hi - 1
      · exact hw.1 _ _ (hb5 i x hi1 hih hx)
      · have e : i = hi - 1 := by omega
        subst e
        rw [hk3.2.2.1 (hi - 1) (Or.inr (le_refl _))] at hx
        exact hmed p x hp hx
  obtain ⟨hk4, hd1, hd2, hd3, hreg4⟩ :=
    pivotDups_spec p data3 lo a b c hi hreg3 hn (by omega) (by omega) hb1 hb2 hb3
  generalize pivotDups less data3 lo hi b c = r4 at hk4 hd1 hd2 hd3 hreg4
  obtain ⟨data4, b1, c1, protect⟩ := r4
  simp only at hk4 hd1 hd2 hd3 hreg4 ⊢
  have hl4 : data4.length = data3.length := hk4.1
  have hk24 : Keeps lo hi data data4 :=
    (hk2.trans (hk3.mono (by omega) (by omega))).trans (hk4.mono (by omega) (le_refl _))
  cases protect with
  | false =>
    simp only [Bool.false_eq_true, if_false]
    obtain ⟨hkf, hpart⟩ := hreg4.finish hw (by omega) hd1 hd2 hd3 (by omega)
    exact ⟨hk24.trans hkf, hpart⟩
  | true =>
    simp only [if_true]
    obtain ⟨hk5, hq1, hq2, hq3, hq4⟩ :=
      protectLoop_spec less lo p (b1 - a) data4 a b1 (le_refl _) hd1 (by omega) (by omega)
        hreg4.1
    generalize protectLoop less lo (b1 - a) data4 a b1 = r5 at hk5 hq1 hq2 hq3 hq4
    obtain ⟨data5, b2⟩ := r5
    simp only at hk5 hq1 hq2 hq3 hq4 ⊢
    have hreg5 : PivotRegions less p data5 lo b2 b2 c1 hi := by
      obtain ⟨hp4, g1, g2, g3, g4⟩ := hreg4
      refine ⟨?_, ?_, ?_, ?_, ?_⟩
      · rw [hk5.2.2.1 lo (Or.inl (by omega))]
        exact hp4
      · intro i x hi1 hi2 hx
        by_cases hia : i < a
        · rw [hk5.2.2.1 i (Or.inl hia)] at hx
          exact g1 i x hi1 hia hx
        · exact hq3 i x (by omega) hi2 hx
      · intro i x hi1 hi2 hx
        omega
      · intro i x hi1 hi2 hx
        by_cases hib : i < b1
        · exact ⟨hk5.2.2.2 _ g2 i x (by omega) hib hx, hq4 i x hi1 hib hx⟩
        · rw [hk5.2.2.1 i (Or.inr (by omega))] at hx
          exact g3 i x (by omega) hi2 hx
      · intro i x hi1 hi2 hx
        rw [hk5.2.2.1 i (Or.inr (by omega))] at hx
        exact g4 i x hi1 hi2 hx
    obtain ⟨hkf, hpart⟩ := hreg5.finish hw (by omega) (le_refl _) (by omega) hd3
      (by rw [hk5.1]; omega)
    exact ⟨(hk24.trans (hk5.mono (by omega) (by omega))).trans hkf, hpart⟩

end GoPivotFinish

section GoQuickSort

variable {α : Type}

theorem AllOn.frame {P : α → Prop} {d d1 : List α} {a b : Nat} (h : AllOn P d a b)
    (hf : ∀ i, a ≤ i → i < b → d1[i]? = d[i]?) : AllOn P d1 a b := by
  intro i x h1 h2 hx
  rw [hf i h1 h2] at hx
  exact h i x h1 h2 hx

theorem SortedOn.framed {less : α → α → Bool} {d d1 : List α} {a b : Nat}
    (h : SortedOn less d a b) (hf : ∀ i, a ≤ i → i < b → d1[i]? = d[i]?) :
    SortedOn less d1 a b := by
  intro i j x y h1 h2 h3 hx hy
  rw [hf i h1 (by omega)] at hx
  rw [hf j (by omega) h3] at hy
  exact h i j x y h1 h2 h3 hx hy

/-- A range is sorted when it is split around a pivot and both outer parts are
sorted. -/
theorem sortedOn_of_parts {less : α → α → Bool} (hw : StrictWeak less) (d : List α)
    (a b mlo mhi : Nat) (p : α)
    (h1 : AllOn (fun x => less p x = false) d a mlo)
    (h2 : AllOn (fun x => less p x = false ∧ less x p = false) d mlo mhi)
    (h3 : AllOn (fun x => less x p = false) d mhi b)
    (hs1 : SortedOn less d a mlo) (hs2 : SortedOn less d mhi b) : SortedOn less d a b := by
  intro i j x y hai hij hjb hx hy
  by_cases hj : j < mlo
  · exact hs1 i j x y hai hij hj hx hy
  · by_cases hi : mhi ≤ i
    · exact hs2 i j x y hi hij hjb hx hy
    · have hxp : less p x = false := by
        by_cases him : i < mlo
        · exact h1 i x hai him hx
        · exact (h2 i x (by omega) (by omega) hx).1
      have hyp : less y p = false := by
        by_cases hjm : j < mhi
        · exact (h2 j y (by omega) hjm hy).2
        · exact h3 j y (by omega) hjb hy
      exact hw.2 x p y hxp hyp

/-- Go `quickSort_func(data, a, b, maxDepth)` sorts the places `a ≤ i < b` and
leaves the others alone. -/
theorem quickSort_func_spec {less : α → α → Bool} (hw : StrictWeak less) :
    ∀ (maxDepth : Nat) (data : List α) (a b : Nat), b ≤ data.length →
      Keeps a b data (quickSort_func less maxDepth data a b) ∧
        SortedOn less (quickSort_func less maxDepth data a b) a b := by
  intro maxDepth
  induction maxDepth with
  | zero =>
    intro data a b hlen
    rw [quickSort_func]
    by_cases hbig : b - a > 12
    · rw [if_pos hbig]
      exact heapSort_func_spec hw data a b (by omega) hlen
    · rw [if_neg hbig]
      by_cases h1 : b - a > 1
      · rw [if_pos h1]
        have hk := shellPass_keeps less a b (b - (a + 6)) (a + 6) data (le_refl _)
        have hi := insertionSort_func_spec hw (shellPass less b (b - (a + 6)) (a + 6) data) a b
          (by rw [hk.1]; exact hlen)
        exact ⟨hk.trans hi.1, hi.2⟩
      · rw [if_neg h1]
        exact ⟨Keeps.refl _ _ _, fun i j x y h1 h2 h3 _ _ => by omega⟩
  | succ depth ih =>
    intro data a b hlen
    rw [quickSort_func]
    by_cases hbig : b - a > 12
    · rw [if_pos hbig]
      simp only
      obtain ⟨hk1, hpart⟩ := doPivot_func_spec hw data a b hbig hlen
      generalize doPivot_func less data a b = r at hk1 hpart
      obtain ⟨data1, mlo, mhi⟩ := r
      simp only at hk1 hpart ⊢
      obtain ⟨hm1, hm2, hm3, p, hp1, hp2, hp3⟩ := hpart
      have hl1 : data1.length = data.length := hk1.1
      by_cases hside : mlo - a < b - mhi
      · rw [if_pos hside]
        obtain ⟨hk2, hs2⟩ := ih data1 a mlo (by omega)
        generalize quickSort_func less depth data1 a mlo = d2 at hk2 hs2
        obtain ⟨hk3, hs3⟩ := ih d2 mhi b (by rw [hk2.1]; omega)
        generalize quickSort_func less depth d2 mhi b = d3 at hk3 hs3
        refine ⟨(hk1.trans (hk2.mono (le_refl _) (by omega))).trans
          (hk3.mono (by omega) (le_refl _)), ?_⟩
        have f3 : ∀ i, i < mhi → d3[i]? = d2[i]? := fun i hi => hk3.2.2.1 i (Or.inl hi)
        have f2 : ∀ i, mlo ≤ i → d2[i]? = data1[i]? := fun i hi => hk2.2.2.1 i (Or.inr hi)
        apply sortedOn_of_parts hw d3 a b mlo mhi p
        · exact (hk2.2.2.2 _ hp1).frame (fun i _ h2 => f3 i (by omega))
        · exact (hp2.frame (fun i h1 _ => f2 i h1)).frame (fun i _ h2 => f3 i h2)
        · exact hk3.2.2.2 _ (hp3.frame (fun i h1 _ => f2 i (by omega)))
        · exact hs2.framed (fun i _ h2 => f3 i (by omega))
        · exact hs3
      · rw [if_neg hside]
        obtain ⟨hk2, hs2⟩ := ih data1 mhi b (by omega)
        generalize quickSort_func less depth data1 mhi b = d2 at hk2 hs2
        obtain ⟨hk3, hs3⟩ := ih d2 a mlo (by rw [hk2.1]; omega)
        generalize quickSort_func less depth d2 a mlo = d3 at hk3 hs3
        refine ⟨(hk1.trans (hk2.mono (by omega) (le_refl _))).trans
          (hk3.mono (le_refl _) (by omega)), ?_⟩
        have f3 : ∀ i, mlo ≤ i → d3[i]? = d2[i]? := fun i hi => hk3.2.2.1 i (Or.inr hi)
        have f2 : ∀ i, i < mhi → d2[i]? = data1[i]? := fun i hi => hk2.2.2.1 i (Or.inl hi)
        apply sortedOn_of_parts hw d3 a b mlo mhi p
        · exact hk3.2.2.2 _ (hp1.frame (fun i _ h2 => f2 i (by omega)))
        · exact (hp2.frame (fun i _ h2 => f2 i h2)).frame (fun i h1 _ => f3 i h1)
        · exact (hk2.2.2.2 _ hp3).frame (fun i h1 _ => f3 i (by omega))
        · exact hs3
        · exact hs2.framed (fun i h1 _ => f3 i (by omega))
    · rw [if_neg hbig]
      by_cases h1 : b - a > 1
      · rw [if_pos h1]
        have hk := shellPass_keeps less a b (b - (a + 6)) (a + 6) data (le_refl _)
        have hi := insertionSort_func_spec hw (shellPass less b (b - (a + 6)) (a + 6) data) a b
          (by rw [hk.1]; exact hlen)
        exact ⟨hk.trans hi.1, hi.2⟩
      · rw [if_neg h1]
        exact ⟨Keeps.refl _ _ _, fun i j x y h1 h2 h3 _ _ => by omega⟩

/-- The `sort.Slice` of Go 1.8 to 1.18 returns a rearrangement of the slice in
which no element is less than an element in front of it, for every `less` that
is a transitive ordering. -/
theorem sortSliceGo118_spec {less : α → α → Bool} (hw : StrictWeak less) (data : List α) :
    (sortSliceGo118 less data).Perm data ∧
      (sortSliceGo118 less data).Pairwise (fun x y => less y x = false) := by
  obtain ⟨hk, hs⟩ := quickSort_func_spec hw (maxDepth data.length) data 0 data.length (le_refl _)
  unfold sortSliceGo118
  refine ⟨hk.2.1, ?_⟩
  rw [List.pairwise_iff_getElem]
  intro i j hi hj hij
  exact hs i j _ _ (Nat.zero_le _) hij (by rw [hk.1] at hj; exact hj)
    (List.getElem?_eq_getElem hi) (List.getElem?_eq_getElem hj)

end GoQuickSort

/-- The `sort.Slice` of Go 1.8 to 1.18 keeps the promise of the documentation
of `sort.Slice`. -/
theorem sortSliceGo118_sorts : SortsSlices sortSliceGo118 := by
  constructor
  · intro less data hless
    exact (sortSliceGo118_spec hless data).1
  · intro less data hless
    exact (sortSliceGo118_spec hless data).2

/-! ## One pass of `getStreamURL` -/

/-- The call `getStreamURL` when the live page, the visitor login and
start-play answer and the manifest parses: the pair of `selectURLs`, or after
its panic the call starts over. -/
theorem getStreamURL_first_pass (sortSlice : SortSlice) (s : streamer) (net : Net)
    (cookies : List Cookie) (lives : List (Reply (List Cookie))) (didCookie : Cookie)
    (login : Login) (logins : List (Reply Login)) (play : StartPlay)
    (plays : List (Reply StartPlay)) (m : Manifest)
    (hlive : net.livePage = Reply.ok cookies :: lives) (hdid : findDid cookies = some didCookie)
    (hlogin : net.visitorLogin = Reply.ok login :: logins) (hres : login.result = 0)
    (hplay : net.startPlay = Reply.ok play :: plays) (hpres : play.result = 1)
    (hman : play.videoPlayRes = some m) :
    s.getStreamURL sortSlice net =
      match selectURLs sortSlice m with
      | .ret hlsURL flvURL => Run.returned (hlsURL, flvURL) (afterPass s net didCookie login)
      | .panic => getStreamURLOn sortSlice s lives (afterPass s net didCookie login)
      | .wait => Run.waiting (afterPass s net didCookie login) := by
  unfold streamer.getStreamURL
  rw [hlive, getStreamURLOn]
  simp only [getStreamURLPass, checkErr, hdid, hlogin, hres, hplay, hpres, hman, ne_eq,
    not_true_eq_false, if_false]
  have e : afterPass s net didCookie login =
      { channelList := net.channelList, userInfo := net.userInfo, livePage := lives,
        visitorLogin := logins, startPlay := plays,
        sent := net.sent ++ [Request.livePage s.UID] ++ [Request.visitorLogin didCookie] ++
          [Request.startPlay login.userId didCookie.Value login.visitorSt s.UID] } := by
    simp [afterPass, hlive, hlogin, hplay]
  rw [e]
  cases selectURLs sortSlice m <;> rfl

/-- The call `getStreamURL` when start-play answers with a result code other
than 1: the empty pair. -/
theorem getStreamURL_play_refused (sortSlice : SortSlice) (s : streamer) (net : Net)
    (cookies : List Cookie) (lives : List (Reply (List Cookie))) (didCookie : Cookie)
    (login : Login) (logins : List (Reply Login)) (play : StartPlay)
    (plays : List (Reply StartPlay))
    (hlive : net.livePage = Reply.ok cookies :: lives) (hdid : findDid cookies = some didCookie)
    (hlogin : net.visitorLogin = Reply.ok login :: logins) (hres : login.result = 0)
    (hplay : net.startPlay = Reply.ok play :: plays) (hpres : play.result ≠ 1) :
    s.getStreamURL sortSlice net = Run.returned ([], []) (afterPass s net didCookie login) := by
  unfold streamer.getStreamURL
  rw [hlive, getStreamURLOn]
  simp only [getStreamURLPass, checkErr, hdid, hlogin, hres, hplay, hpres, ne_eq,
    not_true_eq_false, not_false_eq_true, if_false, if_true]
  simp [afterPass, hlive, hlogin, hplay]

theorem bitrateLess_strictWeak : StrictWeak bitrateLess := by
  constructor
  · intro x y h
    simp only [bitrateLess, decide_eq_true_eq, decide_eq_false_iff_not] at h ⊢
    omega
  · intro x y z h1 h2
    simp only [bitrateLess, decide_eq_false_iff_not] at h1 h2 ⊢
    omega

/-- Element 0 of a sorted rearrangement of the array: an element of the array
that no element exceeds in bitrate. -/
theorem sorted_head_max (sorted reps : List Representation) (r : Representation)
    (rest : List Representation) (hperm : sorted.Perm reps)
    (hsorted : sorted.Pairwise (fun x y => bitrateLess y x = false))
    (h : sorted = r :: rest) :
    r ∈ reps ∧ ∀ q ∈ reps, q.bitrate ≤ r.bitrate := by
  rw [h] at hperm hsorted
  refine ⟨hperm.subset (List.mem_cons_self _ _), ?_⟩
  intro q hq
  have hq1 : q ∈ r :: rest := hperm.symm.subset hq
  rw [List.mem_cons] at hq1
  rcases hq1 with rfl | hq1
  · exact le_refl _
  · have := (List.pairwise_cons.1 hsorted).1 q hq1
    simp only [bitrateLess, decide_eq_false_iff_not] at this
    omega

theorem sorted_ne_nil (sorted reps : List Representation) (hperm : sorted.Perm reps)
    (hne : reps ≠ []) : ∃ r rest, sorted = r :: rest := by
  cases sorted with
  | nil => exact absurd (List.Perm.nil_eq hperm).symm hne
  | cons r rest => exact ⟨r, rest, rfl⟩

/-- What `selectURLs` gives when element 0 after the sort is `r` and the stream
name occurs in its url. -/
theorem selectURLs_of_head (sortSlice : SortSlice) (m : Manifest) (r : Representation)
    (rest : List Representation) (h : sortSlice bitrateLess m.representation = r :: rest)
    (hname : m.streamName <:+: r.url) :
    ∃ pre post : GoString,
      r.url = pre ++ m.streamName ++ post ∧
      (∀ k, k < pre.length → ¬ m.streamName <+: r.url.drop k) ∧
      selectURLs sortSlice m =
        Pass.ret (ReplaceAll pre (lit "pull") (lit "hlspull") ++ m.streamName ++ lit ".m3u8")
          r.url := by
  have h0 := Index_nonneg_of_infix _ _ hname
  obtain ⟨i, hi⟩ : ∃ i : Nat, Index r.url m.streamName = (i : Int) :=
    ⟨(Index r.url m.streamName).toNat, by omega⟩
  obtain ⟨h1, h2⟩ := Index_first _ _ i hi
  refine ⟨r.url.take i, r.url.drop (i + m.streamName.length), h1, ?_, ?_⟩
  · intro k hk
    rw [List.length_take] at hk
    exact h2 k (by omega)
  · simp only [selectURLs, h, hi]
    have : ¬ ((i : Int) < 0) := by omega
    simp [this]

/-- The body panics at `flvURL[0:i]` when the stream name does not occur in the
url of element 0. -/
theorem selectURLs_of_head_without_name (sortSlice : SortSlice) (m : Manifest)
    (r : Representation) (rest : List Representation)
    (h : sortSlice bitrateLess m.representation = r :: rest)
    (hname : ¬ m.streamName <:+: r.url) :
    selectURLs sortSlice m = Pass.panic := by
  have hneg : Index r.url m.streamName < 0 := by
    by_contra hge
    obtain ⟨i, hi⟩ : ∃ i : Nat, Index r.url m.streamName = (i : Int) :=
      ⟨(Index r.url m.streamName).toNat, by omega⟩
    obtain ⟨h1, _⟩ := Index_first _ _ i hi
    apply hname
    refine ⟨r.url.take i, r.url.drop (i + m.streamName.length), ?_⟩
    exact h1.symm
  simp [selectURLs, h, hneg]

/-- The insertion sort keeps the promise of `sort.Slice`. -/
theorem insertionSlice_sorts : SortsSlices insertionSlice := by
  constructor
  · intro less data _
    exact List.perm_insertionSort _ data
  · intro less data hless
    haveI : IsTotal Representation (fun x y => less y x = false) :=
      ⟨fun x y => by
        cases h : less y x
        · exact Or.inl rfl
        · exact Or.inr (hless.1 y x h)⟩
    haveI : IsTrans Representation (fun x y => less y x = false) :=
      ⟨fun x y z hxy hyz => hless.2 x y z hxy hyz⟩
    exact List.sorted_insertionSort _ data

/-- A sort that keeps the promise of `sort.Slice` gives on every
representation array a rearrangement in descending bitrate. -/
theorem SortsSlices_bitrate (sortSlice : SortSlice) (hsort : SortsSlices sortSlice)
    (reps : List Representation) :
    (sortSlice bitrateLess reps).Perm reps ∧
      (sortSlice bitrateLess reps).Pairwise (fun x y => bitrateLess y x = false) :=
  ⟨hsort.perm bitrateLess reps bitrateLess_strictWeak,
    hsort.sorted bitrateLess reps bitrateLess_strictWeak⟩

/-! ## The FLV URL: the highest bitrate -/

/-- C1: let a pass of `getStreamURL` reach a manifest with a non-empty
representation array, and let `sort.Slice` be a sort that keeps the promise of
its documentation, as the sort of the Go library does
(`sortSliceGo118_sorts`).  Then element 0 behind the sort is a representation
`r` of the array whose bitrate no representation of the array exceeds; the
call returns `r.url` as the FLV URL when the stream name occurs in it, and
starts over after the panic at `flvURL[0:i]` when not. -/
theorem flvURL_has_highest_bitrate (sortSlice : SortSlice) (hsort : SortsSlices sortSlice)
    (s : streamer) (net : Net)
    (cookies : List Cookie) (lives : List (Reply (List Cookie))) (didCookie : Cookie)
    (login : Login) (logins : List (Reply Login)) (play : StartPlay)
    (plays : List (Reply StartPlay)) (m : Manifest)
    (hlive : net.livePage = Reply.ok cookies :: lives) (hdid : findDid cookies = some didCookie)
    (hlogin : net.visitorLogin = Reply.ok login :: logins) (hres : login.result = 0)
    (hplay : net.startPlay = Reply.ok play :: plays) (hpres : play.result = 1)
    (hman : play.videoPlayRes = some m)
    (hne : m.representation ≠ []) :
    ∃ r ∈ m.representation,
      (∀ q ∈ m.representation, q.bitrate ≤ r.bitrate) ∧
      (m.streamName <:+: r.url →
        ∃ hlsURL : GoString,
          s.getStreamURL sortSlice net =
            Run.returned (hlsURL, r.url) (afterPass s net didCookie login)) ∧
      (¬ m.streamName <:+: r.url →
        s.getStreamURL sortSlice net =
          getStreamURLOn sortSlice s lives (afterPass s net didCookie login)) := by
  obtain ⟨hperm, hsorted⟩ := SortsSlices_bitrate sortSlice hsort m.representation
  obtain ⟨r, rest, hr⟩ := sorted_ne_nil _ _ hperm hne
  obtain ⟨hmem, hmax⟩ := sorted_head_max _ _ r rest hperm hsorted hr
  have h := getStreamURL_first_pass sortSlice s net cookies lives didCookie login logins play
    plays m hlive hdid hlogin hres hplay hpres hman
  refine ⟨r, hmem, hmax, ?_, ?_⟩
  · intro hname
    obtain ⟨pre, post, _, _, hsel⟩ := selectURLs_of_head sortSlice m r rest hr hname
    rw [hsel] at h
    exact ⟨_, h⟩
  · intro hname
    rw [selectURLs_of_head_without_name sortSlice m r rest hr hname] at h
    exact h

set_option maxRecDepth 100000 in
/-- Witness of C1: the example of the specification, bitrates 100, 500, 300
with urls `a`, `b`, `c`, sorted by the `sort.Slice` of the Go library: the FLV
URL is `b`. -/
theorem flvURL_has_highest_bitrate_witness :
    SortsSlices sortSliceGo118 ∧
    threeManifest.representation ≠ [] ∧
    bob.getStreamURL sortSliceGo118 (streamNet [Reply.ok ⟨1, some threeManifest⟩]) =
      Run.returned (lit ".m3u8", lit "b")
        (afterPass bob (streamNet [Reply.ok ⟨1, some threeManifest⟩]) ⟨lit "_did", lit "web_1"⟩
          ⟨0, 7, lit "token"⟩) ∧
    ∃ r ∈ threeManifest.representation,
      (∀ q ∈ threeManifest.representation, q.bitrate ≤ r.bitrate) ∧
      (threeManifest.streamName <:+: r.url →
        ∃ hlsURL : GoString,
          bob.getStreamURL sortSliceGo118 (streamNet [Reply.ok ⟨1, some threeManifest⟩]) =
            Run.returned (hlsURL, r.url)
              (afterPass bob (streamNet [Reply.ok ⟨1, some threeManifest⟩])
                ⟨lit "_did", lit "web_1"⟩ ⟨0, 7, lit "token"⟩)) ∧
      (¬ threeManifest.streamName <:+: r.url →
        bob.getStreamURL sortSliceGo118 (streamNet [Reply.ok ⟨1, some threeManifest⟩]) =
          getStreamURLOn sortSliceGo118 bob []
            (afterPass bob (streamNet [Reply.ok ⟨1, some threeManifest⟩])
              ⟨lit "_did", lit "web_1"⟩ ⟨0, 7, lit "token"⟩)) :=
  ⟨sortSliceGo118_sorts, by decide, by decide,
    flvURL_has_highest_bitrate sortSliceGo118 sortSliceGo118_sorts bob
      (streamNet [Reply.ok ⟨1, some threeManifest⟩])
      [⟨lit "lang", lit "zh"⟩, ⟨lit "_did", lit "web_1"⟩] [] ⟨lit "_did", lit "web_1"⟩
      ⟨0, 7, lit "token"⟩ [] ⟨1, some threeManifest⟩ [] threeManifest
      rfl (by decide) rfl rfl rfl rfl rfl (by decide)⟩

/-! ## The FLV URL: ties -/

theorem mem_maximal (reps : List Representation) (r : Representation) :
    r ∈ maximal reps ↔ r ∈ reps ∧ ∀ q ∈ reps, q.bitrate ≤ r.bitrate := by
  simp [maximal, List.mem_filter]

/-- C8 as amended: let a pass of `getStreamURL` reach a manifest with a
non-empty representation array, and let `sort.Slice` be a sort that keeps the
promise of its documentation.  Then element 0 behind the sort is one of the
representations that share the maximum bitrate, `r`; the call returns `r.url`
as the FLV URL when the stream name occurs in it, and starts over when not.
That url is the url of the first of them in the order of the manifest when all
of them carry that url, as when `r` alone has the maximum; which of several
tied representations `sort.Slice` puts first is left open. -/
theorem flvURL_among_tied (sortSlice : SortSlice) (hsort : SortsSlices sortSlice)
    (s : streamer) (net : Net)
    (cookies : List Cookie) (lives : List (Reply (List Cookie))) (didCookie : Cookie)
    (login : Login) (logins : List (Reply Login)) (play : StartPlay)
    (plays : List (Reply StartPlay)) (m : Manifest)
    (hlive : net.livePage = Reply.ok cookies :: lives) (hdid : findDid cookies = some didCookie)
    (hlogin : net.visitorLogin = Reply.ok login :: logins) (hres : login.result = 0)
    (hplay : net.startPlay = Reply.ok play :: plays) (hpres : play.result = 1)
    (hman : play.videoPlayRes = some m)
    (hne : m.representation ≠ []) :
    ∃ r ∈ maximal m.representation,
      (m.streamName <:+: r.url →
        ∃ hlsURL : GoString,
          s.getStreamURL sortSlice net =
            Run.returned (hlsURL, r.url) (afterPass s net didCookie login)) ∧
      (¬ m.streamName <:+: r.url →
        s.getStreamURL sortSlice net =
          getStreamURLOn sortSlice s lives (afterPass s net didCookie login)) ∧
      ∀ first, firstMaximal m.representation = some first →
        (∀ q ∈ maximal m.representation, q.url = first.url) → r.url = first.url := by
  obtain ⟨hperm, hsorted⟩ := SortsSlices_bitrate sortSlice hsort m.representation
  obtain ⟨r, rest, hr⟩ := sorted_ne_nil _ _ hperm hne
  obtain ⟨hmem, hmax⟩ := sorted_head_max _ _ r rest hperm hsorted hr
  have h := getStreamURL_first_pass sortSlice s net cookies lives didCookie login logins play
    plays m hlive hdid hlogin hres hplay hpres hman
  have hrmax : r ∈ maximal m.representation := (mem_maximal _ _).2 ⟨hmem, hmax⟩
  refine ⟨r, hrmax, ?_, ?_, ?_⟩
  · intro hname
    obtain ⟨pre, post, _, _, hsel⟩ := selectURLs_of_head sortSlice m r rest hr hname
    rw [hsel] at h
    exact ⟨_, h⟩
  · intro hname
    rw [selectURLs_of_head_without_name sortSlice m r rest hr hname] at h
    exact h
  · intro first _ hall
    exact hall r hrmax

set_option maxRecDepth 100000 in
/-- Witness of the amended C8: `tiedManifest`, sorted by the `sort.Slice` of the
Go library; `s/a` and `s/b` share the maximum bitrate. -/
theorem flvURL_among_tied_witness :
    SortsSlices sortSliceGo118 ∧
    tiedManifest.representation ≠ [] ∧
    maximal tiedManifest.representation = [⟨9, lit "s/a"⟩, ⟨9, lit "s/b"⟩] ∧
    ∃ r ∈ maximal tiedManifest.representation,
      (tiedManifest.streamName <:+: r.url →
        ∃ hlsURL : GoString,
          bob.getStreamURL sortSliceGo118 (streamNet [Reply.ok ⟨1, some tiedManifest⟩]) =
            Run.returned (hlsURL, r.url)
              (afterPass bob (streamNet [Reply.ok ⟨1, some tiedManifest⟩])
                ⟨lit "_did", lit "web_1"⟩ ⟨0, 7, lit "token"⟩)) ∧
      (¬ tiedManifest.streamName <:+: r.url →
        bob.getStreamURL sortSliceGo118 (streamNet [Reply.ok ⟨1, some tiedManifest⟩]) =
          getStreamURLOn sortSliceGo118 bob []
            (afterPass bob (streamNet [Reply.ok ⟨1, some tiedManifest⟩])
              ⟨lit "_did", lit "web_1"⟩ ⟨0, 7, lit "token"⟩)) ∧
      ∀ first, firstMaximal tiedManifest.representation = some first →
        (∀ q ∈ maximal tiedManifest.representation, q.url = first.url) →
        r.url = first.url :=
  ⟨sortSliceGo118_sorts, by decide, by decide,
    flvURL_among_tied sortSliceGo118 sortSliceGo118_sorts bob
      (streamNet [Reply.ok ⟨1, some tiedManifest⟩])
      [⟨lit "lang", lit "zh"⟩, ⟨lit "_did", lit "web_1"⟩] [] ⟨lit "_did", lit "web_1"⟩
      ⟨0, 7, lit "token"⟩ [] ⟨1, some tiedManifest⟩ [] tiedManifest
      rfl (by decide) rfl rfl rfl rfl rfl (by decide)⟩

set_option maxRecDepth 100000 in
/-- Counterexample to C8: in `tiedManifest` the urls `s/a` and `s/b` share the
maximum bitrate 9 and `s/a` comes first in the manifest, but the FLV URL that
`getStreamURL` returns with the `sort.Slice` of the Go library is `s/b`: the
partition step of the sort swaps the pivot past the two.  The sorted array is
a rearrangement of the manifest in descending bitrate. -/
theorem flvURL_not_first_of_tied :
    firstMaximal tiedManifest.representation = some ⟨9, lit "s/a"⟩ ∧
    bob.getStreamURL sortSliceGo118 (streamNet [Reply.ok ⟨1, some tiedManifest⟩]) =
      Run.returned (lit "s.m3u8", lit "s/b")
        (afterPass bob (streamNet [Reply.ok ⟨1, some tiedManifest⟩]) ⟨lit "_did", lit "web_1"⟩
          ⟨0, 7, lit "token"⟩) ∧
    (sortSliceGo118 bitrateLess tiedManifest.representation).map (fun r => r.bitrate) =
      [9, 9, 0, 0, 0, 0, 0, 0, 0, 0, 0, 0, 0] ∧
    (sortSliceGo118 bitrateLess tiedManifest.representation).map (fun r => r.url) =
      [lit "s/b", lit "s/a", lit "s/x", lit "s/p", lit "s/q", lit "s/r", lit "s/t", lit "s/u",
        lit "s/v", lit "s/w", lit "s/y", lit "s/z", lit "s/n"] := by
  refine ⟨by decide, by decide, by decide, by decide⟩

/-! ## The HLS URL -/

/-- C2: when element 0 of the sorted representations is `r` and the stream name
occurs in `r.url`, the FLV URL, then `r.url` splits at the first instance of
the stream name into `pre`, the stream name and `post` (no instance starts
before the end of `pre`), and `getStreamURL` returns as HLS URL
`strings.ReplaceAll(pre, "pull", "hlspull")` followed by the stream name and
`.m3u8`, along with the FLV URL. -/
theorem hlsURL_from_flvURL (sortSlice : SortSlice) (s : streamer) (net : Net)
    (cookies : List Cookie) (lives : List (Reply (List Cookie))) (didCookie : Cookie)
    (login : Login) (logins : List (Reply Login)) (play : StartPlay)
    (plays : List (Reply StartPlay)) (m : Manifest)
    (r : Representation) (rest : List Representation)
    (hlive : net.livePage = Reply.ok cookies :: lives) (hdid : findDid cookies = some didCookie)
    (hlogin : net.visitorLogin = Reply.ok login :: logins) (hres : login.result = 0)
    (hplay : net.startPlay = Reply.ok play :: plays) (hpres : play.result = 1)
    (hman : play.videoPlayRes = some m)
    (hsorted : sortSlice bitrateLess m.representation = r :: rest)
    (hname : m.streamName <:+: r.url) :
    ∃ pre post : GoString,
      r.url = pre ++ m.streamName ++ post ∧
      (∀ k, k < pre.length → ¬ m.streamName <+: r.url.drop k) ∧
      s.getStreamURL sortSlice net =
        Run.returned
          (ReplaceAll pre (lit "pull") (lit "hlspull") ++ m.streamName ++ lit ".m3u8", r.url)
          (afterPass s net didCookie login) := by
  obtain ⟨pre, post, h1, h2, hsel⟩ := selectURLs_of_head sortSlice m r rest hsorted hname
  have h := getStreamURL_first_pass sortSlice s net cookies lives didCookie login logins play
    plays m hlive hdid hlogin hres hplay hpres hman
  rw [hsel] at h
  exact ⟨pre, post, h1, h2, h⟩

set_option maxRecDepth 100000 in
/-- Witness of C2: the example of the specification.  The FLV URL
`https://edgepull.example.com/streamName123?auth=1` with the stream name
`streamName123` gives the HLS URL
`https://edgehlspull.example.com/streamName123.m3u8`. -/
theorem hlsURL_from_flvURL_witness :
    sortSliceGo118 bitrateLess edgeManifest.representation =
      [⟨2000, lit "https://edgepull.example.com/streamName123?auth=1"⟩] ∧
    edgeManifest.streamName <:+: lit "https://edgepull.example.com/streamName123?auth=1" ∧
    bob.getStreamURL sortSliceGo118 (streamNet [Reply.ok ⟨1, some edgeManifest⟩]) =
      Run.returned
        (lit "https://edgehlspull.example.com/streamName123.m3u8",
          lit "https://edgepull.example.com/streamName123?auth=1")
        (afterPass bob (streamNet [Reply.ok ⟨1, some edgeManifest⟩]) ⟨lit "_did", lit "web_1"⟩
          ⟨0, 7, lit "token"⟩) ∧
    ∃ pre post : GoString,
      lit "https://edgepull.example.com/streamName123?auth=1" =
        pre ++ edgeManifest.streamName ++ post ∧
      (∀ k, k < pre.length → ¬ edgeManifest.streamName <+:
        (lit "https://edgepull.example.com/streamName123?auth=1").drop k) ∧
      bob.getStreamURL sortSliceGo118 (streamNet [Reply.ok ⟨1, some edgeManifest⟩]) =
        Run.returned
          (ReplaceAll pre (lit "pull") (lit "hlspull") ++ edgeManifest.streamName ++
            lit ".m3u8", lit "https://edgepull.example.com/streamName123?auth=1")
          (afterPass bob (streamNet [Reply.ok ⟨1, some edgeManifest⟩])
            ⟨lit "_did", lit "web_1"⟩ ⟨0, 7, lit "token"⟩) :=
  ⟨by decide, by decide, by decide,
    hlsURL_from_flvURL sortSliceGo118 bob (streamNet [Reply.ok ⟨1, some edgeManifest⟩])
      [⟨lit "lang", lit "zh"⟩, ⟨lit "_did", lit "web_1"⟩] [] ⟨lit "_did", lit "web_1"⟩
      ⟨0, 7, lit "token"⟩ [] ⟨1, some edgeManifest⟩ [] edgeManifest
      ⟨2000, lit "https://edgepull.example.com/streamName123?auth=1"⟩ []
      rfl (by decide) rfl rfl rfl rfl rfl (by decide) (by decide)⟩

/-! ## `strings.ReplaceAll` -/

theorem replaceLoop_nil (old new : GoString) (fuel : Nat) : replaceLoop old new fuel [] = [] := by
  cases fuel <;> rfl

/-- The loop of `strings.Replace` does not depend on the fuel once it covers
the string. -/
theorem replaceLoop_fuel (old new : GoString) (hold : old ≠ []) (fuel1 : Nat) :
    ∀ (fuel2 : Nat) (s : GoString), s.length ≤ fuel1 → s.length ≤ fuel2 →
      replaceLoop old new fuel1 s = replaceLoop old new fuel2 s := by
  induction fuel1 with
  | zero =>
    intro fuel2 s h1 _
    have : s = [] := List.length_eq_zero.1 (by omega)
    subst this
    rw [replaceLoop_nil, replaceLoop_nil]
  | succ fuel1 ih =>
    intro fuel2 s h1 h2
    cases s with
    | nil => rw [replaceLoop_nil, replaceLoop_nil]
    | cons c t =>
      obtain ⟨fuel2, rfl⟩ : ∃ f, fuel2 = f + 1 := ⟨fuel2 - 1, by simp at h2; omega⟩
      simp only [List.length_cons] at h1 h2
      have hpos : 0 < old.length := List.length_pos.2 hold
      simp only [replaceLoop]
      split
      · have hlen : ((c :: t).drop old.length).length ≤ t.length := by
          simp only [List.length_drop, List.length_cons]
          omega
        rw [ih fuel2 _ (by omega) (by omega)]
      · rw [ih fuel2 _ (by omega) (by omega)]

/-- A string without an instance of `old` is left as it is. -/
theorem ReplaceAll_none (s old new : GoString) (hold : old ≠ []) (h : ¬ old <:+: s) :
    ReplaceAll s old new = s := by
  unfold ReplaceAll
  rw [if_neg hold]
  generalize s.length = fuel
  induction fuel generalizing s with
  | zero => rfl
  | succ fuel ih =>
    cases s with
    | nil => rfl
    | cons c t =>
      simp only [replaceLoop]
      have hp : ¬ HasPrefix (c :: t) old = true := by
        rw [HasPrefix_iff]
        exact fun hp => h hp.isInfix
      rw [if_neg hp, ih t (fun ht => h (List.infix_cons ht))]

/-- The first instance of `old` is replaced by `new`, and the replacing goes on
behind it: with `ReplaceAll_none` this determines `strings.ReplaceAll`. -/
theorem ReplaceAll_first (a b old new : GoString) (hold : old ≠ [])
    (hfirst : ∀ k, k < a.length → ¬ old <+: (a ++ old ++ b).drop k) :
    ReplaceAll (a ++ old ++ b) old new = a ++ new ++ ReplaceAll b old new := by
  unfold ReplaceAll
  rw [if_neg hold, if_neg hold]
  induction a with
  | nil =>
    obtain ⟨d, old1, rfl⟩ : ∃ d old1, old = d :: old1 := by
      cases old with
      | nil => exact absurd rfl hold
      | cons d old1 => exact ⟨d, old1, rfl⟩
    have e : ([] ++ d :: old1 ++ b) = d :: (old1 ++ b) := rfl
    rw [e, List.length_cons, replaceLoop]
    have hp : HasPrefix (d :: (old1 ++ b)) (d :: old1) = true := by
      rw [HasPrefix_iff]
      exact ⟨b, rfl⟩
    rw [if_pos hp]
    have hd : (d :: (old1 ++ b)).drop (d :: old1).length = b := by
      rw [List.length_cons, List.drop_succ_cons, List.drop_left]
    rw [hd, List.nil_append]
    congr 1
    exact replaceLoop_fuel _ _ hold _ _ _ (by rw [List.length_append]; omega) (le_refl _)
  | cons c a ih =>
    have h0 := hfirst 0 (by simp)
    have hp : ¬ HasPrefix (c :: (a ++ old ++ b)) old = true := by
      rw [HasPrefix_iff]
      simpa using h0
    have ih1 := ih (fun k hk => by
      have := hfirst (k + 1) (by simp; omega)
      simpa using this)
    have e : (c :: a ++ old ++ b) = c :: (a ++ old ++ b) := rfl
    rw [e, List.length_cons, replaceLoop, if_neg hp, ih1]
    rfl

/-! ## No representation in the manifest -/

/-- C5 as amended: a start-play answer whose result code is not 1 makes
`getStreamURL` return the empty pair at once, with no panic and no further
request.  A start-play answer with result code 1 whose manifest has no
representation makes the body panic at `representation[0]`; the deferred
function recovers and calls `getStreamURL` again, so the call goes on from the
next answer of the live page, and is still asking when there is none.
`sort.Slice` may be any sort that keeps the promise of its documentation. -/
theorem getStreamURL_without_representation (sortSlice : SortSlice)
    (hsort : SortsSlices sortSlice) (s : streamer) (net : Net)
    (cookies : List Cookie) (lives : List (Reply (List Cookie))) (didCookie : Cookie)
    (login : Login) (logins : List (Reply Login)) (play : StartPlay)
    (plays : List (Reply StartPlay))
    (hlive : net.livePage = Reply.ok cookies :: lives) (hdid : findDid cookies = some didCookie)
    (hlogin : net.visitorLogin = Reply.ok login :: logins) (hres : login.result = 0)
    (hplay : net.startPlay = Reply.ok play :: plays) :
    (play.result ≠ 1 →
      s.getStreamURL sortSlice net = Run.returned ([], []) (afterPass s net didCookie login)) ∧
    (∀ m : Manifest, play.result = 1 → play.videoPlayRes = some m → m.representation = [] →
      s.getStreamURL sortSlice net =
        getStreamURLOn sortSlice s lives (afterPass s net didCookie login) ∧
      (lives = [] →
        s.getStreamURL sortSlice net =
          Run.waiting
            { afterPass s net didCookie login with
              livePage := []
              sent := (afterPass s net didCookie login).sent ++ [Request.livePage s.UID] })) := by
  refine ⟨?_, ?_⟩
  · intro hpres
    exact getStreamURL_play_refused sortSlice s net cookies lives didCookie login logins play
      plays hlive hdid hlogin hres hplay hpres
  · intro m hpres hman hempty
    have h := getStreamURL_first_pass sortSlice s net cookies lives didCookie login logins play
      plays m hlive hdid hlogin hres hplay hpres hman
    have hnil : sortSlice bitrateLess [] = [] :=
      List.Perm.eq_nil (hsort.perm bitrateLess [] bitrateLess_strictWeak)
    have hsel : selectURLs sortSlice m = Pass.panic := by
      simp [selectURLs, hempty, hnil]
    rw [hsel] at h
    refine ⟨h, ?_⟩
    intro hl
    rw [h, hl]
    rfl

set_option maxRecDepth 100000 in
/-- Witness of the amended C5: a round whose start-play has result code 1 and
a manifest without representations, and a round whose start-play is refused. -/
theorem getStreamURL_without_representation_witness :
    SortsSlices sortSliceGo118 ∧
    (((1 : Int) ≠ 1 →
      bob.getStreamURL sortSliceGo118 (streamNet [Reply.ok ⟨1, some emptyManifest⟩]) =
        Run.returned ([], [])
          (afterPass bob (streamNet [Reply.ok ⟨1, some emptyManifest⟩])
            ⟨lit "_did", lit "web_1"⟩ ⟨0, 7, lit "token"⟩)) ∧
    (∀ m : Manifest, (1 : Int) = 1 → some emptyManifest = some m → m.representation = [] →
      bob.getStreamURL sortSliceGo118 (streamNet [Reply.ok ⟨1, some emptyManifest⟩]) =
        getStreamURLOn sortSliceGo118 bob []
          (afterPass bob (streamNet [Reply.ok ⟨1, some emptyManifest⟩])
            ⟨lit "_did", lit "web_1"⟩ ⟨0, 7, lit "token"⟩) ∧
      (([] : List (Reply (List Cookie))) = [] →
        bob.getStreamURL sortSliceGo118 (streamNet [Reply.ok ⟨1, some emptyManifest⟩]) =
          Run.waiting
            { afterPass bob (streamNet [Reply.ok ⟨1, some emptyManifest⟩])
                ⟨lit "_did", lit "web_1"⟩ ⟨0, 7, lit "token"⟩ with
              livePage := []
              sent := (afterPass bob (streamNet [Reply.ok ⟨1, some emptyManifest⟩])
                ⟨lit "_did", lit "web_1"⟩ ⟨0, 7, lit "token"⟩).sent ++
                  [Request.livePage bob.UID] }))) ∧
    ((3 : Int) ≠ 1 →
      bob.getStreamURL sortSliceGo118 (streamNet [Reply.ok ⟨3, none⟩]) =
        Run.returned ([], [])
          (afterPass bob (streamNet [Reply.ok ⟨3, none⟩])
            ⟨lit "_did", lit "web_1"⟩ ⟨0, 7, lit "token"⟩)) :=
  ⟨sortSliceGo118_sorts,
    getStreamURL_without_representation sortSliceGo118 sortSliceGo118_sorts bob
      (streamNet [Reply.ok ⟨1, some emptyManifest⟩])
      [⟨lit "lang", lit "zh"⟩, ⟨lit "_did", lit "web_1"⟩] [] ⟨lit "_did", lit "web_1"⟩
      ⟨0, 7, lit "token"⟩ [] ⟨1, some emptyManifest⟩ [] rfl (by decide) rfl rfl rfl,
    (getStreamURL_without_representation sortSliceGo118 sortSliceGo118_sorts bob
      (streamNet [Reply.ok ⟨3, none⟩])
      [⟨lit "lang", lit "zh"⟩, ⟨lit "_did", lit "web_1"⟩] [] ⟨lit "_did", lit "web_1"⟩
      ⟨0, 7, lit "token"⟩ [] ⟨3, none⟩ [] rfl (by decide) rfl rfl rfl).1⟩

set_option maxRecDepth 100000 in
/-- Counterexample to C5: start-play answers with result code 1 and a manifest
without representations.  With that one round `getStreamURL` does not return
the empty pair: it has asked for the live page a second time and is waiting.
When a second round follows with a manifest that has a representation, the call
returns the URLs of the second round, after six requests. -/
theorem getStreamURL_empty_manifest_retried :
    bob.getStreamURL sortSliceGo118 (streamNet [Reply.ok ⟨1, some emptyManifest⟩]) =
      Run.waiting
        { streamNet [] with
          sent := [Request.livePage 1002, Request.visitorLogin ⟨lit "_did", lit "web_1"⟩,
            Request.startPlay 7 (lit "web_1") (lit "token") 1002, Request.livePage 1002] } ∧
    bob.getStreamURL sortSliceGo118
        (streamNet [Reply.ok ⟨1, some emptyManifest⟩, Reply.ok ⟨1, some edgeManifest⟩]) =
      Run.returned
        (lit "https://edgehlspull.example.com/streamName123.m3u8",
          lit "https://edgepull.example.com/streamName123?auth=1")
        { streamNet [] with
          sent := [Request.livePage 1002, Request.visitorLogin ⟨lit "_did", lit "web_1"⟩,
            Request.startPlay 7 (lit "web_1") (lit "token") 1002, Request.livePage 1002,
            Request.visitorLogin ⟨lit "_did", lit "web_1"⟩,
            Request.startPlay 7 (lit "web_1") (lit "token") 1002] } := by
  refine ⟨by decide, by decide⟩

/-! ## `getID` and `printStreamURL` -/

theorem getIDOn_fails (uid : Nat) (fails : List (Reply UserInfo))
    (hf : ∀ r ∈ fails, checkErr r = none) : ∀ (rest : List (Reply UserInfo)) (net : Net),
    getIDOn uid (fails ++ rest) net =
      getIDOn uid rest
        { net with
          userInfo := rest
          sent := net.sent ++ List.replicate fails.length (Request.userInfo uid) } := by
  induction fails with
  | nil =>
    intro rest net
    cases rest <;> simp [getIDOn]
  | cons r fails ih =>
    intro rest net
    have hr : checkErr r = none := hf r (List.mem_cons_self _ _)
    have ih1 := ih (fun x hx => hf x (List.mem_cons_of_mem _ hx)) rest
    have e : (r :: fails) ++ rest = r :: (fails ++ rest) := rfl
    rw [e, getIDOn]
    simp only [hr]
    rw [ih1]
    simp [List.replicate_succ, List.append_assoc]

/-- The call `getID(uid)` on a user info that arrives after some failures: the
empty string for a non-zero result code, else the name of the profile. -/
theorem getID_after_fails (uid : Nat) (fails : List (Reply UserInfo))
    (hf : ∀ r ∈ fails, checkErr r = none) (v : UserInfo) (rest : List (Reply UserInfo))
    (net : Net) (hnet : net.userInfo = fails ++ Reply.ok v :: rest) :
    getID uid net =
      Run.returned (if v.result ≠ 0 then [] else v.name)
        { net with
          userInfo := rest
          sent := net.sent ++ List.replicate (fails.length + 1) (Request.userInfo uid) } := by
  unfold getID
  rw [hnet, getIDOn_fails uid fails hf]
  simp only [getIDOn, checkErr]
  have e : List.replicate (fails.length + 1) (Request.userInfo uid) =
      List.replicate fails.length (Request.userInfo uid) ++ [Request.userInfo uid] := by
    rw [List.replicate_succ']
  split <;> simp [e, List.append_assoc]

/-- C4 as amended: let the user info arrive, after finitely many failed
attempts, with result code and profile name `v`, and let `net1` be the network
after it, on which only user-info requests were sent.  With a non-zero result
code `getID` returns the empty string and `printStreamURL` the empty pair on
`net1`; so does `printStreamURL` when the result code is zero and the name is
empty, and when the name is not empty and the uid is not in the published map.
When the result code is zero, the name is not empty and the uid is in the
published map, `printStreamURL` is the call of `getStreamURL` on `net1`. -/
theorem printStreamURL_cases (sortSlice : SortSlice) (liveRooms : ConcurrentMap) (uid : Nat)
    (net : Net) (fails : List (Reply UserInfo)) (v : UserInfo) (rest : List (Reply UserInfo))
    (net1 : Net)
    (hfails : ∀ r ∈ fails, r = Reply.netErr ∨ r = Reply.badJSON)
    (hnet : net.userInfo = fails ++ Reply.ok v :: rest)
    (hnet1 : net1 =
      { net with
        userInfo := rest
        sent := net.sent ++ List.replicate (fails.length + 1) (Request.userInfo uid) }) :
    (v.result ≠ 0 →
      getID uid net = Run.returned [] net1 ∧
      printStreamURL sortSlice liveRooms uid net = Run.returned ([], []) net1) ∧
    (v.result = 0 → v.name = [] →
      printStreamURL sortSlice liveRooms uid net = Run.returned ([], []) net1) ∧
    (v.result = 0 → v.name ≠ [] → (streamer.mk uid v.name).isLiveOn liveRooms = false →
      printStreamURL sortSlice liveRooms uid net = Run.returned ([], []) net1) ∧
    (v.result = 0 → v.name ≠ [] → (streamer.mk uid v.name).isLiveOn liveRooms = true →
      printStreamURL sortSlice liveRooms uid net =
        (streamer.mk uid v.name).getStreamURL sortSlice net1) := by
  have hf : ∀ r ∈ fails, checkErr r = none := by
    intro r hr
    rcases hfails r hr with h | h <;> rw [h] <;> rfl
  have hid := getID_after_fails uid fails hf v rest net hnet
  rw [← hnet1] at hid
  refine ⟨?_, ?_, ?_, ?_⟩
  · intro hv
    rw [if_pos hv] at hid
    exact ⟨hid, by simp [printStreamURL, hid]⟩
  · intro hv hname
    simp [printStreamURL, hid, hv, hname]
  · intro hv hname hlive
    simp [printStreamURL, hid, hv, hname, hlive]
  · intro hv hname hlive
    simp [printStreamURL, hid, hv, hname, hlive]

set_option maxRecDepth 100000 in
/-- Witness of the amended C4: the user info of `bob` arrives after one
transport error; `bob` is in the published map, and `printStreamURL` returns
the pair of `getStreamURL`. -/
theorem printStreamURL_cases_witness :
    (∀ r ∈ [(Reply.netErr : Reply UserInfo)], r = Reply.netErr ∨ r = Reply.badJSON) ∧
    (streamer.mk 1002 (lit "bob")).isLiveOn publishedRooms = true ∧
    printStreamURL sortSliceGo118 publishedRooms 1002
        (profileNet [Reply.netErr, Reply.ok ⟨0, lit "bob"⟩]) =
      Run.returned
        (lit "https://edgehlspull.example.com/streamName123.m3u8",
          lit "https://edgepull.example.com/streamName123?auth=1")
        { streamNet [] with
          sent := [Request.userInfo 1002, Request.userInfo 1002, Request.livePage 1002,
            Request.visitorLogin ⟨lit "_did", lit "web_1"⟩,
            Request.startPlay 7 (lit "web_1") (lit "token") 1002] } ∧
    ((0 : Int) = 0 → lit "bob" ≠ [] →
      (streamer.mk 1002 (lit "bob")).isLiveOn publishedRooms = true →
      printStreamURL sortSliceGo118 publishedRooms 1002
          (profileNet [Reply.netErr, Reply.ok ⟨0, lit "bob"⟩]) =
        (streamer.mk 1002 (lit "bob")).getStreamURL sortSliceGo118
          { profileNet [] with sent := [Request.userInfo 1002, Request.userInfo 1002] }) :=
  ⟨by decide, by decide, by decide,
    (printStreamURL_cases sortSliceGo118 publishedRooms 1002
      (profileNet [Reply.netErr, Reply.ok ⟨0, lit "bob"⟩]) [Reply.netErr] ⟨0, lit "bob"⟩ []
      { profileNet [] with sent := [Request.userInfo 1002, Request.userInfo 1002] }
      (by decide) rfl rfl).2.2.2⟩

set_option maxRecDepth 100000 in
/-- Counterexample to C4: the user info answers with result code 0 and an empty
profile name, and uid 1002 is in the published map.  None of the two cases of
the claim applies, `getStreamURL` on the network after `getID` returns a pair
of URLs, and yet `printStreamURL` returns the empty pair without any request of
the negotiation. -/
theorem printStreamURL_empty_name :
    getID 1002 (profileNet [Reply.ok ⟨0, []⟩]) =
      Run.returned [] { profileNet [] with sent := [Request.userInfo 1002] } ∧
    (streamer.mk 1002 []).isLiveOn publishedRooms = true ∧
    (streamer.mk 1002 []).getStreamURL sortSliceGo118
        { profileNet [] with sent := [Request.userInfo 1002] } =
      Run.returned
        (lit "https://edgehlspull.example.com/streamName123.m3u8",
          lit "https://edgepull.example.com/streamName123?auth=1")
        { streamNet [] with
          sent := [Request.userInfo 1002, Request.livePage 1002,
            Request.visitorLogin ⟨lit "_did", lit "web_1"⟩,
            Request.startPlay 7 (lit "web_1") (lit "token") 1002] } ∧
    printStreamURL sortSliceGo118 publishedRooms 1002 (profileNet [Reply.ok ⟨0, []⟩]) =
      Run.returned ([], []) { profileNet [] with sent := [Request.userInfo 1002] } := by
  refine ⟨by decide, by decide, by decide, by decide⟩

end AcFunLive
